import Mathlib

/-! crypto-swisc-web3js: the transaction script and the contract reader.

A shallow embedding of `src/2-transactions.js` and `src/1-readContracts.js`.

* Values of the scripts are `JSVal`s, byte buffers are lists of bytes.
* The helpers the scripts call from `web3`, `ethereumjs-tx`, `rlp` and Node's
  `Buffer` are not part of the repository; they are modelled here, each under a
  doc comment saying so.  The two cryptographic primitives (Keccak-256 and the
  secp256k1 signer) and the presentation helpers are parameters (`Lib`); `ethLib`
  instantiates them with Keccak-256 and ECDSA over secp256k1.
* A run of a script is an event machine: network calls are issued, the node
  completes an outstanding call, the callback of that call runs.  Nothing in the
  scripts catches an exception: one thrown in a callback ends the process, and no
  later callback runs.
-/

namespace Swisc

/-! ## Values and buffers -/

/-- One octet of a Node `Buffer`. -/
abbrev Byte := Fin 256

/-- A Node `Buffer`. -/
abbrev Bytes := List Byte

/-- The JavaScript values that the two scripts handle. -/
inductive JSVal where
  | undefined
  | num (n : Nat)
  | str (s : String)
  | bool (b : Bool)
  | error (message : String)
  deriving DecidableEq, Repr

/-- Modelled from the spec: one lowercase hexadecimal digit, as printed by
`Buffer.toString('hex')` and `BN.toString(16)` (library code, not under src/). -/
def hexDigit (d : Nat) : Char :=
  if d < 10 then Char.ofNat (48 + d) else Char.ofNat (87 + d)

/-- Modelled from the spec: value of a hexadecimal digit of either case, as read by
`Buffer.from(_, 'hex')` (library code, not under src/). -/
def hexVal (c : Char) : Option Nat :=
  if 48 ≤ c.toNat ∧ c.toNat ≤ 57 then some (c.toNat - 48)
  else if 97 ≤ c.toNat ∧ c.toNat ≤ 102 then some (c.toNat - 87)
  else if 65 ≤ c.toNat ∧ c.toNat ≤ 70 then some (c.toNat - 55)
  else none

/-- Modelled from the spec: `Buffer.toString('hex')` (Node built-in, not under src/):
two lowercase digits per byte, high nibble first. -/
def toStringHex : Bytes → List Char
  | [] => []
  | b :: bs => hexDigit (b.val / 16) :: hexDigit (b.val % 16) :: toStringHex bs

/-- Modelled from the spec: `Buffer.from(_, 'hex')` (Node built-in, not under src/):
reads pairs of digits and stops at the first pair that is not hexadecimal. -/
def fromHex : List Char → Bytes
  | c1 :: c2 :: rest =>
    match hexVal c1, hexVal c2 with
    | some h, some l => Fin.ofNat (h * 16 + l) :: fromHex rest
    | _, _ => []
  | _ => []

/-- Digits of `n` in `base`, most significant first, none for zero; `fuel` bounds the
number of digits. -/
def digitsBE (base : Nat) : Nat → Nat → List Nat
  | 0, _ => []
  | fuel + 1, n => if n = 0 then [] else digitsBE base fuel (n / base) ++ [n % base]

/-- Value of a list of digits, most significant first. -/
def ofDigitsBE (base : Nat) (ds : List Nat) : Nat :=
  ds.foldl (fun acc d => acc * base + d) 0

/-- Modelled from the spec: `BN.toString(radix)` for a non-negative number (bn.js,
not under src/): no leading zero, and the single digit `0` for zero. -/
def bnToString (radix n : Nat) : List Char :=
  if n = 0 then [hexDigit 0] else (digitsBE radix n n).map hexDigit

/-- Value of a decimal digit. -/
def decVal (c : Char) : Option Nat :=
  if 48 ≤ c.toNat ∧ c.toNat ≤ 57 then some (c.toNat - 48) else none

/-- Modelled from the spec: `new BN(s, 10)` for a string of decimal digits (bn.js, not
under src/); `none` when a character is not a digit. -/
def parseDec (cs : List Char) : Option Nat :=
  cs.foldl (fun acc c => acc.bind fun a => (decVal c).map fun d => a * 10 + d) (some 0)

/-- Value of a string of hexadecimal digits; `none` when a character is not one. -/
def parseHex (cs : List Char) : Option Nat :=
  cs.foldl (fun acc c => acc.bind fun a => (hexVal c).map fun d => a * 16 + d) (some 0)

/-- Value of a buffer read as a big-endian number (`bufferToInt`). -/
def bytesToNat (bs : Bytes) : Nat :=
  ofDigitsBE 256 (bs.map Fin.val)

/-! ## web3.utils -/

/-- Modelled from the spec: `web3.utils.numberToHex` (web3, not under src/): the
prefix `0x` followed by the hexadecimal numeral. -/
def numberToHex (n : Nat) : String :=
  "0x" ++ String.mk (bnToString 16 n)

/-- Modelled from the spec: `web3.utils.hexToNumber` (web3, not under src/): the
number that a `0x` numeral denotes. -/
def hexToNumber (s : String) : Option Nat :=
  match s.data with
  | '0' :: 'x' :: c :: rest => parseHex (c :: rest)
  | _ => none

/-- Modelled from the spec: `web3.utils.toHex` (web3, not under src/) on the inputs
the script passes: a number, a string of decimal digits (what `toWei` returns), or
`undefined`, which it hands back unchanged.  Other inputs are outside the model. -/
def toHex : JSVal → Except String JSVal
  | .undefined => .ok .undefined
  | .num n => .ok (.str (numberToHex n))
  | .str s =>
    match s.data, parseDec s.data with
    | _ :: _, some n => .ok (.str (numberToHex n))
    | _, _ => .error "toHex: input outside the model"
  | _ => .error "toHex: input outside the model"

/-- Modelled from the spec: the unit table of `web3.utils.toWei` (web3, not under
src/): the number of decimals of a unit, 18 for ether and 9 for gwei. -/
def unitDecimals (unit : String) : Option Nat :=
  if unit = "wei" then some 0
  else if unit = "kwei" then some 3
  else if unit = "mwei" then some 6
  else if unit = "gwei" then some 9
  else if unit = "szabo" then some 12
  else if unit = "finney" then some 15
  else if unit = "ether" then some 18
  else none

/-- Modelled from the spec: `web3.utils.toWei` on a non-negative decimal string (web3,
not under src/): the whole part scaled by `10 ^ decimals` plus the fraction padded with
zeros to `decimals` digits; the result is the decimal string of that integer. -/
def toWei (amount unit : String) : Except String JSVal :=
  match unitDecimals unit with
  | none => .error "toWei: unknown unit"
  | some k =>
    let whole := amount.data.takeWhile (· ≠ '.')
    let frac := (amount.data.dropWhile (· ≠ '.')).drop 1
    let whole := if whole = [] then ['0'] else whole
    let frac := if frac = [] then ['0'] else frac
    if amount.data = ['.'] then .error "toWei: invalid value"
    else if k < frac.length then .error "toWei: too many decimal places"
    else
      match parseDec whole, parseDec (frac ++ List.replicate (k - frac.length) '0') with
      | some w, some f => .ok (.str (String.mk (bnToString 10 (w * 10 ^ k + f))))
      | _, _ => .error "toWei: invalid value"

/-! ## ethereumjs-util -/

/-- Modelled from the spec: `isHexString` (ethereumjs-util, not under src/): the text
matches `0x` followed by hexadecimal digits only. -/
def isHexString (s : String) : Bool :=
  match s.data with
  | '0' :: 'x' :: rest => rest.all fun c => (hexVal c).isSome
  | _ => false

/-- Modelled from the spec: `stripHexPrefix` (ethereumjs-util, not under src/). -/
def stripHexPrefix (cs : List Char) : List Char :=
  match cs with
  | '0' :: 'x' :: rest => rest
  | _ => cs

/-- Modelled from the spec: `padToEven` (ethereumjs-util, not under src/). -/
def padToEven (cs : List Char) : List Char :=
  if cs.length % 2 = 1 then '0' :: cs else cs

/-- Modelled from the spec: `intToBuffer` (ethereumjs-util, not under src/), also the
length bytes of `rlp`: the hexadecimal numeral padded to whole bytes. -/
def intToBuffer (n : Nat) : Bytes :=
  fromHex (padToEven (bnToString 16 n))

/-- Modelled from the spec: `Buffer.from(text)` (Node built-in, not under src/): the
UTF-8 bytes of a string. -/
def utf8Bytes (s : String) : Bytes :=
  s.toUTF8.data.toList.map fun b => Fin.ofNat b.toNat

/-- Modelled from the spec: `toBuffer` (ethereumjs-util, not under src/). -/
def toBuffer : JSVal → Except String Bytes
  | .undefined => .ok []
  | .num n => .ok (intToBuffer n)
  | .str s =>
    if isHexString s then .ok (fromHex (padToEven (stripHexPrefix s.data)))
    else .ok (utf8Bytes s)
  | _ => .error "invalid type"

/-- Modelled from the spec: `stripZeros` (ethereumjs-util, not under src/): drops
the leading zero bytes. -/
def stripZeros (bs : Bytes) : Bytes :=
  bs.dropWhile (· = 0)

/-- Modelled from the spec: a field descriptor of `ethereumjs-tx` (not under src/);
`length = 0` stands for a field without a length. -/
structure Field where
  name : String
  aliasName : Option String
  length : Nat
  allowLess : Bool
  allowZero : Bool
  default : Bytes
  deriving DecidableEq, Repr

/-- Modelled from the spec: the setter that `defineProperties` installs for a field
(ethereumjs-util, not under src/), on a buffer. -/
def setBytes (f : Field) (v : Bytes) : Except String Bytes :=
  let v := if toStringHex v = ['0', '0'] ∧ f.allowZero = false then [] else v
  if f.allowLess = true ∧ f.length ≠ 0 then
    let v := stripZeros v
    if v.length ≤ f.length then .ok v
    else .error ("The field " ++ f.name ++ " must not have more " ++ toString f.length ++ " bytes")
  else if ¬ (f.allowZero = true ∧ v.length = 0) ∧ f.length ≠ 0 then
    if f.length = v.length then .ok v
    else .error ("The field " ++ f.name ++ " must have byte length of " ++ toString f.length)
  else .ok v

/-- The setter of a field on any value: `toBuffer`, then the checks. -/
def setField (f : Field) (v : JSVal) : Except String Bytes :=
  match toBuffer v with
  | .ok b => setBytes f b
  | .error e => .error e

/-! ## rlp -/

/-- Modelled from the spec: `encodeLength` of the canonical length-prefixed encoding
(rlp, not under src/). -/
def encodeLength (len offset : Nat) : Bytes :=
  if len < 56 then [Fin.ofNat (len + offset)]
  else
    let hexLength := intToBuffer len
    intToBuffer (offset + 55 + hexLength.length) ++ hexLength

/-- Modelled from the spec: the encoding of one byte string (rlp, not under src/). -/
def encodeItem (input : Bytes) : Bytes :=
  match input with
  | [b] => if b.val < 128 then [b] else encodeLength 1 128 ++ [b]
  | _ => encodeLength input.length 128 ++ input

/-- Modelled from the spec: the encoding of an ordered list of byte strings (rlp, not
under src/). -/
def rlpEncode (items : List Bytes) : Bytes :=
  let buf := (items.map encodeItem).flatten
  encodeLength buf.length 192 ++ buf

/-- Modelled from the spec: `Buffer.slice(a, b)` (Node built-in, not under src/). -/
def slice (bs : Bytes) (a b : Nat) : Bytes :=
  (bs.take b).drop a

/-- Modelled from the spec: `safeParseInt` (rlp, not under src/): a length with a
leading zero byte is refused. -/
def safeParseInt (bs : Bytes) : Option Nat :=
  match bs with
  | [] => none
  | b :: _ => if b.val = 0 then none else some (bytesToNat bs)

/-- Modelled from the spec: decoding of one byte-string item, giving the item and
the rest of the input (rlp, not under src/).  A nested list is refused: no
transaction field is a list. -/
def decodeItem (input : Bytes) : Option (Bytes × Bytes) :=
  match input with
  | [] => none
  | first :: _ =>
    if first.val ≤ 0x7f then some (slice input 0 1, input.drop 1)
    else if first.val ≤ 0xb7 then
      let length := first.val - 0x7f
      let data := if first.val = 0x80 then [] else slice input 1 length
      if length = 2 ∧ (data.head?.map fun d => decide (d.val < 0x80)) = some true then none
      else some (data, input.drop length)
    else if first.val ≤ 0xbf then
      let llength := first.val - 0xb6
      match safeParseInt (slice input 1 llength) with
      | none => none
      | some length =>
        let data := slice input llength (length + llength)
        if data.length < length then none else some (data, input.drop (length + llength))
    else none

/-- Decoding of the items of a list payload until it is used up; every item uses at
least one byte, so `fuel` equal to the payload length is enough. -/
def decodeItems : Nat → Bytes → Option (List Bytes)
  | _, [] => some []
  | 0, _ :: _ => none
  | fuel + 1, b :: bs =>
    match decodeItem (b :: bs) with
    | none => none
    | some (d, rest) =>
      match decodeItems fuel rest with
      | none => none
      | some ds => some (d :: ds)

/-- Modelled from the spec: `rlp.decode` of an encoded list of byte strings (rlp,
not under src/); nothing may follow the list. -/
def rlpDecode (input : Bytes) : Option (List Bytes) :=
  match input with
  | [] => none
  | first :: _ =>
    if first.val ≤ 0xbf then none
    else if first.val ≤ 0xf7 then
      let length := first.val - 0xbf
      if length < input.length then none
      else decodeItems input.length (slice input 1 length)
    else
      let llength := first.val - 0xf6
      match safeParseInt (slice input 1 llength) with
      | none => none
      | some length =>
        let totalLength := llength + length
        if input.length < totalLength then none
        else if (slice input llength totalLength).length = 0 then none
        else if totalLength < input.length then none
        else decodeItems input.length (slice input llength totalLength)

/-! ## ethereumjs-tx -/

/-- Modelled from the spec: the nine fields of a transaction in serialization order
(ethereumjs-tx, not under src/). -/
def txFields : List Field :=
  [ { name := "nonce", aliasName := none, length := 32, allowLess := true, allowZero := false, default := [] },
    { name := "gasPrice", aliasName := none, length := 32, allowLess := true, allowZero := false, default := [] },
    { name := "gasLimit", aliasName := some "gas", length := 32, allowLess := true, allowZero := false, default := [] },
    { name := "to", aliasName := none, length := 20, allowLess := false, allowZero := true, default := [] },
    { name := "value", aliasName := none, length := 32, allowLess := true, allowZero := false, default := [] },
    { name := "data", aliasName := some "input", length := 0, allowLess := false, allowZero := true, default := [] },
    { name := "v", aliasName := none, length := 0, allowLess := false, allowZero := true, default := [0x1c] },
    { name := "r", aliasName := none, length := 32, allowLess := true, allowZero := true, default := [] },
    { name := "s", aliasName := none, length := 32, allowLess := true, allowZero := true, default := [] } ]

/-- A plain object: its keys with their values, in the order written. -/
abbrev JSObject := List (String × JSVal)

/-- An `ethereumjs-tx` transaction: the buffers of its fields, in the order of
`txFields`. -/
structure Tx where
  raw : List Bytes
  deriving DecidableEq, Repr

/-- The fields of a new transaction taken from an object: the default of a field,
overwritten by the value under the field's name, overwritten by the value under its
alias. -/
def fieldsFromObject (data : JSObject) : List Field → Except String (List Bytes)
  | [] => .ok []
  | f :: fs =>
    let named :=
      match data.lookup f.name with
      | some x => setField f x
      | none => setBytes f f.default
    let aliased :=
      match f.aliasName.bind data.lookup with
      | some x => named.bind fun _ => setField f x
      | none => named
    match aliased, fieldsFromObject data fs with
    | .ok v, .ok rest => .ok (v :: rest)
    | .error e, _ => .error e
    | _, .error e => .error e

/-- Modelled from the spec: `new Tx(object)` (ethereumjs-tx, not under src/). -/
def Tx.new (data : JSObject) : Except String Tx :=
  match fieldsFromObject data txFields with
  | .ok raw => .ok { raw := raw }
  | .error e => .error e

/-- The fields of a transaction taken from decoded items, the remaining fields keeping
their defaults. -/
def fieldsFromItems : List Bytes → List Field → Except String (List Bytes)
  | _, [] => .ok []
  | [], f :: fs =>
    match setBytes f f.default, fieldsFromItems [] fs with
    | .ok v, .ok rest => .ok (v :: rest)
    | .error e, _ => .error e
    | _, .error e => .error e
  | d :: ds, f :: fs =>
    match setBytes f d, fieldsFromItems ds fs with
    | .ok v, .ok rest => .ok (v :: rest)
    | .error e, _ => .error e
    | _, .error e => .error e

/-- Modelled from the spec: `new Tx(buffer)`, the decoding of a serialized
transaction (ethereumjs-tx, not under src/). -/
def Tx.deserialize (input : Bytes) : Except String Tx :=
  match rlpDecode input with
  | none => .error "invalid rlp"
  | some items =>
    if txFields.length < items.length then .error "wrong number of fields in data"
    else
      match fieldsFromItems items txFields with
      | .ok raw => .ok { raw := raw }
      | .error e => .error e

/-- A number stored the minimal way in at most 32 bytes: no leading zero byte. -/
@[reducible] def minimalInt (b : Bytes) : Prop :=
  b.head? ≠ some 0 ∧ b.length ≤ 32

/-- Modelled from the spec: `tx.serialize()` (ethereumjs-tx, not under src/): the
encoded list of all fields. -/
def Tx.serialize (tx : Tx) : Bytes :=
  rlpEncode tx.raw

/-- The cryptographic primitives and presentation helpers that the scripts reach
through their libraries; `K` is the type of private keys.  They are parameters of the
development. -/
structure Lib (K : Type) where
  /-- Keccak-256. -/
  keccak256 : Bytes → Bytes
  /-- The secp256k1 signer: digest and key to a 64-byte signature and a recovery id;
  `none` when it throws (a key that is not a 32-byte scalar below the group order). -/
  sign : Bytes → K → Option (Bytes × Nat)
  /-- The text of `web3.utils.fromWei(_, 'ether')`, `none` when it throws. -/
  fromWei : JSVal → Option JSVal
  /-- The text of `new Date(result*1000).toString()`. -/
  dateString : JSVal → JSVal

/-- Modelled from the spec: `tx.hash(false)` (ethereumjs-tx, not under src/): the
digest of the encoded unsigned fields.  The script passes neither a chain id nor `v`,
so the six unsigned fields are what is hashed. -/
def Tx.hash {K : Type} (lib : Lib K) (tx : Tx) : Bytes :=
  lib.keccak256 (rlpEncode (tx.raw.take 6))

/-- Replaces field `i` by the result of a setter. -/
def Tx.setAt (tx : Tx) (i : Nat) (v : Except String Bytes) : Except String Tx :=
  match v with
  | .ok b => .ok { raw := tx.raw.set i b }
  | .error e => .error e

/-- Modelled from the spec: `tx.sign(privateKey)` (ethereumjs-tx, not under src/):
signs the digest of the unsigned fields and stores `r`, `s` (the two halves of the
signature) and `v` (the recovery id plus 27) in the transaction; it throws when the
signer throws (`SigningError`: the key is malformed). -/
def Tx.sign {K : Type} (lib : Lib K) (tx : Tx) (privateKey : K) : Except String Tx :=
  let msgHash := tx.hash lib
  match lib.sign msgHash privateKey with
  | none => .error "SigningError: the private key is malformed"
  | some sig =>
    let r := slice sig.1 0 32
    let s := slice sig.1 32 64
    let v := sig.2 + 27
    match txFields.get? 7, txFields.get? 8, txFields.get? 6 with
    | some fr, some fs, some fv =>
      (tx.setAt 7 (setBytes fr r)).bind fun tx =>
        (tx.setAt 8 (setBytes fs s)).bind fun tx =>
          tx.setAt 6 (setField fv (.num v))
    | _, _, _ => .error "missing field"

/-! ## The event machine -/

/-- A network call of one of the scripts, with its arguments. -/
inductive Call where
  | getTransactionCount (address : String)
  | sendSignedTransaction (raw : String)
  | getBalance (address : String)
  | contractRead (address method : String) (args : List JSVal)
  deriving DecidableEq, Repr

/-- What a run does that can be observed: it issues a call (named by a tag), the node
completes a call and the callback of the call starts, a line is written with
`console.log`, an exception is thrown that nothing catches (Node then ends the
process). -/
inductive Event (τ : Type) where
  | issue (tag : τ) (call : Call)
  | done (tag : τ)
  | log (args : List JSVal)
  | crash
  deriving DecidableEq, Repr

/-- The state of a run: the outstanding calls in the order issued and the events so
far. -/
structure State (τ : Type) where
  pending : List τ
  trace : List (Event τ)
  deriving DecidableEq, Repr

/-- Whether an event is the uncaught exception. -/
def isCrash {τ : Type} : Event τ → Bool
  | .crash => true
  | _ => false

/-- Whether the process has ended with an uncaught exception. -/
def State.ended {τ : Type} (s : State τ) : Bool :=
  s.trace.any isCrash

/-- The tag of the call that an event issues. -/
def issuedTag {τ : Type} : Event τ → Option τ
  | .issue t _ => some t
  | _ => none

/-- The call that an event issues. -/
def callOf {τ : Type} : Event τ → Option Call
  | .issue _ c => some c
  | _ => none

/-- The console line that an event writes. -/
def lineOf {τ : Type} : Event τ → Option (List JSVal)
  | .log args => some args
  | _ => none

/-- The payload that an event hands to `sendSignedTransaction`. -/
def payloadOf {τ : Type} : Event τ → Option String
  | .issue _ (.sendSignedTransaction raw) => some raw
  | _ => none

/-- The console line of an event when it reports the outcome of the broadcast: a line
that starts with `err:` or `txHash:`. -/
def broadcastLine {τ : Type} : Event τ → Option (List JSVal)
  | .log (.str label :: rest) =>
    if label = "err:" ∨ label = "txHash:" then some (.str label :: rest) else none
  | _ => none

/-- The tags of the calls that a list of events issues. -/
def issued {τ : Type} (evs : List (Event τ)) : List τ :=
  evs.filterMap issuedTag

/-- The calls that a list of events issues. -/
def callsOf {τ : Type} (evs : List (Event τ)) : List Call :=
  evs.filterMap callOf

/-- The console lines of a list of events. -/
def linesOf {τ : Type} (evs : List (Event τ)) : List (List JSVal) :=
  evs.filterMap lineOf

/-- The payloads handed to `sendSignedTransaction` in a list of events. -/
def payloadsOf {τ : Type} (evs : List (Event τ)) : List String :=
  evs.filterMap payloadOf

/-- The console lines of a list of events that report the outcome of the broadcast. -/
def broadcastLines {τ : Type} (evs : List (Event τ)) : List (List JSVal) :=
  evs.filterMap broadcastLine

/-- Appends the events of a piece of code that ran to its end or to an uncaught
exception. -/
def State.emit {τ : Type} (s : State τ) (evs : List (Event τ)) : State τ :=
  { pending := s.pending ++ issued evs, trace := s.trace ++ evs }

/-- The state after the synchronous part of a script. -/
def start {τ : Type} (main : List (Event τ)) : State τ :=
  State.emit { pending := [], trace := [] } main

/-- The node completes the outstanding call `t` and its continuation `handle t` runs;
a tag that is not outstanding changes nothing, and nothing happens any more once the
process has ended. -/
def complete {τ : Type} [DecidableEq τ] (handle : τ → List (Event τ)) (s : State τ) (t : τ) :
    State τ :=
  if s.ended then s
  else if t ∈ s.pending then
    State.emit { pending := s.pending.erase t, trace := s.trace ++ [Event.done t] } (handle t)
  else s

/-- A run: the calls complete in the order of the schedule. -/
def exec {τ : Type} [DecidableEq τ] (handle : τ → List (Event τ)) (s : State τ)
    (schedule : List τ) : State τ :=
  schedule.foldl (complete handle) s

/-- The events of completing the calls `ts` in this order: each completion is
followed by the events of its continuation. -/
def segs {τ : Type} (handle : τ → List (Event τ)) : List τ → List (Event τ)
  | [] => []
  | t :: ts => Event.done t :: (handle t ++ segs handle ts)

/-- The number of outstanding calls after a list of events, starting from `cur`. -/
def outstandingAfter {τ : Type} (cur : Nat) : List (Event τ) → Nat
  | [] => cur
  | .issue _ _ :: es => outstandingAfter (cur + 1) es
  | .done _ :: es => outstandingAfter (cur - 1) es
  | .log _ :: es => outstandingAfter cur es
  | .crash :: es => outstandingAfter cur es

/-- The number of outstanding calls after each event, starting from `cur`; the
largest of them. -/
def peakFrom {τ : Type} (cur : Nat) : List (Event τ) → Nat
  | [] => cur
  | .issue _ _ :: es => max cur (peakFrom (cur + 1) es)
  | .done _ :: es => max cur (peakFrom (cur - 1) es)
  | .log _ :: es => max cur (peakFrom cur es)
  | .crash :: es => max cur (peakFrom cur es)

/-- The largest number of calls outstanding at any point of a trace. -/
def peak {τ : Type} (evs : List (Event τ)) : Nat :=
  peakFrom 0 evs

/-- The second argument of a callback: the result, `undefined` after an error. -/
def resultOf : Except String JSVal → JSVal
  | .ok v => v
  | .error _ => .undefined

/-! ## src/2-transactions.js -/

/-- Line 14: the sending account. -/
def account1 : String := "0xEAd512784C92797Fdc037Ee8135FfFfD0f01C250"

/-- Line 15: the private key of the sending account. -/
def privateKey1 : Bytes :=
  fromHex "45282e83fbf6e56396f634c20417bd5d3f5a715355d1b49b513c05bf4875b3e6".data

/-- Line 17: the recipient. -/
def account2 : String := "0x3CeD54309C06E0830607F8565B56C443708363d8"

/-- Lines 21-27: the transaction object built from the transaction count. -/
def txObject (txCount : JSVal) : Except String JSObject :=
  match toHex txCount,
        (toWei "0.01" "ether").bind toHex,
        toHex (.num 21000),
        (toWei "10" "gwei").bind toHex with
  | .ok nonce, .ok value, .ok gasLimit, .ok gasPrice =>
    .ok [("nonce", nonce), ("to", .str account2), ("value", value),
         ("gasLimit", gasLimit), ("gasPrice", gasPrice)]
  | .error e, _, _, _ => .error e
  | _, .error e, _, _ => .error e
  | _, _, .error e, _ => .error e
  | _, _, _, .error e => .error e

/-- The field buffers of the transaction of the script, given the bytes of its nonce:
gas price 10^10, gas limit 21000, the recipient, value 10^16, no data, and the
defaults of `v`, `r`, `s`. -/
def scriptRaw (nonce : Bytes) : List Bytes :=
  [nonce, [2, 84, 11, 228, 0], [82, 8],
   [60, 237, 84, 48, 156, 6, 224, 131, 6, 7, 248, 86, 91, 86, 196, 67, 112, 131, 99, 216],
   [35, 134, 242, 111, 193, 0, 0], [], [28], [], []]

/-- The digest that is signed for a transaction with the fields `raw`. -/
def unsignedDigest {K : Type} (lib : Lib K) (raw : List Bytes) : Bytes :=
  lib.keccak256 (rlpEncode (raw.take 6))

/-- The bytes that the nonce field holds for the count `n`. -/
def nonceBytes (n : Nat) : Bytes :=
  stripZeros (intToBuffer n)

/-- The bytes that the nonce field holds after the reply to the nonce query: those of
the count, none after an error (the count is then `undefined`). -/
def nonceOf : Except String Nat → Bytes
  | .ok n => nonceBytes n
  | .error _ => []

/-- The fields of the transaction of the script with the signature `sig` stored in `r`,
`s` and `v`. -/
def signedRaw (sig : Bytes × Nat) (nonce : Bytes) : List Bytes :=
  (((scriptRaw nonce).set 7 (stripZeros (slice sig.1 0 32))).set 8
    (stripZeros (slice sig.1 32 64))).set 6 (intToBuffer (sig.2 + 27))

/-- Lines 30-32: the transaction is built, signed and serialized. -/
def signedTransaction {K : Type} (lib : Lib K) (privateKey : K) (txCount : JSVal) :
    Except String Bytes :=
  ((txObject txCount).bind Tx.new).bind fun tx =>
    (tx.sign lib privateKey).map Tx.serialize

/-- Line 33: the payload, `0x` followed by the hex text of the serialization. -/
def rawOf (serializedTransaction : Bytes) : String :=
  "0x" ++ String.mk (toStringHex serializedTransaction)

/-- The calls of the script. -/
inductive Tag2 where
  | txCount
  | send
  | balance1
  | balance2
  deriving DecidableEq, Repr

/-- The answers of the node to the calls of one run; an error carries the node's
message. -/
structure Node2 where
  txCount : Except String Nat
  send : Except String String
  balance1 : Except String JSVal
  balance2 : Except String JSVal

/-- The second argument of the first callback: the count, `undefined` after an
error. -/
def txCountOf : Except String Nat → JSVal
  | .ok n => .num n
  | .error _ => .undefined

/-- Lines 47-52: the callback of a balance query; `err` is not looked at, and when
`fromWei` throws nothing catches the exception. -/
def onBalance {K : Type} (lib : Lib K) (label : String) (reply : Except String JSVal) :
    List (Event Tag2) :=
  match lib.fromWei (resultOf reply) with
  | some text => [.log [.str label, text]]
  | none => [.crash]

/-- The callbacks of the script.  Nothing catches an exception thrown in a callback: it
ends the process. -/
def handle2 {K : Type} (lib : Lib K) (privateKey : K) (node : Node2) : Tag2 → List (Event Tag2)
  | .txCount =>
    -- lines 20-53: `err` is not looked at
    match signedTransaction lib privateKey (txCountOf node.txCount) with
    | .ok serializedTransaction =>
      [ .issue .send (.sendSignedTransaction (rawOf serializedTransaction)),
        .issue .balance1 (.getBalance account1),
        .issue .balance2 (.getBalance account2) ]
    | .error _ => [.crash]
  | .send =>
    -- lines 36-42
    match node.send with
    | .error err => [.log [.str "err:", .error err]]
    | .ok txHash => [.log [.str "txHash:", .str txHash]]
  | .balance1 => onBalance lib "Account 1:" node.balance1
  | .balance2 => onBalance lib "Account 2:" node.balance2

/-- Line 20: the script issues the nonce query and returns. -/
def main2 : List (Event Tag2) :=
  [.issue .txCount (.getTransactionCount account1)]

/-- A run of `2-transactions.js`. -/
def run2 {K : Type} (lib : Lib K) (privateKey : K) (node : Node2) (schedule : List Tag2) :
    State Tag2 :=
  exec (handle2 lib privateKey node) (start main2) schedule

/-! ## src/1-readContracts.js -/

/-- The addresses of `resources/rinkeby.json`, which is not under src/. -/
structure Config where
  tokenContractAddress : String
  crowdSaleContractAddress : String
  bitboxAddress : String
  metamaskAddress : String
  trezorAddress : String
  cryptoBrokerWalletAddress : String

/-- Lines 30-52: the network calls of `asynchRead` in program order; the fifth reads
the price at the index that the fourth returned. -/
def call1 (cfg : Config) (node : Nat → Except String JSVal) (k : Nat) : Option Call :=
  let crowdSale (method : String) (args : List JSVal) : Option Call :=
    some (.contractRead cfg.crowdSaleContractAddress method args)
  let token (method : String) (args : List JSVal) : Option Call :=
    some (.contractRead cfg.tokenContractAddress method args)
  match k with
  | 0 => crowdSale "chfTokenRate" []
  | 1 => crowdSale "hasClosed" []
  | 2 => crowdSale "isFinalized" []
  | 3 => crowdSale "currentPriceIndex" []
  | 4 => crowdSale "tokenPriceIndex" [resultOf (node 3)]
  | 5 => crowdSale "cap" []
  | 6 => crowdSale "weiRaised" []
  | 7 => crowdSale "openingTime" []
  | 8 => crowdSale "closingTime" []
  | 9 => crowdSale "min_contribution_chf" []
  | 10 => crowdSale "tokensMinted" []
  | 11 => crowdSale "capReached" []
  | 12 => some (.getBalance cfg.cryptoBrokerWalletAddress)
  | 13 => token "name" []
  | 14 => token "symbol" []
  | 15 => token "totalSupply" []
  | 16 => token "mintingFinished" []
  | 17 => token "balanceOf" [.str cfg.bitboxAddress]
  | 18 => token "balanceOf" [.str cfg.metamaskAddress]
  | 19 => token "balanceOf" [.str cfg.trezorAddress]
  | _ => none

/-- What the callback of call `k` does (the fourth call has no callback): it writes
one line, or `fromWei` throws and nothing catches the exception. -/
def callback1 {K : Type} (lib : Lib K) (cfg : Config) (node : Nat → Except String JSVal)
    (k : Nat) : List (Event Nat) :=
  let result := resultOf (node k)
  let plain (label : String) : List (Event Nat) := [.log [.str label, result]]
  let date (label : String) : List (Event Nat) := [.log [.str label, lib.dateString result]]
  let wei (label : String) : List (Event Nat) :=
    match lib.fromWei result with
    | some text => [.log [.str label, text]]
    | none => [.crash]
  match k with
  | 0 => plain "- chfTokenRate:"
  | 1 => plain "- hasClosed:"
  | 2 => plain "- isFinalized:"
  | 4 => plain "- SwiscPerEtherRate:"
  | 5 => plain "- cap:"
  | 6 => plain "- weiRaised:"
  | 7 => date "- openingTime:"
  | 8 => date "- closingTime:"
  | 9 => plain "- min_contribution_chf:"
  | 10 => plain "- tokensMinted:"
  | 11 => plain "- capReached:"
  | 12 => wei "- Contract wallet (future crypto broker) balance in ETH:"
  | 13 => plain "- Name:"
  | 14 => plain "- Symbol:"
  | 15 => plain "- Total supply:"
  | 16 => plain "- Minting finished:"
  | 17 => wei ("- Bitbox account balance in SWISC (" ++ cfg.bitboxAddress ++ "):")
  | 18 => wei ("- Metamask account balance in SWISC (" ++ cfg.metamaskAddress ++ "):")
  | 19 => wei ("- TREZOR account balance in SWISC (" ++ cfg.trezorAddress ++ "):")
  | _ => []

/-- Lines 44-45: the heading written between the two groups of calls. -/
def between1 (k : Nat) : List (Event Nat) :=
  if k = 12 then
    [.log [.str "\nSWISC Token Contract"], .log [.str "===================="]]
  else []

/-- What happens when call `k` completes: its callback runs; then, unless the callback
threw (the process ends) or the call failed (the `await` throws and `asynchRead`
ends), the function resumes and issues the next call. -/
def handle1 {K : Type} (lib : Lib K) (cfg : Config) (node : Nat → Except String JSVal)
    (k : Nat) : List (Event Nat) :=
  if (callback1 lib cfg node k).any isCrash then callback1 lib cfg node k
  else
    callback1 lib cfg node k ++
      match node k with
      | .error _ => []
      | .ok _ =>
        between1 k ++
          match call1 cfg node (k + 1) with
          | some c => [.issue (k + 1) c]
          | none => []

/-- Lines 26-30: the heading and the first call. -/
def main1 (cfg : Config) (node : Nat → Except String JSVal) : List (Event Nat) :=
  [.log [.str "\nSWISC Crowd Sale Contract"], .log [.str "========================="]] ++
    match call1 cfg node 0 with
    | some c => [.issue 0 c]
    | none => []

/-- A run of `1-readContracts.js`. -/
def run1 {K : Type} (lib : Lib K) (cfg : Config) (node : Nat → Except String JSVal)
    (schedule : List Nat) : State Nat :=
  exec (handle1 lib cfg node) (start (main1 cfg node)) schedule

/-! ## The curve secp256k1 -/

/-- Modelled from the spec: the field prime of secp256k1 (the curve of the signer, not
under src/). -/
def secpP : Nat := 0xFFFFFFFFFFFFFFFFFFFFFFFFFFFFFFFFFFFFFFFFFFFFFFFFFFFFFFFEFFFFFC2F

/-- Modelled from the spec: the order of the base point of secp256k1. -/
def secpN : Nat := 0xFFFFFFFFFFFFFFFFFFFFFFFFFFFFFFFEBAAEDCE6AF48A03BBFD25E8CD0364141

/-- Modelled from the spec: the abscissa of the base point of secp256k1. -/
def secpGx : Nat := 0x79BE667EF9DCBBAC55A06295CE870B07029BFCDB2DCE28D959F2815B16F81798

/-- Modelled from the spec: the ordinate of the base point of secp256k1. -/
def secpGy : Nat := 0x483ADA7726A3C4655DA4FBFC0E1108A8FD17B448A68554199C47D08FFB10D4B8

/-- The power `a ^ k` modulo `m` by squaring; `fuel` bounds the number of bits of `k`. -/
def powMod (m : Nat) : Nat → Nat → Nat → Nat
  | 0, _, _ => 1 % m
  | fuel + 1, a, k =>
    if k = 0 then 1 % m
    else
      let h := powMod m fuel a (k / 2)
      if k % 2 = 1 then h * h % m * a % m else h * h % m

/-- The inverse modulo the field prime, by Fermat's little theorem. -/
def invP (a : Nat) : Nat := powMod secpP 256 a (secpP - 2)

/-- A point of the curve in affine coordinates; `none` is the point at infinity. -/
abbrev CurvePoint := Option (Nat × Nat)

/-- Modelled from the spec: the addition of two points of secp256k1 (chord and
tangent). -/
def addPt : CurvePoint → CurvePoint → CurvePoint
  | none, q => q
  | some p, none => some p
  | some (x1, y1), some (x2, y2) =>
    if x1 = x2 then
      if (y1 + y2) % secpP = 0 then none
      else
        let l := 3 * x1 * x1 % secpP * invP (2 * y1 % secpP) % secpP
        let x3 := (l * l + (secpP - x1) + (secpP - x2)) % secpP
        some (x3, (l * (x1 + (secpP - x3)) + (secpP - y1)) % secpP)
    else
      let l := (y2 + (secpP - y1)) % secpP * invP ((x2 + (secpP - x1)) % secpP) % secpP
      let x3 := (l * l + (secpP - x1) + (secpP - x2)) % secpP
      some (x3, (l * (x1 + (secpP - x3)) + (secpP - y1)) % secpP)

/-- The multiple `k * p` by doubling; `fuel` bounds the number of bits of `k`. -/
def mulPt : Nat → Nat → CurvePoint → CurvePoint
  | 0, _, _ => none
  | fuel + 1, k, p =>
    if k = 0 then none
    else
      let r := mulPt fuel (k / 2) (addPt p p)
      if k % 2 = 1 then addPt p r else r

/-- The base point. -/
def secpG : CurvePoint := some (secpGx, secpGy)

/-- The curve `y^2 = x^3 + 7` over the prime field. -/
def secpCurve : WeierstrassCurve.Affine (ZMod secpP) :=
  { a₁ := 0, a₂ := 0, a₃ := 0, a₄ := 0, a₆ := 7 }

open WeierstrassCurve.Affine in
/-- An executable point stands for a point of the curve. -/
def Represents : CurvePoint → secpCurve.Point → Prop
  | none, A => A = 0
  | some (x, y), A => x < secpP ∧ y < secpP ∧
      ∃ (X Y : ZMod secpP) (h : secpCurve.Nonsingular X Y),
        A = Point.some h ∧ X = (x : ZMod secpP) ∧ Y = (y : ZMod secpP)

/-! ## Keccak-256 -/

/-- Modelled from the spec: the round constants of Keccak-f[1600] (the hash that
`ethereumjs-util` calls, not under src/). -/
def keccakRoundConstants : List Nat :=
  [0x0000000000000001, 0x0000000000008082, 0x800000000000808A, 0x8000000080008000,
   0x000000000000808B, 0x0000000080000001, 0x8000000080008081, 0x8000000000008009,
   0x000000000000008A, 0x0000000000000088, 0x0000000080008009, 0x000000008000000A,
   0x000000008000808B, 0x800000000000008B, 0x8000000000008089, 0x8000000000008003,
   0x8000000000008002, 0x8000000000000080, 0x000000000000800A, 0x800000008000000A,
   0x8000000080008081, 0x8000000000008080, 0x0000000080000001, 0x8000000080008008]

/-- Modelled from the spec: the rotation offsets of Keccak-f[1600], at index `x + 5 * y`. -/
def keccakRotations : List Nat :=
  [0, 1, 62, 28, 27,
   36, 44, 6, 55, 20,
   3, 10, 43, 25, 39,
   41, 45, 15, 21, 8,
   18, 2, 61, 56, 14]

/-- Rotation of a 64-bit lane to the left. -/
def rotl64 (x r : Nat) : Nat :=
  (x <<< r ||| x >>> (64 - r)) % 2 ^ 64

/-- The lane at column `x`, row `y` of a state of 25 lanes. -/
def keccakLane (a : List Nat) (x y : Nat) : Nat :=
  a.getD (x % 5 + 5 * (y % 5)) 0

/-- The step theta. -/
def keccakTheta (a : List Nat) : List Nat :=
  let c := fun x => keccakLane a x 0 ^^^ keccakLane a x 1 ^^^ keccakLane a x 2
    ^^^ keccakLane a x 3 ^^^ keccakLane a x 4
  let cs := (List.range 5).map c
  let d := fun x => cs.getD ((x + 4) % 5) 0 ^^^ rotl64 (cs.getD ((x + 1) % 5) 0) 1
  let ds := (List.range 5).map d
  (List.range 25).map fun i => a.getD i 0 ^^^ ds.getD (i % 5) 0

/-- The steps rho and pi: the lane `(x, y)` rotated goes to `(y, 2x + 3y)`. -/
def keccakRhoPi (a : List Nat) : List Nat :=
  (List.range 25).map fun i =>
    let x := (i % 5 + 3 * (i / 5)) % 5
    let y := i % 5
    rotl64 (keccakLane a x y) (keccakRotations.getD (x + 5 * y) 0)

/-- The step chi. -/
def keccakChi (b : List Nat) : List Nat :=
  (List.range 25).map fun i =>
    let x := i % 5
    let y := i / 5
    keccakLane b x y ^^^ ((keccakLane b (x + 1) y ^^^ (2 ^ 64 - 1)) &&& keccakLane b (x + 2) y)

/-- One round: theta, rho, pi, chi, iota. -/
def keccakRound (a : List Nat) (rc : Nat) : List Nat :=
  match keccakChi (keccakRhoPi (keccakTheta a)) with
  | [] => []
  | l :: ls => (l ^^^ rc) :: ls

/-- The permutation Keccak-f[1600]. -/
def keccakF (a : List Nat) : List Nat :=
  keccakRoundConstants.foldl keccakRound a

/-- A lane read from bytes, least significant byte first. -/
def laneOfBytes (bs : Bytes) : Nat :=
  bs.foldr (fun b acc => b.val + 256 * acc) 0

/-- The 8 bytes of a lane, least significant first. -/
def bytesOfLane (l : Nat) : Bytes :=
  (List.range 8).map fun i => Fin.ofNat (l / 256 ^ i)

/-- The lanes of a block of 136 bytes. -/
def lanesOfBlock (block : Bytes) : List Nat :=
  (List.range 17).map fun i => laneOfBytes ((block.drop (8 * i)).take 8)

/-- Absorbs the padded message block by block; `fuel` bounds the number of blocks. -/
def keccakAbsorb : Nat → List Nat → Bytes → List Nat
  | 0, a, _ => a
  | fuel + 1, a, msg =>
    match msg with
    | [] => a
    | _ :: _ =>
      let lanes := lanesOfBlock (msg.take 136)
      let a := (List.range 25).map fun i => a.getD i 0 ^^^ lanes.getD i 0
      keccakAbsorb fuel (keccakF a) (msg.drop 136)

/-- The padding `pad10*1` of Keccak with rate 136. -/
def keccakPad (len : Nat) : Bytes :=
  let q := 136 - len % 136
  if q = 1 then [0x81] else 0x01 :: (List.replicate (q - 2) 0 ++ [0x80])

/-- Modelled from the spec: Keccak-256, the hash of `ethereumjs-util` (not under
src/): sponge with rate 136 bytes, output 32 bytes. -/
def keccak256 (msg : Bytes) : Bytes :=
  let padded := msg ++ keccakPad msg.length
  let a := keccakAbsorb (padded.length / 136 + 1) (List.replicate 25 0) padded
  ((List.range 4).map fun i => bytesOfLane (a.getD i 0)).flatten

/-! ## ECDSA over secp256k1 -/

/-- The inverse modulo the group order, by Fermat's little theorem. -/
def invN (a : Nat) : Nat := powMod secpN 256 a (secpN - 2)

/-- The big-endian bytes of `n` in exactly `len` bytes (the low `len` bytes). -/
def toBytesBE : Nat → Nat → Bytes
  | 0, _ => []
  | len + 1, n => toBytesBE len (n / 256) ++ [Fin.ofNat n]

/-- Modelled from the spec: `setLength(buffer, 32)` (ethereumjs-util, not under src/):
pads with zero bytes on the left, or keeps the last `n` bytes. -/
def setLength (bs : Bytes) (n : Nat) : Bytes :=
  if bs.length ≤ n then List.replicate (n - bs.length) 0 ++ bs else bs.drop (bs.length - n)

/-- The 64 bytes `X || Y` of a point; nothing for the point at infinity. -/
def pointBytes : CurvePoint → Option Bytes
  | none => none
  | some (x, y) => some (toBytesBE 32 x ++ toBytesBE 32 y)

/-- Modelled from the spec: the public key of a private key (secp256k1
`publicKeyCreate`, not under src/): the key must be a 32-byte scalar `d` with
`0 < d < n`; the public key is `d * G`. -/
def privateToPublic (privateKey : Bytes) : Option Bytes :=
  let d := bytesToNat privateKey
  if privateKey.length ≠ 32 ∨ d = 0 ∨ secpN ≤ d then none
  else pointBytes (mulPt 256 d secpG)

/-- Modelled from the spec: the address of a public key (ethereumjs-util
`publicToAddress`, not under src/): the last 20 bytes of its hash. -/
def publicToAddress (hash : Bytes → Bytes) (publicKey : Bytes) : Bytes :=
  (hash publicKey).drop 12

/-- Modelled from the spec: `addressOf(privateKey)`. -/
def privateToAddress (hash : Bytes → Bytes) (privateKey : Bytes) : Option Bytes :=
  (privateToPublic privateKey).map (publicToAddress hash)

/-- Modelled from the spec: an ECDSA signature over secp256k1 of a 32-byte digest made
with the nonce `k` (secp256k1 `sign`, not under src/): `r` is the abscissa of `k * G`
modulo `n`, `s = k⁻¹ (z + r d)` normalised to the lower half, and the recovery id tells
the parity of the ordinate (and whether the abscissa exceeded `n`).  No signature when
the key or the nonce is not a valid scalar or when `r` or `s` is zero (the library
then takes another nonce). -/
def ecdsaSignWith (k : Nat) (digest privateKey : Bytes) : Option (Bytes × Nat) :=
  let d := bytesToNat privateKey
  let z := bytesToNat digest % secpN
  if privateKey.length ≠ 32 ∨ d = 0 ∨ secpN ≤ d ∨ k = 0 ∨ secpN ≤ k then none
  else
    match mulPt 256 k secpG with
    | none => none
    | some (x, y) =>
      let r := x % secpN
      let s := invN k * ((z + r * d) % secpN) % secpN
      let recid := (if secpN ≤ x then 2 else 0) + y % 2
      if r = 0 ∨ s = 0 then none
      else if secpN / 2 < s then
        some (toBytesBE 32 r ++ toBytesBE 32 (secpN - s), Nat.xor recid 1)
      else some (toBytesBE 32 r ++ toBytesBE 32 s, recid)

/-- Modelled from the spec: recovery of the public key from a signature (secp256k1
`recover`, not under src/). -/
def secpRecover (digest signature : Bytes) (recid : Nat) : Option Bytes :=
  let r := bytesToNat (slice signature 0 32)
  let s := bytesToNat (slice signature 32 64)
  let z := bytesToNat digest % secpN
  if r = 0 ∨ secpN ≤ r ∨ s = 0 ∨ secpN ≤ s then none
  else
    let x := if recid / 2 % 2 = 1 then r + secpN else r
    if secpP ≤ x then none
    else
      let c := (x * x * x + 7) % secpP
      let y0 := powMod secpP 256 c ((secpP + 1) / 4)
      if y0 * y0 % secpP ≠ c then none
      else
        let y := if y0 % 2 = recid % 2 then y0 else (secpP - y0) % secpP
        let u1 := (secpN - z * invN r % secpN) % secpN
        let u2 := s * invN r % secpN
        pointBytes (addPt (mulPt 256 u1 secpG) (mulPt 256 u2 (some (x, y))))

/-- Modelled from the spec: `ecrecover(msgHash, v, r, s)` (ethereumjs-util, not under
src/): the recovery id is `v - 27` and must be 0 or 1. -/
def ecrecover (msgHash : Bytes) (v : Nat) (r s : Bytes) : Option Bytes :=
  if v = 27 ∨ v = 28 then secpRecover msgHash (setLength r 32 ++ setLength s 32) (v - 27)
  else none

/-- Modelled from the spec: `recoverAddress` of a signed transaction (ethereumjs-tx
`getSenderAddress`, not under src/): the address of the key recovered from `v`, `r`,
`s` over the digest of the unsigned fields; a signature with `s` in the upper half is
refused. -/
def Tx.senderAddress {K : Type} (lib : Lib K) (tx : Tx) : Option Bytes :=
  let v := bytesToNat (tx.raw.getD 6 [])
  let r := tx.raw.getD 7 []
  let s := tx.raw.getD 8 []
  if secpN / 2 < bytesToNat s then none
  else (ecrecover (tx.hash lib) v r s).map (publicToAddress lib.keccak256)

/-- The primitives of the libraries with the nonce of the signer left open: Keccak-256
and ECDSA over secp256k1 with the nonce `nonce digest key`; signing throws where
`ecdsaSignWith` gives no signature.  The presentation helpers are stand-ins: an amount
is shown as the string received, anything that is not a string makes `fromWei`
throw. -/
def ethLib (nonce : Bytes → Bytes → Nat) : Lib Bytes :=
  { keccak256 := keccak256
    sign := fun digest key => ecdsaSignWith (nonce digest key) digest key
    fromWei := fun v => match v with
      | .str s => some (.str s)
      | _ => none
    dateString := fun v => v }

/-! ## Stand-ins used to evaluate runs -/

/-- A stand-in for the primitives, used where a run is evaluated on concrete input:
the digest is the first 32 bytes, the signer refuses a key that is not 32 bytes long
and otherwise adds digest and key bytewise. -/
def sampleLib : Lib Bytes :=
  { keccak256 := fun b => slice b 0 32
    sign := fun h k =>
      if k.length = 32 then some (List.zipWith (fun a b => a + b) (h ++ h) (k ++ k), 1)
      else none
    fromWei := fun v => match v with
      | .str s => some (.str s)
      | _ => none
    dateString := fun v => v }

/-- A node that answers every call of the transaction script. -/
def sampleNode (txCount : Except String Nat) (send : Except String String) : Node2 :=
  { txCount := txCount, send := send,
    balance1 := .ok (.str "1000"), balance2 := .ok (.str "2000") }

/-- A configuration for the contract reader. -/
def sampleConfig : Config :=
  { tokenContractAddress := "0x01", crowdSaleContractAddress := "0x02", bitboxAddress := "0x03",
    metamaskAddress := "0x04", trezorAddress := "0x05", cryptoBrokerWalletAddress := "0x06" }

deriving instance DecidableEq for Except


/-! ## Hexadecimal text -/

theorem hexVal_hexDigit (d : Nat) (h : d < 16) : hexVal (hexDigit d) = some d := by
  interval_cases d <;> decide

theorem fromHex_toStringHex (bs : Bytes) : fromHex (toStringHex bs) = bs := by
  induction bs with
  | nil => rfl
  | cons b bs ih =>
    have h1 : b.val / 16 < 16 := by omega
    have h2 : b.val % 16 < 16 := by omega
    simp only [toStringHex, fromHex, hexVal_hexDigit _ h1, hexVal_hexDigit _ h2, ih]
    congr 1
    apply Fin.ext
    simp only [Fin.ofNat, Fin.val_mk]
    omega

theorem length_toStringHex (bs : Bytes) : (toStringHex bs).length = 2 * bs.length := by
  induction bs with
  | nil => rfl
  | cons b bs ih => simp only [toStringHex, List.length_cons, ih]; omega

theorem rawOf_data (b : Bytes) : (rawOf b).data = '0' :: 'x' :: toStringHex b := by
  simp [rawOf]

/-! ## Digits -/

theorem ofDigitsBE_append (base : Nat) (ds : List Nat) (d : Nat) :
    ofDigitsBE base (ds ++ [d]) = ofDigitsBE base ds * base + d := by
  simp [ofDigitsBE, List.foldl_append]

theorem ofDigitsBE_digitsBE (base fuel n : Nat) (h : 2 ≤ base) (hf : n ≤ fuel) :
    ofDigitsBE base (digitsBE base fuel n) = n := by
  induction fuel generalizing n with
  | zero =>
    have : n = 0 := by omega
    subst this; rfl
  | succ fuel ih =>
    unfold digitsBE
    split
    · next h0 => subst h0; rfl
    · next h0 =>
      have hlt : n / base < n := Nat.div_lt_self (by omega) (by omega)
      rw [ofDigitsBE_append, ih _ (by omega)]
      exact Nat.div_add_mod' n base

theorem digitsBE_lt (base fuel n : Nat) (h : 0 < base) :
    ∀ d ∈ digitsBE base fuel n, d < base := by
  induction fuel generalizing n with
  | zero => intro d hd; simp [digitsBE] at hd
  | succ fuel ih =>
    intro d hd
    unfold digitsBE at hd
    split at hd
    · simp at hd
    · rcases List.mem_append.mp hd with h1 | h1
      · exact ih _ d h1
      · simp only [List.mem_singleton] at h1
        subst h1
        exact Nat.mod_lt _ h

theorem digitsBE_ne_nil (base fuel n : Nat) (h0 : n ≠ 0) (hf : n ≤ fuel) :
    digitsBE base fuel n ≠ [] := by
  cases fuel with
  | zero => omega
  | succ fuel => simp [digitsBE, h0]

theorem parseHex_map_hexDigit (ds : List Nat) (h : ∀ d ∈ ds, d < 16) :
    parseHex (ds.map hexDigit) = some (ofDigitsBE 16 ds) := by
  have key : ∀ (ds : List Nat), (∀ d ∈ ds, d < 16) → ∀ acc : Nat,
      (ds.map hexDigit).foldl
        (fun acc c => acc.bind fun a => (hexVal c).map fun d => a * 16 + d) (some acc)
      = some (ds.foldl (fun acc d => acc * 16 + d) acc) := by
    intro ds
    induction ds with
    | nil => intro _ acc; rfl
    | cons d ds ih =>
      intro hd acc
      have h1 : d < 16 := hd d (List.mem_cons_self _ _)
      simp only [List.map_cons, List.foldl_cons, Option.some_bind, hexVal_hexDigit d h1,
        Option.map_some']
      exact ih (fun x hx => hd x (List.mem_cons_of_mem _ hx)) _
  exact key ds h 0

theorem hexToNumber_numberToHex (n : Nat) : hexToNumber (numberToHex n) = some n := by
  have hdata : (numberToHex n).data = '0' :: 'x' :: bnToString 16 n := by
    simp [numberToHex]
  unfold hexToNumber
  rw [hdata]
  unfold bnToString
  by_cases h0 : n = 0
  · subst h0; decide
  · simp only [h0, if_false]
    have hne := digitsBE_ne_nil 16 n n h0 (le_refl _)
    have hp := parseHex_map_hexDigit (digitsBE 16 n n) (digitsBE_lt 16 n n (by decide))
    rw [ofDigitsBE_digitsBE 16 n n (by decide) (le_refl _)] at hp
    cases hd : digitsBE 16 n n with
    | nil => exact absurd hd hne
    | cons d ds =>
      rw [hd] at hp
      simpa using hp


theorem hexDigit_lowercase (d : Nat) (h : d < 16) : hexDigit d ∈ "0123456789abcdef".data := by
  interval_cases d <;> decide

theorem toStringHex_lowercase (bs : Bytes) :
    ∀ c ∈ toStringHex bs, c ∈ "0123456789abcdef".data := by
  induction bs with
  | nil => intro c hc; simp [toStringHex] at hc
  | cons b bs ih =>
    intro c hc
    simp only [toStringHex, List.mem_cons] at hc
    rcases hc with h | h | h
    · subst h; exact hexDigit_lowercase _ (by omega)
    · subst h; exact hexDigit_lowercase _ (by omega)
    · exact ih c h

/-- C10: the payload handed to the broadcast is `0x` followed by the lowercase hex text
of the serialized signed transaction: it has `2 + 2 * |b|` characters, decoding what
follows the prefix gives `b` back, and the payload of the broadcast call of the script
is this text of the bytes that `serialize` returned after signing. -/
theorem C10_payload_is_hex_of_serialization (b : Bytes) :
    rawOf b = "0x" ++ String.mk (toStringHex b)
    ∧ (rawOf b).data.take 2 = ['0', 'x']
    ∧ (rawOf b).length = 2 + 2 * b.length
    ∧ (∀ c ∈ (rawOf b).data.drop 2, c ∈ "0123456789abcdef".data)
    ∧ fromHex ((rawOf b).data.drop 2) = b
    ∧ (∀ (K : Type) (lib : Lib K) (key : K) (node : Node2),
        payloadsOf (handle2 lib key node .txCount)
          = match signedTransaction lib key (txCountOf node.txCount) with
            | .ok serialized => [rawOf serialized]
            | .error _ => []) := by
  refine ⟨rfl, ?_, ?_, ?_, ?_, ?_⟩
  · rw [rawOf_data]; rfl
  · rw [String.length, rawOf_data]
    simp only [List.length_cons, length_toStringHex]
    omega
  · rw [rawOf_data]
    exact toStringHex_lowercase b
  · rw [rawOf_data]
    exact fromHex_toStringHex b
  · intro K lib key node
    unfold handle2
    cases signedTransaction lib key (txCountOf node.txCount) <;> rfl

theorem value_field : (toWei "0.01" "ether").bind toHex = .ok (.str "0x2386f26fc10000") := by
  decide

theorem gasPrice_field : (toWei "10" "gwei").bind toHex = .ok (.str "0x2540be400") := by
  decide

theorem txObject_num (n : Nat) :
    txObject (.num n) = .ok
      [("nonce", .str (numberToHex n)), ("to", .str account2),
       ("value", .str "0x2386f26fc10000"), ("gasLimit", .str "0x5208"),
       ("gasPrice", .str "0x2540be400")] := by
  unfold txObject
  rw [value_field, gasPrice_field]
  rfl

theorem txObject_undefined :
    txObject .undefined = .ok
      [("nonce", .undefined), ("to", .str account2),
       ("value", .str "0x2386f26fc10000"), ("gasLimit", .str "0x5208"),
       ("gasPrice", .str "0x2540be400")] := by
  decide

/-- C1: for every transaction count `n` the object built by the script has exactly the
keys nonce, to, value, gasLimit, gasPrice; nonce is the hex numeral of `n`, to is the
recipient, value the numeral of 10^16 (0.01 ether in wei), gasLimit that of 21000,
gasPrice that of 10^10 (10 gwei in wei); there is no v, r or s. -/
theorem C1_txObject_fields (n : Nat) :
    ∃ obj : JSObject, txObject (.num n) = .ok obj
      ∧ obj.map Prod.fst = ["nonce", "to", "value", "gasLimit", "gasPrice"]
      ∧ (∃ t, obj.lookup "nonce" = some (.str t) ∧ t = numberToHex n ∧ hexToNumber t = some n)
      ∧ obj.lookup "to" = some (.str "0x3CeD54309C06E0830607F8565B56C443708363d8")
      ∧ (∃ t, obj.lookup "value" = some (.str t) ∧ t = numberToHex 10000000000000000
          ∧ hexToNumber t = some 10000000000000000)
      ∧ toWei "0.01" "ether" = .ok (.str "10000000000000000")
      ∧ (∃ t, obj.lookup "gasLimit" = some (.str t) ∧ t = numberToHex 21000
          ∧ hexToNumber t = some 21000)
      ∧ (∃ t, obj.lookup "gasPrice" = some (.str t) ∧ t = numberToHex 10000000000
          ∧ hexToNumber t = some 10000000000)
      ∧ toWei "10" "gwei" = .ok (.str "10000000000")
      ∧ obj.lookup "v" = none ∧ obj.lookup "r" = none ∧ obj.lookup "s" = none := by
  refine ⟨_, txObject_num n, rfl, ⟨_, rfl, rfl, hexToNumber_numberToHex n⟩, rfl,
    ⟨_, rfl, by decide, by decide⟩, by decide, ⟨_, rfl, by decide, by decide⟩,
    ⟨_, rfl, by decide, by decide⟩, by decide, rfl, rfl, rfl⟩


/-! ## Buffers as numbers -/

theorem foldl_bytes_acc (l : List Nat) (acc : Nat) :
    l.foldl (fun a d => a * 256 + d) acc = acc * 256 ^ l.length + l.foldl (fun a d => a * 256 + d) 0 := by
  induction l generalizing acc with
  | nil => simp
  | cons d l ih =>
    simp only [List.foldl_cons, List.length_cons]
    rw [ih (acc * 256 + d), ih (0 * 256 + d)]
    ring

theorem bytesToNat_nil : bytesToNat [] = 0 := rfl

theorem bytesToNat_cons (b : Byte) (bs : Bytes) :
    bytesToNat (b :: bs) = b.val * 256 ^ bs.length + bytesToNat bs := by
  unfold bytesToNat ofDigitsBE
  simp only [List.map_cons, List.foldl_cons]
  rw [foldl_bytes_acc]
  simp

theorem bytesToNat_lt (bs : Bytes) : bytesToNat bs < 256 ^ bs.length := by
  induction bs with
  | nil => simp [bytesToNat_nil]
  | cons b bs ih =>
    rw [bytesToNat_cons, List.length_cons, pow_succ]
    have hb : b.val < 256 := b.isLt
    have hp : 0 < 256 ^ bs.length := Nat.pow_pos (by decide)
    nlinarith

theorem bytesToNat_stripZeros (bs : Bytes) : bytesToNat (stripZeros bs) = bytesToNat bs := by
  induction bs with
  | nil => rfl
  | cons b bs ih =>
    unfold stripZeros at ih ⊢
    by_cases hb : b = 0
    · subst hb
      simp only [List.dropWhile_cons, decide_True, if_true]
      rw [ih, bytesToNat_cons]
      simp
    · simp [List.dropWhile_cons, hb]

theorem head_stripZeros (bs : Bytes) : (stripZeros bs).head? ≠ some 0 := by
  induction bs with
  | nil => simp [stripZeros]
  | cons b bs ih =>
    unfold stripZeros at ih ⊢
    by_cases hb : b = 0
    · subst hb
      simpa [List.dropWhile_cons] using ih
    · simp [List.dropWhile_cons, hb]

theorem pow_le_bytesToNat (b : Byte) (bs : Bytes) (hb : b ≠ 0) :
    256 ^ bs.length ≤ bytesToNat (b :: bs) := by
  rw [bytesToNat_cons]
  have h1 : 1 ≤ b.val := by
    rcases Nat.eq_zero_or_pos b.val with h | h
    · exact absurd (Fin.ext h) hb
    · exact h
  calc 256 ^ bs.length = 1 * 256 ^ bs.length := by ring
    _ ≤ b.val * 256 ^ bs.length := Nat.mul_le_mul_right _ h1
    _ ≤ b.val * 256 ^ bs.length + bytesToNat bs := Nat.le_add_right _ _

theorem length_le_iff_lt (bs : Bytes) (h : bs.head? ≠ some 0) (k : Nat) :
    bs.length ≤ k ↔ bytesToNat bs < 256 ^ k := by
  constructor
  · intro hk
    exact lt_of_lt_of_le (bytesToNat_lt bs) (Nat.pow_le_pow_right (by decide) hk)
  · intro hlt
    cases bs with
    | nil => simp
    | cons b bs =>
      have hb : b ≠ 0 := by
        intro h0; subst h0; simp at h
      have h2 := pow_le_bytesToNat b bs hb
      have h3 : 256 ^ bs.length < 256 ^ k := lt_of_le_of_lt h2 hlt
      have h4 : bs.length < k := (Nat.pow_lt_pow_iff_right (by decide)).mp h3
      simp only [List.length_cons]
      omega

/-! ## Hexadecimal numerals as buffers -/

theorem fromHex_digits (m : Nat) : ∀ (ds : List Nat), ds.length = 2 * m → (∀ d ∈ ds, d < 16) →
    (fromHex (ds.map hexDigit)).length = m ∧
    ∀ acc : Nat, ((fromHex (ds.map hexDigit)).map Fin.val).foldl (fun a d => a * 256 + d) acc
      = ds.foldl (fun a d => a * 16 + d) acc := by
  induction m with
  | zero =>
    intro ds hlen _
    have : ds = [] := List.length_eq_zero.mp (by omega)
    subst this
    exact ⟨rfl, fun _ => rfl⟩
  | succ m ih =>
    intro ds hlen hlt
    match ds, hlen, hlt with
    | [], hlen, _ => simp at hlen
    | [_], hlen, _ => simp at hlen; omega
    | d1 :: d2 :: rest, hlen, hlt =>
      have h1 : d1 < 16 := hlt d1 (by simp)
      have h2 : d2 < 16 := hlt d2 (by simp)
      have hr : rest.length = 2 * m := by simp at hlen; omega
      have hrl : ∀ d ∈ rest, d < 16 := fun d hd => hlt d (by simp [hd])
      obtain ⟨il, iv⟩ := ih rest hr hrl
      simp only [List.map_cons, fromHex, hexVal_hexDigit d1 h1, hexVal_hexDigit d2 h2,
        List.length_cons, il, List.foldl_cons, true_and]
      intro acc
      rw [iv]
      congr 1
      simp only [Fin.ofNat, Fin.val_mk]
      have : (d1 * 16 + d2) % (255 + 1) = d1 * 16 + d2 := Nat.mod_eq_of_lt (by omega)
      rw [this]
      ring

theorem replicate_zero_eq : [hexDigit 0] = [0].map hexDigit := rfl

theorem bnToString_eq_map (n : Nat) :
    ∃ ds : List Nat, bnToString 16 n = ds.map hexDigit ∧ (∀ d ∈ ds, d < 16)
      ∧ ofDigitsBE 16 ds = n ∧ ds ≠ [] := by
  unfold bnToString
  by_cases h0 : n = 0
  · subst h0
    exact ⟨[0], rfl, by simp, rfl, by simp⟩
  · simp only [h0, if_false]
    exact ⟨_, rfl, digitsBE_lt 16 n n (by decide),
      ofDigitsBE_digitsBE 16 n n (by decide) (le_refl _), digitsBE_ne_nil 16 n n h0 (le_refl _)⟩

theorem padToEven_digits (ds : List Nat) (hlt : ∀ d ∈ ds, d < 16) :
    ∃ (ds2 : List Nat) (m : Nat), padToEven (ds.map hexDigit) = ds2.map hexDigit
      ∧ ds2.length = 2 * m ∧ (∀ d ∈ ds2, d < 16) ∧ ofDigitsBE 16 ds2 = ofDigitsBE 16 ds := by
  unfold padToEven
  by_cases hodd : (ds.map hexDigit).length % 2 = 1
  · simp only [hodd, if_true]
    refine ⟨0 :: ds, (ds.length + 1) / 2, rfl, ?_, ?_, ?_⟩
    · simp only [List.length_map] at hodd
      simp only [List.length_cons]
      omega
    · intro d hd
      rcases List.mem_cons.mp hd with h | h
      · omega
      · exact hlt d h
    · simp [ofDigitsBE]
  · simp only [hodd, if_false]
    refine ⟨ds, ds.length / 2, rfl, ?_, hlt, rfl⟩
    simp only [List.length_map] at hodd
    omega

theorem bytesToNat_intToBuffer (n : Nat) : bytesToNat (intToBuffer n) = n := by
  obtain ⟨ds, hds, hlt, hval, _⟩ := bnToString_eq_map n
  obtain ⟨ds2, m, hpad, hlen, hlt2, hval2⟩ := padToEven_digits ds hlt
  unfold intToBuffer
  rw [hds, hpad]
  have := (fromHex_digits m ds2 hlen hlt2).2 0
  unfold bytesToNat ofDigitsBE
  rw [this]
  unfold ofDigitsBE at hval hval2
  rw [hval2, hval]

theorem isHexString_numberToHex (n : Nat) : isHexString (numberToHex n) = true := by
  have hdata : (numberToHex n).data = '0' :: 'x' :: bnToString 16 n := by
    simp [numberToHex]
  obtain ⟨ds, hds, hlt, _, _⟩ := bnToString_eq_map n
  unfold isHexString
  rw [hdata, hds]
  simp only [List.all_eq_true, List.mem_map]
  rintro c ⟨d, hd, rfl⟩
  rw [hexVal_hexDigit d (hlt d hd)]
  rfl

theorem toBuffer_numberToHex (n : Nat) :
    toBuffer (.str (numberToHex n)) = .ok (intToBuffer n) := by
  have hdata : (numberToHex n).data = '0' :: 'x' :: bnToString 16 n := by
    simp [numberToHex]
  simp only [toBuffer, isHexString_numberToHex, if_true, hdata, stripHexPrefix, intToBuffer]


/-! ## The setters of the numeric fields -/

theorem stripZeros_clear (v : Bytes) (p : Prop) [Decidable p] :
    stripZeros (if toStringHex v = ['0', '0'] ∧ p then [] else v) = stripZeros v := by
  split
  · next h =>
    have hv : v = fromHex ['0', '0'] := by rw [← h.1, fromHex_toStringHex]
    rw [hv]; decide
  · rfl

theorem setBytes_allowLess (f : Field) (h1 : f.allowLess = true) (h2 : f.length ≠ 0) (v : Bytes) :
    setBytes f v =
      if (stripZeros v).length ≤ f.length then .ok (stripZeros v)
      else .error ("The field " ++ f.name ++ " must not have more " ++ toString f.length ++ " bytes") := by
  unfold setBytes
  simp only [h1, h2, ne_eq, not_false_eq_true, and_self, if_true, stripZeros_clear]

/-- The fields that hold a number put in through `toHex`. -/
theorem numeric_field_shape (f : Field) (hf : f ∈ txFields)
    (hname : f.name ∈ ["nonce", "value", "gasLimit", "gasPrice"]) :
    f.allowLess = true ∧ f.length = 32 := by
  simp only [txFields, List.mem_cons, List.mem_singleton, List.not_mem_nil, or_false] at hf
  rcases hf with h | h | h | h | h | h | h | h | h <;> subst h <;> first
    | exact ⟨rfl, rfl⟩
    | (exfalso; revert hname; decide)

theorem setField_numberToHex (f : Field) (h1 : f.allowLess = true) (h2 : f.length = 32) (n : Nat) :
    ∃ bs : Bytes, bytesToNat bs = n ∧ bs.head? ≠ some 0 ∧ (bs.length ≤ 32 ↔ n < 2 ^ 256)
      ∧ setField f (.str (numberToHex n)) =
        if n < 2 ^ 256 then .ok bs
        else .error ("The field " ++ f.name ++ " must not have more " ++ toString f.length ++ " bytes") := by
  refine ⟨stripZeros (intToBuffer n), ?_, head_stripZeros _, ?_, ?_⟩
  · rw [bytesToNat_stripZeros, bytesToNat_intToBuffer]
  · rw [length_le_iff_lt _ (head_stripZeros _), bytesToNat_stripZeros, bytesToNat_intToBuffer]
    norm_num
  · have hiff : (stripZeros (intToBuffer n)).length ≤ f.length ↔ n < 2 ^ 256 := by
      rw [h2, length_le_iff_lt _ (head_stripZeros _), bytesToNat_stripZeros,
        bytesToNat_intToBuffer]
      norm_num
    unfold setField
    rw [toBuffer_numberToHex]
    simp only [setBytes_allowLess f h1 (by omega)]
    by_cases hn : n < 2 ^ 256
    · rw [if_pos (hiff.mpr hn), if_pos hn]
    · rw [if_neg (fun h => hn (hiff.mp h)), if_neg hn]

/-- C2: a number `n` put into a numeric field (nonce, value, gasLimit, gasPrice)
through `toHex` and the field setter of the transaction is accepted exactly when
`n < 2^256`, and the field then holds the big-endian bytes of `n` without a leading
zero byte; 0 gives the empty buffer and 256 gives `01 00`. -/
theorem C2_numeric_field_minimal (n : Nat) (f : Field) (hf : f ∈ txFields)
    (hname : f.name ∈ ["nonce", "value", "gasLimit", "gasPrice"]) :
    (n < 2 ^ 256 → ∃ bs : Bytes, (toHex (.num n)).bind (setField f) = .ok bs
        ∧ bytesToNat bs = n ∧ bs.head? ≠ some 0)
    ∧ (2 ^ 256 ≤ n → ∃ e, (toHex (.num n)).bind (setField f) = .error e)
    ∧ (toHex (.num 0)).bind (setField f) = .ok []
    ∧ (toHex (.num 256)).bind (setField f) = .ok [1, 0] := by
  obtain ⟨h1, h2⟩ := numeric_field_shape f hf hname
  obtain ⟨bs, hval, hhead, _, hset⟩ := setField_numberToHex f h1 h2 n
  have hbind : (toHex (.num n)).bind (setField f) = setField f (.str (numberToHex n)) := rfl
  refine ⟨?_, ?_, ?_, ?_⟩
  · intro hn
    exact ⟨bs, by rw [hbind, hset, if_pos hn], hval, hhead⟩
  · intro hn
    exact ⟨_, by rw [hbind, hset, if_neg (by omega)]⟩
  · simp only [txFields, List.mem_cons, List.mem_singleton, List.not_mem_nil, or_false] at hf
    rcases hf with h | h | h | h | h | h | h | h | h <;> subst h <;> first
      | decide
      | (exfalso; revert hname; decide)
  · simp only [txFields, List.mem_cons, List.mem_singleton, List.not_mem_nil, or_false] at hf
    rcases hf with h | h | h | h | h | h | h | h | h <;> subst h <;> first
      | decide
      | (exfalso; revert hname; decide)

theorem C2_numeric_field_minimal_witness :
    (∃ bs : Bytes, (toHex (.num 256)).bind
        (setField { name := "nonce", aliasName := none, length := 32, allowLess := true,
                    allowZero := false, default := [] }) = .ok bs
      ∧ bytesToNat bs = 256 ∧ bs.head? ≠ some 0) :=
  (C2_numeric_field_minimal 256 _ (by decide) (by decide)).1 (by norm_num)


/-! ## Building and signing the transaction of the script -/

/-- The nonce field descriptor. -/
theorem nonceField_shape :
    ∃ f : Field, txFields.head? = some f ∧ f.allowLess = true ∧ f.length = 32 :=
  ⟨_, rfl, rfl, rfl⟩

theorem fieldsFromObject_script (x : JSVal) (v : Bytes)
    (h : setField { name := "nonce", aliasName := none, length := 32, allowLess := true,
                    allowZero := false, default := [] } x = .ok v) :
    fieldsFromObject
      [("nonce", x), ("to", .str account2), ("value", .str "0x2386f26fc10000"),
       ("gasLimit", .str "0x5208"), ("gasPrice", .str "0x2540be400")] txFields
    = .ok [v, [2, 84, 11, 228, 0], [82, 8],
        [60, 237, 84, 48, 156, 6, 224, 131, 6, 7, 248, 86, 91, 86, 196, 67, 112, 131, 99, 216],
        [35, 134, 242, 111, 193, 0, 0], [], [28], [], []] := by
  have hrest : fieldsFromObject
      [("nonce", x), ("to", .str account2), ("value", .str "0x2386f26fc10000"),
       ("gasLimit", .str "0x5208"), ("gasPrice", .str "0x2540be400")] txFields.tail
    = .ok [[2, 84, 11, 228, 0], [82, 8],
        [60, 237, 84, 48, 156, 6, 224, 131, 6, 7, 248, 86, 91, 86, 196, 67, 112, 131, 99, 216],
        [35, 134, 242, 111, 193, 0, 0], [], [28], [], []] := by
    rfl
  show fieldsFromObject _ (_ :: txFields.tail) = _
  unfold fieldsFromObject
  rw [hrest]
  simp only [List.lookup, Option.bind, beq_self_eq_true, h]

end Swisc
namespace Swisc

theorem length_stripZeros_le (bs : Bytes) : (stripZeros bs).length ≤ bs.length := by
  unfold stripZeros
  exact (List.dropWhile_sublist _).length_le

theorem length_slice_le (bs : Bytes) (a b : Nat) : (slice bs a b).length ≤ b - a := by
  unfold slice
  simp only [List.length_drop, List.length_take]
  omega

theorem setBytes_signature_part (f : Field) (h1 : f.allowLess = true) (h2 : f.length = 32)
    (sig : Bytes) (a : Nat) :
    setBytes f (slice sig a (a + 32)) = .ok (stripZeros (slice sig a (a + 32))) := by
  rw [setBytes_allowLess f h1 (by omega), if_pos]
  have := length_stripZeros_le (slice sig a (a + 32))
  have := length_slice_le sig a (a + 32)
  omega

theorem Tx_sign_ok {K : Type} (lib : Lib K) (tx : Tx) (key : K) (sig : Bytes × Nat)
    (h : lib.sign (tx.hash lib) key = some sig) :
    tx.sign lib key = .ok
      { raw := ((tx.raw.set 7 (stripZeros (slice sig.1 0 32))).set 8
          (stripZeros (slice sig.1 32 64))).set 6 (intToBuffer (sig.2 + 27)) } := by
  have hr := setBytes_signature_part
    { name := "r", aliasName := none, length := 32, allowLess := true, allowZero := true,
      default := [] } rfl rfl sig.1 0
  have hs := setBytes_signature_part
    { name := "s", aliasName := none, length := 32, allowLess := true, allowZero := true,
      default := [] } rfl rfl sig.1 32
  have hv : ∀ v : Nat, setField
      { name := "v", aliasName := none, length := 0, allowLess := false, allowZero := true,
        default := [0x1c] } (.num v) = .ok (intToBuffer v) := by
    intro v
    simp [setField, toBuffer, setBytes]
  unfold Tx.sign
  simp only [h, txFields, List.get?, Tx.setAt]
  simp only [Nat.zero_add] at hr
  rw [hr]
  simp only [Except.bind, Tx.setAt]
  rw [show (32 : Nat) + 32 = 64 from rfl] at hs
  rw [hs]
  simp only [Except.bind, Tx.setAt, hv]

theorem Tx_sign_refused {K : Type} (lib : Lib K) (tx : Tx) (key : K)
    (h : lib.sign (tx.hash lib) key = none) :
    tx.sign lib key = .error "SigningError: the private key is malformed" := by
  unfold Tx.sign
  simp only [h]

theorem fieldsFromObject_script_error (x : JSVal) (e : String)
    (h : setField { name := "nonce", aliasName := none, length := 32, allowLess := true,
                    allowZero := false, default := [] } x = .error e) :
    fieldsFromObject
      [("nonce", x), ("to", .str account2), ("value", .str "0x2386f26fc10000"),
       ("gasLimit", .str "0x5208"), ("gasPrice", .str "0x2540be400")] txFields
    = .error e := by
  show fieldsFromObject _ (_ :: txFields.tail) = _
  unfold fieldsFromObject
  simp only [List.lookup, Option.bind, beq_self_eq_true, h]

theorem setField_nonce (n : Nat) (hn : n < 2 ^ 256) :
    setField { name := "nonce", aliasName := none, length := 32, allowLess := true,
               allowZero := false, default := [] } (.str (numberToHex n)) = .ok (nonceBytes n) := by
  have hlen : (stripZeros (intToBuffer n)).length ≤ 32 := by
    rw [length_le_iff_lt _ (head_stripZeros _), bytesToNat_stripZeros, bytesToNat_intToBuffer]
    norm_num
    exact hn
  unfold setField
  rw [toBuffer_numberToHex]
  simp only [setBytes_allowLess
    { name := "nonce", aliasName := none, length := 32, allowLess := true,
      allowZero := false, default := [] } rfl (by decide)]
  rw [if_pos hlen]
  rfl

theorem nonceBytes_value (n : Nat) :
    bytesToNat (nonceBytes n) = n ∧ (nonceBytes n).head? ≠ some 0 :=
  ⟨by rw [nonceBytes, bytesToNat_stripZeros, bytesToNat_intToBuffer], head_stripZeros _⟩

theorem Tx_new_num (n : Nat) (hn : n < 2 ^ 256) :
    (txObject (.num n)).bind Tx.new = .ok { raw := scriptRaw (nonceBytes n) } := by
  rw [txObject_num]
  simp only [Except.bind, Tx.new, fieldsFromObject_script _ _ (setField_nonce n hn), scriptRaw]

theorem Tx_new_big (n : Nat) (hn : 2 ^ 256 ≤ n) :
    ∃ e, (txObject (.num n)).bind Tx.new = .error e := by
  obtain ⟨bs, _, _, _, hset⟩ := setField_numberToHex
    { name := "nonce", aliasName := none, length := 32, allowLess := true,
      allowZero := false, default := [] } rfl rfl n
  rw [if_neg (by omega)] at hset
  rw [txObject_num]
  obtain ⟨e, he⟩ : ∃ e, fieldsFromObject
      [("nonce", JSVal.str (numberToHex n)), ("to", .str account2),
       ("value", .str "0x2386f26fc10000"), ("gasLimit", .str "0x5208"),
       ("gasPrice", .str "0x2540be400")] txFields = .error e :=
    ⟨_, fieldsFromObject_script_error _ _ hset⟩
  exact ⟨e, by simp only [Except.bind, Tx.new, he]⟩

theorem Tx_new_undefined :
    (txObject .undefined).bind Tx.new = .ok { raw := scriptRaw [] } := by
  decide

/-- The transaction that the constructor builds from the reply to the nonce query, when
it builds one: lines 21-30 do not touch the key. -/
theorem signedTransaction_eq {K : Type} (lib : Lib K) (key : K) (x : JSVal) :
    signedTransaction lib key x =
      match (txObject x).bind Tx.new with
      | .ok tx =>
        match lib.sign (tx.hash lib) key with
        | some sig =>
          .ok (rlpEncode
            (((tx.raw.set 7 (stripZeros (slice sig.1 0 32))).set 8
              (stripZeros (slice sig.1 32 64))).set 6 (intToBuffer (sig.2 + 27))))
        | none => .error "SigningError: the private key is malformed"
      | .error e => .error e := by
  unfold signedTransaction
  cases (txObject x).bind Tx.new with
  | ok tx =>
    cases hs : lib.sign (tx.hash lib) key with
    | some sig =>
      simp only [Except.bind, Tx_sign_ok lib tx key sig hs, Except.map, Tx.serialize, hs]
    | none => simp only [Except.bind, Tx_sign_refused lib tx key hs, Except.map, hs]
  | error e => rfl

theorem signedTransaction_of_new {K : Type} (lib : Lib K) (key : K) (x : JSVal) (v : Bytes)
    (sig : Bytes × Nat) (h : (txObject x).bind Tx.new = .ok { raw := scriptRaw v })
    (hs : lib.sign (unsignedDigest lib (scriptRaw v)) key = some sig) :
    signedTransaction lib key x = .ok (rlpEncode (signedRaw sig v)) := by
  have hs2 : lib.sign (Tx.hash lib { raw := scriptRaw v }) key = some sig := hs
  rw [signedTransaction_eq, h]
  simp only [hs2, signedRaw]

theorem signedTransaction_refused {K : Type} (lib : Lib K) (key : K) (x : JSVal) (v : Bytes)
    (h : (txObject x).bind Tx.new = .ok { raw := scriptRaw v })
    (hs : lib.sign (unsignedDigest lib (scriptRaw v)) key = none) :
    signedTransaction lib key x = .error "SigningError: the private key is malformed" := by
  have hs2 : lib.sign (Tx.hash lib { raw := scriptRaw v }) key = none := hs
  rw [signedTransaction_eq, h]
  simp only [hs2]

theorem signedTransaction_num {K : Type} (lib : Lib K) (key : K) (n : Nat) (hn : n < 2 ^ 256)
    (sig : Bytes × Nat)
    (hs : lib.sign (unsignedDigest lib (scriptRaw (nonceBytes n))) key = some sig) :
    signedTransaction lib key (.num n) = .ok (rlpEncode (signedRaw sig (nonceBytes n))) :=
  signedTransaction_of_new lib key _ _ sig (Tx_new_num n hn) hs

theorem signedTransaction_undefined {K : Type} (lib : Lib K) (key : K) (sig : Bytes × Nat)
    (hs : lib.sign (unsignedDigest lib (scriptRaw [])) key = some sig) :
    signedTransaction lib key .undefined = .ok (rlpEncode (signedRaw sig [])) :=
  signedTransaction_of_new lib key _ [] sig Tx_new_undefined hs

theorem signedTransaction_big {K : Type} (lib : Lib K) (key : K) (n : Nat) (hn : 2 ^ 256 ≤ n) :
    ∃ e, signedTransaction lib key (.num n) = .error e := by
  obtain ⟨e, he⟩ := Tx_new_big n hn
  refine ⟨e, ?_⟩
  unfold signedTransaction
  rw [he]
  rfl


/-! ## Runs of the event machine -/

theorem issued_append {τ : Type} (a b : List (Event τ)) : issued (a ++ b) = issued a ++ issued b := by
  simp [issued, List.filterMap_append]

theorem linesOf_append {τ : Type} (a b : List (Event τ)) : linesOf (a ++ b) = linesOf a ++ linesOf b := by
  simp [linesOf, List.filterMap_append]

theorem callsOf_append {τ : Type} (a b : List (Event τ)) : callsOf (a ++ b) = callsOf a ++ callsOf b := by
  simp [callsOf, List.filterMap_append]

theorem payloadsOf_append {τ : Type} (a b : List (Event τ)) :
    payloadsOf (a ++ b) = payloadsOf a ++ payloadsOf b := by
  simp [payloadsOf, List.filterMap_append]


theorem ended_emit {τ : Type} (s : State τ) (evs : List (Event τ)) :
    (State.emit s evs).ended = (s.ended || evs.any isCrash) := by
  simp [State.emit, State.ended, List.any_append]

theorem exec_nil {τ : Type} [DecidableEq τ] (h : τ → List (Event τ)) (s : State τ) : exec h s [] = s := rfl

theorem exec_cons {τ : Type} [DecidableEq τ] (h : τ → List (Event τ)) (s : State τ) (t : τ) (ts : List τ) :
    exec h s (t :: ts) = exec h (complete h s t) ts := rfl

theorem complete_of_mem {τ : Type} [DecidableEq τ] (h : τ → List (Event τ)) (s : State τ) (t : τ)
    (he : s.ended = false) (ht : t ∈ s.pending) :
    complete h s t =
      { pending := s.pending.erase t ++ issued (h t),
        trace := s.trace ++ (Event.done t :: h t) } := by
  unfold complete State.emit
  simp [ht, he]

theorem complete_of_not {τ : Type} [DecidableEq τ] (h : τ → List (Event τ)) (s : State τ) (t : τ)
    (hn : ¬ (s.ended = false ∧ t ∈ s.pending)) : complete h s t = s := by
  unfold complete
  by_cases he : s.ended = true
  · rw [if_pos he]
  · rw [if_neg he, if_neg]
    exact fun ht => hn ⟨by simpa using he, ht⟩

theorem complete_of_not_mem {τ : Type} [DecidableEq τ] (h : τ → List (Event τ)) (s : State τ) (t : τ)
    (ht : t ∉ s.pending) : complete h s t = s :=
  complete_of_not h s t (fun hc => ht hc.2)

theorem complete_of_ended {τ : Type} [DecidableEq τ] (h : τ → List (Event τ)) (s : State τ) (t : τ)
    (he : s.ended = true) : complete h s t = s :=
  complete_of_not h s t (fun hc => by rw [he] at hc; exact Bool.noConfusion hc.1)

/-- Nothing happens after the process has ended. -/
theorem exec_ended {τ : Type} [DecidableEq τ] (h : τ → List (Event τ)) (schedule : List τ) :
    ∀ s : State τ, s.ended = true → exec h s schedule = s := by
  induction schedule with
  | nil => intro s _; rfl
  | cons t rest ih =>
    intro s he
    rw [exec_cons, complete_of_ended h s t he]
    exact ih s he

theorem ended_complete {τ : Type} [DecidableEq τ] (h : τ → List (Event τ)) (s : State τ) (t : τ)
    (he : s.ended = false) (ht : t ∈ s.pending) :
    (complete h s t).ended = (h t).any isCrash := by
  rw [complete_of_mem h s t he ht]
  have he2 : s.trace.any isCrash = false := he
  simp [State.ended, List.any_append, he2, isCrash]

theorem issued_segs_cons {τ : Type} (h : τ → List (Event τ)) (t : τ) (ts : List τ) :
    issued (segs h (t :: ts)) = issued (h t) ++ issued (segs h ts) := by
  show issued (Event.done t :: (h t ++ segs h ts)) = _
  rw [← issued_append]
  rfl

/-- Every run is a sequence of completions: the trace is the starting trace followed by
the segments of the calls that were completed, each outstanding call is completed at
most as often as it was issued, and when the process is running with a single call
outstanding, that call is completed if it is scheduled. -/
theorem exec_segs {τ : Type} [DecidableEq τ] (h : τ → List (Event τ)) (schedule : List τ) :
    ∀ s : State τ, ∃ ts : List τ, ts.Sublist schedule
      ∧ (exec h s schedule).trace = s.trace ++ segs h ts
      ∧ (∀ x, List.count x (exec h s schedule).pending + List.count x ts
            = List.count x s.pending + List.count x (issued (segs h ts)))
      ∧ (∀ x, s.ended = false → s.pending = [x] → x ∈ schedule → x ∈ ts) := by
  induction schedule with
  | nil =>
    intro s
    exact ⟨[], List.Sublist.refl _, by simp [exec_nil, segs], by simp [exec_nil, segs, issued],
      by simp⟩
  | cons t rest ih =>
    intro s
    rw [exec_cons]
    by_cases hc : s.ended = false ∧ t ∈ s.pending
    · obtain ⟨he, ht⟩ := hc
      obtain ⟨ts, hsub, htr, hcnt, _⟩ := ih (complete h s t)
      rw [complete_of_mem h s t he ht] at htr hcnt
      refine ⟨t :: ts, hsub.cons₂ t, ?_, ?_, ?_⟩
      · rw [complete_of_mem h s t he ht, htr]
        simp [segs]
      · intro x
        have hx := hcnt x
        rw [complete_of_mem h s t he ht]
        rw [issued_segs_cons, List.count_append]
        simp only [List.count_append] at hx
        by_cases hxt : x = t
        · subst hxt
          have h1 : List.count x (s.pending.erase x) = List.count x s.pending - 1 := by
            rw [List.count_erase_self]
          have h2 : 0 < List.count x s.pending := List.count_pos_iff.mpr ht
          rw [List.count_cons_self]
          omega
        · have h1 : List.count x (s.pending.erase t) = List.count x s.pending :=
            List.count_erase_of_ne hxt _
          rw [List.count_cons_of_ne hxt]
          omega
      · intro x _ hp _
        rw [hp] at ht
        rw [List.mem_singleton.mp ht]
        exact List.mem_cons_self _ _
    · obtain ⟨ts, hsub, htr, hcnt, hmem⟩ := ih (complete h s t)
      rw [complete_of_not h s t hc] at htr hcnt hmem ⊢
      refine ⟨ts, hsub.cons t, htr, hcnt, ?_⟩
      intro x he hp hx
      have hxt : x ≠ t := by
        intro e
        subst e
        exact hc ⟨he, by rw [hp]; exact List.mem_singleton.mpr rfl⟩
      have hx2 : x ∈ rest := by
        rcases List.mem_cons.mp hx with h1 | h1
        · exact absurd h1 hxt
        · exact h1
      exact hmem x he hp hx2

/-- An invariant of the completions of outstanding calls in a running process holds
throughout a run. -/
theorem exec_invariant {τ : Type} [DecidableEq τ] (h : τ → List (Event τ)) (I : State τ → Prop)
    (hstep : ∀ s t, I s → s.ended = false → t ∈ s.pending → I (complete h s t)) :
    ∀ (schedule : List τ) (s : State τ), I s → I (exec h s schedule) := by
  intro schedule
  induction schedule with
  | nil => intro s hs; exact hs
  | cons t rest ih =>
    intro s hs
    rw [exec_cons]
    by_cases hc : s.ended = false ∧ t ∈ s.pending
    · exact ih _ (hstep s t hs hc.1 hc.2)
    · rw [complete_of_not h s t hc]
      exact ih _ hs

/-- Two runs under the same schedule whose continuations issue the same calls, throw in
the same cases and agree on a view `p` of the events have the same outstanding calls and
the same view. -/
theorem exec_sim {τ β : Type} [DecidableEq τ] (h g : τ → List (Event τ)) (p : Event τ → Option β)
    (hiss : ∀ t, issued (h t) = issued (g t))
    (hcrash : ∀ t, (h t).any isCrash = (g t).any isCrash)
    (hview : ∀ t, (h t).filterMap p = (g t).filterMap p) (hdone : ∀ t, p (.done t) = none) :
    ∀ (schedule : List τ) (s r : State τ), s.pending = r.pending → s.ended = r.ended →
      s.trace.filterMap p = r.trace.filterMap p →
      (exec h s schedule).pending = (exec g r schedule).pending
      ∧ (exec h s schedule).trace.filterMap p = (exec g r schedule).trace.filterMap p := by
  intro schedule
  induction schedule with
  | nil => intro s r hp _ ht; exact ⟨hp, ht⟩
  | cons t rest ih =>
    intro s r hp hend htr
    rw [exec_cons, exec_cons]
    by_cases hc : s.ended = false ∧ t ∈ s.pending
    · have hc2 : r.ended = false ∧ t ∈ r.pending := ⟨hend ▸ hc.1, hp ▸ hc.2⟩
      apply ih
      · rw [complete_of_mem h s t hc.1 hc.2, complete_of_mem g r t hc2.1 hc2.2]
        simp only [hp, hiss]
      · rw [ended_complete h s t hc.1 hc.2, ended_complete g r t hc2.1 hc2.2, hcrash]
      · rw [complete_of_mem h s t hc.1 hc.2, complete_of_mem g r t hc2.1 hc2.2]
        simp only [List.filterMap_append, List.filterMap_cons, htr, hview, hdone]
    · have hc2 : ¬ (r.ended = false ∧ t ∈ r.pending) := by
        rw [← hend, ← hp]
        exact hc
      rw [complete_of_not h s t hc, complete_of_not g r t hc2]
      exact ih _ _ hp hend htr

/-- In a run in which no continuation throws, a scheduled call that is outstanding is
completed. -/
theorem exec_completes {τ : Type} [DecidableEq τ] (h : τ → List (Event τ))
    (hlive : ∀ t, (h t).any isCrash = false) (x : τ) :
    ∀ (schedule : List τ) (s : State τ), s.ended = false → x ∈ s.pending → x ∈ schedule →
      Event.done x ∈ (exec h s schedule).trace := by
  intro schedule
  induction schedule with
  | nil => intro s _ _ hx; exact absurd hx (List.not_mem_nil _)
  | cons t rest ih =>
    intro s he hp hx
    rw [exec_cons]
    by_cases ht : t ∈ s.pending
    · have hend : (complete h s t).ended = false := by
        rw [ended_complete h s t he ht, hlive]
      by_cases hxt : x = t
      · subst hxt
        obtain ⟨ts, _, htr, _, _⟩ := exec_segs h rest (complete h s x)
        rw [htr, complete_of_mem h s x he ht]
        simp
      · have hx2 : x ∈ rest := by
          rcases List.mem_cons.mp hx with h1 | h1
          · exact absurd h1 hxt
          · exact h1
        apply ih _ hend _ hx2
        rw [complete_of_mem h s t he ht]
        exact List.mem_append_left _ ((List.mem_erase_of_ne hxt).mpr hp)
    · rw [complete_of_not_mem h s t ht]
      have hxt : x ≠ t := fun e => ht (e ▸ hp)
      have hx2 : x ∈ rest := by
        rcases List.mem_cons.mp hx with h1 | h1
        · exact absurd h1 hxt
        · exact h1
      exact ih s he hp hx2


theorem filterMap_segs_cons {τ β : Type} (h : τ → List (Event τ)) (p : Event τ → Option β)
    (hdone : ∀ t, p (.done t) = none) (t : τ) (ts : List τ) :
    (segs h (t :: ts)).filterMap p = (h t).filterMap p ++ (segs h ts).filterMap p := by
  show (Event.done t :: (h t ++ segs h ts)).filterMap p = _
  rw [List.filterMap_cons, hdone, List.filterMap_append]

/-- A view of the events to which only the continuation of the call `a` contributes,
in a run that completes `a` at most once, is that contribution or nothing. -/
theorem filterMap_segs_single {τ β : Type} [DecidableEq τ] (h : τ → List (Event τ)) (p : Event τ → Option β)
    (a : τ) (hdone : ∀ t, p (.done t) = none)
    (hother : ∀ t, t ≠ a → (h t).filterMap p = []) :
    ∀ ts : List τ, List.count a ts ≤ 1 →
      (segs h ts).filterMap p = if a ∈ ts then (h a).filterMap p else [] := by
  intro ts
  induction ts with
  | nil => intro _; simp [segs]
  | cons t ts ih =>
    intro hc
    rw [filterMap_segs_cons h p hdone]
    by_cases hta : t = a
    · subst hta
      rw [List.count_cons_self] at hc
      have h0 : List.count t ts = 0 := by omega
      have hn : t ∉ ts := List.count_eq_zero.mp h0
      rw [ih (by omega)]
      simp [hn]
    · rw [List.count_cons_of_ne (fun e => hta e.symm)] at hc
      rw [hother t hta, ih hc]
      have : (a ∈ t :: ts) ↔ a ∈ ts := by
        constructor
        · intro hm
          rcases List.mem_cons.mp hm with e | e
          · exact absurd e.symm hta
          · exact e
        · exact List.mem_cons_of_mem _
      simp only [List.nil_append, this]

theorem count_issued_segs_zero {τ : Type} [DecidableEq τ] (h : τ → List (Event τ)) (x : τ)
    (hx : ∀ t, x ∉ issued (h t)) : ∀ ts : List τ, List.count x (issued (segs h ts)) = 0 := by
  intro ts
  induction ts with
  | nil => simp [segs, issued]
  | cons t ts ih =>
    rw [issued_segs_cons, List.count_append, ih, List.count_eq_zero.mpr (hx t)]

theorem count_issued_segs_le {τ : Type} [DecidableEq τ] (h : τ → List (Event τ)) (x a : τ)
    (ha : List.count x (issued (h a)) ≤ 1)
    (hx : ∀ t, t ≠ a → x ∉ issued (h t)) :
    ∀ ts : List τ, List.count x (issued (segs h ts)) ≤ List.count a ts := by
  intro ts
  induction ts with
  | nil => simp [segs, issued]
  | cons t ts ih =>
    rw [issued_segs_cons, List.count_append]
    by_cases hta : t = a
    · subst hta
      rw [List.count_cons_self]
      omega
    · rw [List.count_cons_of_ne (fun e => hta e.symm), List.count_eq_zero.mpr (hx t hta)]
      omega

theorem done_mem_segs {τ : Type} (h : τ → List (Event τ)) (a : τ) (hno : ∀ t, Event.done a ∉ h t) :
    ∀ ts : List τ, Event.done a ∈ segs h ts ↔ a ∈ ts := by
  intro ts
  induction ts with
  | nil => simp [segs]
  | cons t ts ih =>
    show Event.done a ∈ Event.done t :: (h t ++ segs h ts) ↔ _
    simp only [List.mem_cons, List.mem_append, ih, Event.done.injEq]
    constructor
    · rintro (h1 | h1 | h1)
      · exact Or.inl h1
      · exact absurd h1 (hno t)
      · exact Or.inr h1
    · rintro (h1 | h1)
      · exact Or.inl h1
      · exact Or.inr (Or.inr h1)

/-! ## Runs of the transaction script -/

theorem start_main2 : start main2 = { pending := [Tag2.txCount], trace := main2 } := rfl

theorem start_main2_running : (start main2).ended = false := rfl

theorem handle2_txCount_ok {K : Type} (lib : Lib K) (key : K) (node : Node2) (ser : Bytes)
    (h : signedTransaction lib key (txCountOf node.txCount) = .ok ser) :
    handle2 lib key node .txCount =
      [ .issue .send (.sendSignedTransaction (rawOf ser)),
        .issue .balance1 (.getBalance account1),
        .issue .balance2 (.getBalance account2) ] := by
  unfold handle2
  rw [h]

theorem handle2_txCount_error {K : Type} (lib : Lib K) (key : K) (node : Node2) (e : String)
    (h : signedTransaction lib key (txCountOf node.txCount) = .error e) :
    handle2 lib key node .txCount = [.crash] := by
  unfold handle2
  rw [h]

theorem handle2_send {K : Type} (lib : Lib K) (key : K) (node : Node2) :
    handle2 lib key node .send =
      [.log (match node.send with
        | .error err => [.str "err:", .error err]
        | .ok txHash => [.str "txHash:", .str txHash])] := by
  unfold handle2
  cases node.send <;> rfl

/-- The continuation of a call other than the nonce query writes one line or throws. -/
theorem handle2_leaf {K : Type} (lib : Lib K) (key : K) (node : Node2) (t : Tag2) (ht : t ≠ .txCount) :
    handle2 lib key node t = [.crash] ∨ ∃ args, handle2 lib key node t = [.log args] := by
  cases t with
  | txCount => exact absurd rfl ht
  | send => exact Or.inr ⟨_, handle2_send lib key node⟩
  | balance1 =>
    show onBalance lib _ _ = [.crash] ∨ ∃ args, onBalance lib _ _ = [.log args]
    unfold onBalance
    cases lib.fromWei (resultOf node.balance1) with
    | none => exact Or.inl rfl
    | some v => exact Or.inr ⟨_, rfl⟩
  | balance2 =>
    show onBalance lib _ _ = [.crash] ∨ ∃ args, onBalance lib _ _ = [.log args]
    unfold onBalance
    cases lib.fromWei (resultOf node.balance2) with
    | none => exact Or.inl rfl
    | some v => exact Or.inr ⟨_, rfl⟩

theorem handle2_txCount_cases {K : Type} (lib : Lib K) (key : K) (node : Node2) :
    (∃ ser, signedTransaction lib key (txCountOf node.txCount) = .ok ser
      ∧ handle2 lib key node .txCount =
        [ .issue .send (.sendSignedTransaction (rawOf ser)),
          .issue .balance1 (.getBalance account1),
          .issue .balance2 (.getBalance account2) ])
    ∨ ((∃ e, signedTransaction lib key (txCountOf node.txCount) = .error e)
      ∧ handle2 lib key node .txCount = [.crash]) := by
  cases h : signedTransaction lib key (txCountOf node.txCount) with
  | ok ser => exact Or.inl ⟨ser, rfl, handle2_txCount_ok lib key node ser h⟩
  | error e => exact Or.inr ⟨⟨e, rfl⟩, handle2_txCount_error lib key node e h⟩

theorem issued_handle2_leaf {K : Type} (lib : Lib K) (key : K) (node : Node2) (t : Tag2) (ht : t ≠ .txCount) :
    issued (handle2 lib key node t) = [] := by
  rcases handle2_leaf lib key node t ht with h | ⟨a, h⟩ <;> rw [h] <;> rfl

theorem payloadsOf_handle2_leaf {K : Type} (lib : Lib K) (key : K) (node : Node2) (t : Tag2) (ht : t ≠ .txCount) :
    payloadsOf (handle2 lib key node t) = [] := by
  rcases handle2_leaf lib key node t ht with h | ⟨a, h⟩ <;> rw [h] <;> rfl

theorem issued_handle2_txCount {K : Type} (lib : Lib K) (key : K) (node : Node2) :
    issued (handle2 lib key node .txCount) = [.send, .balance1, .balance2]
    ∨ issued (handle2 lib key node .txCount) = [] := by
  rcases handle2_txCount_cases lib key node with ⟨_, _, h⟩ | ⟨_, h⟩ <;> rw [h]
  · exact Or.inl rfl
  · exact Or.inr rfl

theorem txCount_not_issued {K : Type} (lib : Lib K) (key : K) (node : Node2) (t : Tag2) :
    Tag2.txCount ∉ issued (handle2 lib key node t) := by
  by_cases ht : t = .txCount
  · subst ht
    rcases issued_handle2_txCount lib key node with h | h <;> rw [h] <;> decide
  · rw [issued_handle2_leaf lib key node t ht]
    exact List.not_mem_nil _

theorem no_done_handle2 {K : Type} (lib : Lib K) (key : K) (node : Node2) (a t : Tag2) :
    Event.done a ∉ handle2 lib key node t := by
  by_cases ht : t = .txCount
  · subst ht
    rcases handle2_txCount_cases lib key node with ⟨_, _, h⟩ | ⟨_, h⟩ <;> rw [h] <;> simp
  · rcases handle2_leaf lib key node t ht with h | ⟨_, h⟩ <;> rw [h] <;> simp

/-- The shape of every run of the transaction script: the nonce query, then the
segments of the completed calls; the nonce query and the broadcast complete at most
once, and the nonce query completes as soon as it is scheduled. -/
theorem run2_shape {K : Type} (lib : Lib K) (key : K) (node : Node2)
    (schedule : List Tag2) :
    ∃ ts : List Tag2, ts.Sublist schedule
      ∧ (run2 lib key node schedule).trace = main2 ++ segs (handle2 lib key node) ts
      ∧ List.count Tag2.txCount ts ≤ 1
      ∧ List.count Tag2.send ts ≤ 1
      ∧ (Tag2.txCount ∈ ts ↔ Tag2.txCount ∈ schedule) := by
  obtain ⟨ts, hsub, htr, hcnt, hmem⟩ :=
    exec_segs (handle2 lib key node) schedule (start main2)
  have h1 := hcnt Tag2.txCount
  rw [count_issued_segs_zero _ _ (txCount_not_issued lib key node)] at h1
  have h2 := hcnt Tag2.send
  have h3 : List.count Tag2.send (issued (segs (handle2 lib key node) ts))
      ≤ List.count Tag2.txCount ts := by
    apply count_issued_segs_le
    · rcases issued_handle2_txCount lib key node with h | h <;> rw [h] <;> decide
    · intro t ht
      rw [issued_handle2_leaf lib key node t ht]
      exact List.not_mem_nil _
  rw [start_main2] at h1 h2 htr hmem
  simp only [List.count_cons_self, List.count_nil] at h1
  have h4 : List.count Tag2.send [Tag2.txCount] = 0 := by decide
  rw [h4] at h2
  refine ⟨ts, hsub, htr, by omega, by omega, ?_, ?_⟩
  · exact fun h => hsub.subset h
  · exact fun h => hmem _ rfl rfl h


theorem mem_segs {τ : Type} (h : τ → List (Event τ)) (e : Event τ) :
    ∀ ts : List τ, e ∈ segs h ts → (∃ t ∈ ts, e = .done t) ∨ (∃ t ∈ ts, e ∈ h t) := by
  intro ts
  induction ts with
  | nil => intro he; simp [segs] at he
  | cons t ts ih =>
    intro he
    have he' : e ∈ Event.done t :: (h t ++ segs h ts) := he
    rcases List.mem_cons.mp he' with h1 | h1
    · exact Or.inl ⟨t, List.mem_cons_self _ _, h1⟩
    · rcases List.mem_append.mp h1 with h2 | h2
      · exact Or.inr ⟨t, List.mem_cons_self _ _, h2⟩
      · rcases ih h2 with ⟨u, hu, hd⟩ | ⟨u, hu, hd⟩
        · exact Or.inl ⟨u, List.mem_cons_of_mem _ hu, hd⟩
        · exact Or.inr ⟨u, List.mem_cons_of_mem _ hu, hd⟩

theorem payloadsOf_handle2_txCount {K : Type} (lib : Lib K) (key : K) (node : Node2) :
    payloadsOf (handle2 lib key node .txCount)
      = match signedTransaction lib key (txCountOf node.txCount) with
        | .ok serialized => [rawOf serialized]
        | .error _ => [] := by
  unfold handle2
  cases signedTransaction lib key (txCountOf node.txCount) <;> rfl

/-- The payloads that a run hands to the broadcast: the one built from the reply to
the nonce query once that query has completed, none before. -/
theorem run2_payloads {K : Type} (lib : Lib K) (key : K) (node : Node2)
    (schedule : List Tag2) :
    payloadsOf (run2 lib key node schedule).trace
      = if Tag2.txCount ∈ schedule then
          match signedTransaction lib key (txCountOf node.txCount) with
          | .ok serialized => [rawOf serialized]
          | .error _ => []
        else [] := by
  obtain ⟨ts, _, htr, hc, _, hmem⟩ := run2_shape lib key node schedule
  rw [htr, payloadsOf_append]
  have h0 : payloadsOf main2 = [] := rfl
  rw [h0, List.nil_append]
  have := filterMap_segs_single (handle2 lib key node)
    payloadOf Tag2.txCount (fun _ => rfl)
    (fun t ht => payloadsOf_handle2_leaf lib key node t ht) ts hc
  rw [show payloadsOf (segs (handle2 lib key node) ts) = _ from this]
  simp only [hmem]
  split
  · exact payloadsOf_handle2_txCount lib key node
  · rfl

theorem broadcastLines_handle2 {K : Type} (lib : Lib K) (key : K) (node : Node2) (t : Tag2)
    (ht : t ≠ .send) : broadcastLines (handle2 lib key node t) = [] := by
  cases t with
  | send => exact absurd rfl ht
  | txCount =>
    rcases handle2_txCount_cases lib key node with ⟨_, _, h⟩ | ⟨_, h⟩ <;> rw [h] <;> rfl
  | balance1 =>
    show broadcastLines (onBalance lib _ _) = []
    unfold onBalance
    cases lib.fromWei (resultOf node.balance1) with
    | none => rfl
    | some v => simp [broadcastLines, broadcastLine]
  | balance2 =>
    show broadcastLines (onBalance lib _ _) = []
    unfold onBalance
    cases lib.fromWei (resultOf node.balance2) with
    | none => rfl
    | some v => simp [broadcastLines, broadcastLine]

theorem broadcastLines_handle2_send {K : Type} (lib : Lib K) (key : K) (node : Node2) :
    broadcastLines (handle2 lib key node .send) =
      [match node.send with
        | .error err => [.str "err:", .error err]
        | .ok txHash => [.str "txHash:", .str txHash]] := by
  rw [handle2_send]
  cases node.send <;> simp [broadcastLines, broadcastLine]

theorem signedTransaction_count {K : Type} (lib : Lib K) (key : K) (n : Nat)
    (hn : n < 2 ^ 256)
    (hs : (lib.sign (unsignedDigest lib (scriptRaw (nonceBytes n))) key).isSome = true) :
    ∃ serialized, signedTransaction lib key (.num n) = .ok serialized := by
  obtain ⟨sig, hsig⟩ := Option.isSome_iff_exists.mp hs
  exact ⟨_, signedTransaction_num lib key n hn sig hsig⟩

/-- When the nonce query has returned a count, the transaction was signed and no
balance callback throws, no continuation of the run throws. -/
theorem handle2_live {K : Type} (lib : Lib K) (key : K) (node : Node2) (serialized : Bytes)
    (hs : signedTransaction lib key (txCountOf node.txCount) = .ok serialized)
    (h1 : lib.fromWei (resultOf node.balance1) ≠ none)
    (h2 : lib.fromWei (resultOf node.balance2) ≠ none) :
    ∀ t, (handle2 lib key node t).any isCrash = false := by
  intro t
  cases t with
  | txCount => rw [handle2_txCount_ok lib key node serialized hs]; rfl
  | send => rw [handle2_send]; rfl
  | balance1 =>
    show (onBalance lib _ _).any isCrash = false
    unfold onBalance
    cases hb : lib.fromWei (resultOf node.balance1) with
    | none => exact absurd hb h1
    | some v => rfl
  | balance2 =>
    show (onBalance lib _ _).any isCrash = false
    unfold onBalance
    cases hb : lib.fromWei (resultOf node.balance2) with
    | none => exact absurd hb h2
    | some v => rfl

/-- In a run in which the nonce query completes first, the transaction is signed and no
balance callback throws, the broadcast completes if it is scheduled. -/
theorem run2_send_completes {K : Type} (lib : Lib K) (key : K) (node : Node2)
    (serialized : Bytes)
    (hs : signedTransaction lib key (txCountOf node.txCount) = .ok serialized)
    (h1 : lib.fromWei (resultOf node.balance1) ≠ none)
    (h2 : lib.fromWei (resultOf node.balance2) ≠ none)
    (rest : List Tag2) (hrest : Tag2.send ∈ rest) :
    Event.done Tag2.send ∈ (run2 lib key node (Tag2.txCount :: rest)).trace := by
  unfold run2
  rw [exec_cons, complete_of_mem _ _ _ start_main2_running
    (by rw [start_main2]; exact List.mem_singleton.mpr rfl),
    handle2_txCount_ok lib key node serialized hs]
  have hp : Tag2.send ∈ [Tag2.send, Tag2.balance1, Tag2.balance2] := List.mem_cons_self _ _
  exact exec_completes _ (handle2_live lib key node serialized hs h1 h2) Tag2.send rest _
    rfl hp hrest

/-- C4: the callback of the broadcast writes exactly one line, the node's error
unchanged after a rejection (and no transaction hash) and the transaction hash
otherwise; in every run the lines about the broadcast are that one line once the
callback of the broadcast has run and none before, so no outcome is reported twice; no
run issues more than one `sendSignedTransaction`; a run whose nonce query returned a
count below 2^256 and whose key the signer accepts issues exactly one, with the signed
serialization as payload; and in such a run in which the nonce query completes first
and no balance callback throws, the line is written whenever the broadcast is
scheduled to complete.  (An uncaught exception of a balance callback ends the process;
the callback of the broadcast then never runs.) -/
theorem C4_broadcast_reported_once {K : Type} (lib : Lib K) (key : K) (node : Node2)
    (schedule : List Tag2) :
    handle2 lib key node .send =
        [.log (match node.send with
          | .error err => [.str "err:", .error err]
          | .ok txHash => [.str "txHash:", .str txHash])]
    ∧ broadcastLines (run2 lib key node schedule).trace =
        (if Event.done Tag2.send ∈ (run2 lib key node schedule).trace then
          [match node.send with
            | .error err => [.str "err:", .error err]
            | .ok txHash => [.str "txHash:", .str txHash]]
         else [])
    ∧ (payloadsOf (run2 lib key node schedule).trace).length ≤ 1
    ∧ (∀ n, node.txCount = .ok n → n < 2 ^ 256 →
        (lib.sign (unsignedDigest lib (scriptRaw (nonceBytes n))) key).isSome = true →
        ∃ serialized, signedTransaction lib key (.num n) = .ok serialized
          ∧ (Tag2.txCount ∈ schedule →
              payloadsOf (run2 lib key node schedule).trace = [rawOf serialized])
          ∧ (lib.fromWei (resultOf node.balance1) ≠ none →
              lib.fromWei (resultOf node.balance2) ≠ none →
              ∀ rest, Tag2.send ∈ rest →
                broadcastLines (run2 lib key node (Tag2.txCount :: rest)).trace =
                  [match node.send with
                    | .error err => [.str "err:", .error err]
                    | .ok txHash => [.str "txHash:", .str txHash]])) := by
  have hlines : ∀ sched : List Tag2, broadcastLines (run2 lib key node sched).trace =
        (if Event.done Tag2.send ∈ (run2 lib key node sched).trace then
          [match node.send with
            | .error err => [.str "err:", .error err]
            | .ok txHash => [.str "txHash:", .str txHash]]
         else []) := by
    intro sched
    obtain ⟨ts, _, htr, _, hc, _⟩ := run2_shape lib key node sched
    rw [htr]
    have hd : Event.done Tag2.send ∈ main2 ++ segs (handle2 lib key node) ts ↔ Tag2.send ∈ ts := by
      rw [List.mem_append, done_mem_segs _ _ (no_done_handle2 lib key node Tag2.send)]
      constructor
      · rintro (h | h)
        · simp [main2] at h
        · exact h
      · exact Or.inr
    have := filterMap_segs_single (handle2 lib key node)
      broadcastLine Tag2.send (fun _ => rfl)
      (fun t ht => broadcastLines_handle2 lib key node t ht) ts hc
    have hb : broadcastLines (main2 ++ segs (handle2 lib key node) ts)
        = broadcastLines (segs (handle2 lib key node) ts) := by
      simp [broadcastLines, broadcastLine, main2]
    rw [hb, show broadcastLines (segs (handle2 lib key node) ts) = _ from this]
    simp only [hd]
    split
    · exact broadcastLines_handle2_send lib key node
    · rfl
  refine ⟨handle2_send lib key node, hlines schedule, ?_, ?_⟩
  · rw [run2_payloads]
    split
    · cases signedTransaction lib key (txCountOf node.txCount) <;> simp
    · simp
  · intro n hn hlt hsign
    obtain ⟨serialized, hser⟩ := signedTransaction_count lib key n hlt hsign
    have hser2 : signedTransaction lib key (txCountOf node.txCount) = .ok serialized := by
      rw [hn]; exact hser
    refine ⟨serialized, hser, ?_, ?_⟩
    · intro hmem
      rw [run2_payloads, if_pos hmem, hser2]
    · intro h1 h2 rest hrest
      rw [hlines, if_pos (run2_send_completes lib key node serialized hser2 h1 h2 rest hrest)]

theorem C4_broadcast_reported_once_witness :
    ∃ serialized, signedTransaction (ethLib (fun _ _ => 77)) privateKey1 (.num 5) = .ok serialized
      ∧ (Tag2.txCount ∈ [Tag2.txCount, Tag2.send] →
          payloadsOf (run2 (ethLib (fun _ _ => 77)) privateKey1
            (sampleNode (.ok 5) (.error "nonce too low")) [.txCount, .send]).trace
            = [rawOf serialized])
      ∧ ((ethLib (fun _ _ => 77)).fromWei
            (resultOf (sampleNode (.ok 5) (.error "nonce too low")).balance1) ≠ none →
          (ethLib (fun _ _ => 77)).fromWei
            (resultOf (sampleNode (.ok 5) (.error "nonce too low")).balance2) ≠ none →
          ∀ rest, Tag2.send ∈ rest →
            broadcastLines (run2 (ethLib (fun _ _ => 77)) privateKey1
              (sampleNode (.ok 5) (.error "nonce too low")) (Tag2.txCount :: rest)).trace =
              [match (sampleNode (.ok 5) (.error "nonce too low")).send with
                | .error err => [.str "err:", .error err]
                | .ok txHash => [.str "txHash:", .str txHash]]) :=
  (C4_broadcast_reported_once (ethLib (fun _ _ => 77)) privateKey1
    (sampleNode (.ok 5) (.error "nonce too low")) [.txCount, .send]).2.2.2 5 rfl
    (by norm_num) (by decide!)


/-! ## The key in a run -/

theorem Tx_new_reply (reply : Except String Nat) (tx : Tx)
    (h : (txObject (txCountOf reply)).bind Tx.new = .ok tx) :
    tx = { raw := scriptRaw (nonceOf reply) } := by
  cases reply with
  | error e =>
    have h2 : (txObject .undefined).bind Tx.new = .ok tx := h
    rw [Tx_new_undefined] at h2
    exact (Except.ok.inj h2).symm
  | ok n =>
    have h2 : (txObject (.num n)).bind Tx.new = .ok tx := h
    by_cases hn : n < 2 ^ 256
    · rw [Tx_new_num n hn] at h2
      exact (Except.ok.inj h2).symm
    · obtain ⟨e, he⟩ := Tx_new_big n (not_lt.mp hn)
      rw [he] at h2
      exact Except.noConfusion h2

/-- The continuation of the nonce query: it throws when the constructor or the signer
throws, and otherwise issues the broadcast of the fields with the signature stored in
them, and the two balance queries. -/
theorem handle2_txCount_shape {K : Type} (lib : Lib K) (key : K) (node : Node2) :
    ((∃ e, (txObject (txCountOf node.txCount)).bind Tx.new = .error e)
      ∧ handle2 lib key node .txCount = [.crash])
    ∨ ((txObject (txCountOf node.txCount)).bind Tx.new = .ok { raw := scriptRaw (nonceOf node.txCount) }
      ∧ lib.sign (unsignedDigest lib (scriptRaw (nonceOf node.txCount))) key = none
      ∧ handle2 lib key node .txCount = [.crash])
    ∨ (∃ sig, (txObject (txCountOf node.txCount)).bind Tx.new = .ok { raw := scriptRaw (nonceOf node.txCount) }
      ∧ lib.sign (unsignedDigest lib (scriptRaw (nonceOf node.txCount))) key = some sig
      ∧ signedTransaction lib key (txCountOf node.txCount)
          = .ok (rlpEncode (signedRaw sig (nonceOf node.txCount)))
      ∧ handle2 lib key node .txCount =
        [ .issue .send (.sendSignedTransaction
            (rawOf (rlpEncode (signedRaw sig (nonceOf node.txCount))))),
          .issue .balance1 (.getBalance account1),
          .issue .balance2 (.getBalance account2) ]) := by
  cases hn : (txObject (txCountOf node.txCount)).bind Tx.new with
  | error e =>
    have hs := signedTransaction_eq lib key (txCountOf node.txCount)
    rw [hn] at hs
    exact Or.inl ⟨⟨e, rfl⟩, handle2_txCount_error lib key node e hs⟩
  | ok tx =>
    have htx := Tx_new_reply node.txCount tx hn
    subst htx
    cases hsig : lib.sign (unsignedDigest lib (scriptRaw (nonceOf node.txCount))) key with
    | none =>
      exact Or.inr (Or.inl ⟨rfl, rfl, handle2_txCount_error lib key node _
        (signedTransaction_refused lib key _ _ hn hsig)⟩)
    | some sig =>
      have hs := signedTransaction_of_new lib key _ _ sig hn hsig
      exact Or.inr (Or.inr ⟨sig, rfl, rfl, hs, handle2_txCount_ok lib key node _ hs⟩)

theorem signedTransaction_key_irrelevant {K : Type} (lib : Lib K) (k1 k2 : K)
    (h : ∀ digest, lib.sign digest k1 = lib.sign digest k2) (x : JSVal) :
    signedTransaction lib k1 x = signedTransaction lib k2 x := by
  rw [signedTransaction_eq, signedTransaction_eq]
  cases (txObject x).bind Tx.new with
  | ok tx => simp only [h]
  | error e => rfl

theorem handle2_balance1 {K : Type} (lib : Lib K) (key : K) (node : Node2) :
    handle2 lib key node .balance1 = onBalance lib "Account 1:" node.balance1 := rfl

theorem handle2_balance2 {K : Type} (lib : Lib K) (key : K) (node : Node2) :
    handle2 lib key node .balance2 = onBalance lib "Account 2:" node.balance2 := rfl

theorem handle2_leaf_keys {K : Type} (lib : Lib K) (k1 k2 : K) (node : Node2) (t : Tag2)
    (ht : t ≠ .txCount) : handle2 lib k1 node t = handle2 lib k2 node t := by
  cases t with
  | txCount => exact absurd rfl ht
  | send => rw [handle2_send, handle2_send]
  | balance1 => rw [handle2_balance1, handle2_balance1]
  | balance2 => rw [handle2_balance2, handle2_balance2]

/-- For two keys that the signer both accepts or both refuses, the continuations issue
the same calls, throw in the same cases and write the same lines. -/
theorem handle2_keys {K : Type} (lib : Lib K) (k1 k2 : K) (node : Node2)
    (h : (lib.sign (unsignedDigest lib (scriptRaw (nonceOf node.txCount))) k1).isSome
      = (lib.sign (unsignedDigest lib (scriptRaw (nonceOf node.txCount))) k2).isSome)
    (t : Tag2) :
    issued (handle2 lib k1 node t) = issued (handle2 lib k2 node t)
    ∧ (handle2 lib k1 node t).any isCrash = (handle2 lib k2 node t).any isCrash
    ∧ (handle2 lib k1 node t).filterMap lineOf = (handle2 lib k2 node t).filterMap lineOf := by
  by_cases ht : t = .txCount
  · subst ht
    rcases handle2_txCount_shape lib k1 node with ⟨⟨e, hn⟩, h1⟩ | ⟨hn, hs, h1⟩ | ⟨sig, hn, hs, _, h1⟩ <;>
      rcases handle2_txCount_shape lib k2 node with ⟨⟨e2, hn2⟩, h2⟩ | ⟨hn2, hs2, h2⟩ | ⟨sig2, hn2, hs2, _, h2⟩
    · rw [h1, h2]; exact ⟨rfl, rfl, rfl⟩
    · rw [h1, h2]; exact ⟨rfl, rfl, rfl⟩
    · rw [hn] at hn2; exact Except.noConfusion hn2
    · rw [h1, h2]; exact ⟨rfl, rfl, rfl⟩
    · rw [h1, h2]; exact ⟨rfl, rfl, rfl⟩
    · rw [hs, hs2] at h; exact Bool.noConfusion h
    · rw [hn] at hn2; exact Except.noConfusion hn2
    · rw [hs, hs2] at h; exact Bool.noConfusion h
    · rw [h1, h2]
      exact ⟨Eq.trans (b := [Tag2.send, Tag2.balance1, Tag2.balance2]) rfl rfl,
        Eq.trans (b := false) rfl rfl, Eq.trans (b := []) rfl rfl⟩
  · rw [handle2_leaf_keys lib k1 k2 node t ht]
    exact ⟨rfl, rfl, rfl⟩

theorem run2_calls {K : Type} (lib : Lib K) (key : K) (node : Node2) (schedule : List Tag2)
    (c : Call) (hc : c ∈ callsOf (run2 lib key node schedule).trace) :
    c = .getTransactionCount account1 ∨ c = .getBalance account1 ∨ c = .getBalance account2
      ∨ ∃ sig, lib.sign (unsignedDigest lib (scriptRaw (nonceOf node.txCount))) key = some sig
          ∧ c = .sendSignedTransaction (rawOf (rlpEncode (signedRaw sig (nonceOf node.txCount)))) := by
  obtain ⟨ts, _, htr, _, _, _⟩ := run2_shape lib key node schedule
  rw [htr] at hc
  unfold callsOf at hc
  obtain ⟨e, he, hce⟩ := List.mem_filterMap.mp hc
  rcases List.mem_append.mp he with h | h
  · have he1 : e = .issue .txCount (.getTransactionCount account1) := List.mem_singleton.mp h
    subst he1
    exact Or.inl (Option.some.inj hce).symm
  · rcases mem_segs _ _ _ h with ⟨t, _, hd⟩ | ⟨t, _, hd⟩
    · subst hd
      exact Option.noConfusion hce
    · by_cases ht : t = .txCount
      · subst ht
        rcases handle2_txCount_shape lib key node with ⟨_, hh⟩ | ⟨_, _, hh⟩ | ⟨sig, _, hs, _, hh⟩
        · rw [hh] at hd
          have h3 := List.mem_singleton.mp hd
          subst h3
          exact Option.noConfusion hce
        · rw [hh] at hd
          have h3 := List.mem_singleton.mp hd
          subst h3
          exact Option.noConfusion hce
        · rw [hh] at hd
          rcases List.mem_cons.mp hd with h1 | h1
          · subst h1
            exact Or.inr (Or.inr (Or.inr ⟨sig, hs, (Option.some.inj hce).symm⟩))
          · rcases List.mem_cons.mp h1 with h2 | h2
            · subst h2
              exact Or.inr (Or.inl (Option.some.inj hce).symm)
            · have h3 := List.mem_singleton.mp h2
              subst h3
              exact Or.inr (Or.inr (Or.inl (Option.some.inj hce).symm))
      · rcases handle2_leaf lib key node t ht with hh | ⟨a, hh⟩
        · rw [hh] at hd
          have h3 := List.mem_singleton.mp hd
          subst h3
          exact Option.noConfusion hce
        · rw [hh] at hd
          have h3 := List.mem_singleton.mp hd
          subst h3
          exact Option.noConfusion hce

/-- The console lines of a run are made of fixed labels and of what the node
answered. -/
theorem run2_lines {K : Type} (lib : Lib K) (key : K) (node : Node2) (schedule : List Tag2)
    (l : List JSVal) (hl : l ∈ linesOf (run2 lib key node schedule).trace) :
    (∃ err, node.send = .error err ∧ l = [.str "err:", .error err])
    ∨ (∃ txHash, node.send = .ok txHash ∧ l = [.str "txHash:", .str txHash])
    ∨ (∃ text, lib.fromWei (resultOf node.balance1) = some text ∧ l = [.str "Account 1:", text])
    ∨ (∃ text, lib.fromWei (resultOf node.balance2) = some text ∧ l = [.str "Account 2:", text]) := by
  obtain ⟨ts, _, htr, _, _, _⟩ := run2_shape lib key node schedule
  rw [htr] at hl
  unfold linesOf at hl
  obtain ⟨e, he, hle⟩ := List.mem_filterMap.mp hl
  rcases List.mem_append.mp he with h | h
  · have he1 : e = .issue .txCount (.getTransactionCount account1) := List.mem_singleton.mp h
    subst he1
    exact Option.noConfusion hle
  · rcases mem_segs _ _ _ h with ⟨t, _, hd⟩ | ⟨t, _, hd⟩
    · subst hd
      exact Option.noConfusion hle
    · cases t with
      | txCount =>
        rcases handle2_txCount_shape lib key node with ⟨_, hh⟩ | ⟨_, _, hh⟩ | ⟨sig, _, hs, _, hh⟩
        · rw [hh] at hd
          have h3 := List.mem_singleton.mp hd
          subst h3
          exact Option.noConfusion hle
        · rw [hh] at hd
          have h3 := List.mem_singleton.mp hd
          subst h3
          exact Option.noConfusion hle
        · rw [hh] at hd
          rcases List.mem_cons.mp hd with h1 | h1
          · subst h1
            exact Option.noConfusion hle
          · rcases List.mem_cons.mp h1 with h2 | h2
            · subst h2
              exact Option.noConfusion hle
            · have h3 := List.mem_singleton.mp h2
              subst h3
              exact Option.noConfusion hle
      | send =>
        rw [handle2_send] at hd
        have h3 := List.mem_singleton.mp hd
        subst h3
        have hl2 := (Option.some.inj hle).symm
        cases hsend : node.send with
        | error err =>
          rw [hsend] at hl2
          exact Or.inl ⟨err, rfl, hl2⟩
        | ok txHash =>
          rw [hsend] at hl2
          exact Or.inr (Or.inl ⟨txHash, rfl, hl2⟩)
      | balance1 =>
        rw [handle2_balance1] at hd
        unfold onBalance at hd
        cases hb : lib.fromWei (resultOf node.balance1) with
        | none =>
          rw [hb] at hd
          have h3 := List.mem_singleton.mp hd
          subst h3
          exact Option.noConfusion hle
        | some text =>
          rw [hb] at hd
          have h3 := List.mem_singleton.mp hd
          subst h3
          exact Or.inr (Or.inr (Or.inl ⟨text, rfl, (Option.some.inj hle).symm⟩))
      | balance2 =>
        rw [handle2_balance2] at hd
        unfold onBalance at hd
        cases hb : lib.fromWei (resultOf node.balance2) with
        | none =>
          rw [hb] at hd
          have h3 := List.mem_singleton.mp hd
          subst h3
          exact Option.noConfusion hle
        | some text =>
          rw [hb] at hd
          have h3 := List.mem_singleton.mp hd
          subst h3
          exact Or.inr (Or.inr (Or.inr ⟨text, rfl, (Option.some.inj hle).symm⟩))

theorem handle2_key_irrelevant {K : Type} (lib : Lib K) (k1 k2 : K) (node : Node2)
    (h : ∀ digest, lib.sign digest k1 = lib.sign digest k2) :
    handle2 lib k1 node = handle2 lib k2 node := by
  funext t
  by_cases ht : t = .txCount
  · subst ht
    unfold handle2
    rw [signedTransaction_key_irrelevant lib k1 k2 h]
  · exact handle2_leaf_keys lib k1 k2 node t ht

/-- A run in which the signer refuses the key: the nonce callback throws and the
process ends with nothing written and no further call issued. -/
theorem run2_refused {K : Type} (lib : Lib K) (key : K) (node : Node2) (schedule : List Tag2)
    (hs : lib.sign (unsignedDigest lib (scriptRaw (nonceOf node.txCount))) key = none)
    (hmem : Tag2.txCount ∈ schedule) :
    (run2 lib key node schedule).trace =
      [.issue .txCount (.getTransactionCount account1), .done .txCount, .crash] := by
  have hh : handle2 lib key node .txCount = [.crash] := by
    rcases handle2_txCount_shape lib key node with ⟨_, hh⟩ | ⟨_, _, hh⟩ | ⟨sig, _, hs2, _, _⟩
    · exact hh
    · exact hh
    · rw [hs] at hs2
      exact Option.noConfusion hs2
  have key2 : ∀ (sched : List Tag2), Tag2.txCount ∈ sched →
      (exec (handle2 lib key node) (start main2) sched).trace =
        [.issue .txCount (.getTransactionCount account1), .done .txCount, .crash] := by
    intro sched
    induction sched with
    | nil => intro hm; exact absurd hm (List.not_mem_nil _)
    | cons t rest ih =>
      intro hm
      rw [exec_cons]
      by_cases ht : t = Tag2.txCount
      · subst ht
        rw [complete_of_mem _ _ _ start_main2_running
          (by rw [start_main2]; exact List.mem_singleton.mpr rfl), hh,
          exec_ended _ _ _ (by rfl)]
        rfl
      · rw [complete_of_not_mem _ _ _ (by
          rw [start_main2]
          exact fun hc => ht (List.mem_singleton.mp hc))]
        rcases List.mem_cons.mp hm with h1 | h1
        · exact absurd h1.symm ht
        · exact ih h1
  exact key2 schedule hmem

/-- C3 (the code at the failing input): when the nonce query fails with any message,
the callback does not look at the error: it builds a transaction with an empty nonce
and signs it, and when the signer accepts the key it issues the broadcast and both
balance queries (when the signer refuses the key the exception ends the process);
either way nothing is written to the console.  With Keccak-256, ECDSA and the key of
the script the broadcast and both balance queries are issued. -/
theorem C3_nonce_error_is_ignored {K : Type} (lib : Lib K) (key : K) (message : String)
    (send : Except String String) (balance1 balance2 : Except String JSVal) :
    run2 lib key
        { txCount := .error message, send := send, balance1 := balance1, balance2 := balance2 }
        [.txCount]
      = (match lib.sign (unsignedDigest lib (scriptRaw [])) key with
        | some sig =>
          { pending := [.send, .balance1, .balance2],
            trace :=
              [ .issue .txCount (.getTransactionCount account1),
                .done .txCount,
                .issue .send (.sendSignedTransaction (rawOf (rlpEncode (signedRaw sig [])))),
                .issue .balance1 (.getBalance account1),
                .issue .balance2 (.getBalance account2) ] }
        | none =>
          { pending := [],
            trace := [ .issue .txCount (.getTransactionCount account1), .done .txCount, .crash ] })
    ∧ linesOf (run2 lib key
        { txCount := .error message, send := send, balance1 := balance1, balance2 := balance2 }
        [.txCount]).trace = []
    ∧ ∃ raw, callsOf (run2 (ethLib (fun _ _ => 77)) privateKey1
        { txCount := .error message, send := send, balance1 := balance1, balance2 := balance2 }
        [.txCount]).trace
        = [.getTransactionCount account1, .sendSignedTransaction raw,
           .getBalance account1, .getBalance account2] := by
  have hrun : ∀ (L : Type) (lb : Lib L) (k : L), run2 lb k
        { txCount := .error message, send := send, balance1 := balance1, balance2 := balance2 }
        [.txCount]
      = (match lb.sign (unsignedDigest lb (scriptRaw [])) k with
        | some sig =>
          { pending := [.send, .balance1, .balance2],
            trace :=
              [ .issue .txCount (.getTransactionCount account1),
                .done .txCount,
                .issue .send (.sendSignedTransaction (rawOf (rlpEncode (signedRaw sig [])))),
                .issue .balance1 (.getBalance account1),
                .issue .balance2 (.getBalance account2) ] }
        | none =>
          { pending := [],
            trace := [ .issue .txCount (.getTransactionCount account1), .done .txCount, .crash ] }) := by
    intro L lb k
    unfold run2
    rw [exec_cons, exec_nil, complete_of_mem _ _ _ start_main2_running
      (by rw [start_main2]; exact List.mem_singleton.mpr rfl), start_main2]
    cases hs : lb.sign (unsignedDigest lb (scriptRaw [])) k with
    | some sig =>
      rw [handle2_txCount_ok lb k
        { txCount := .error message, send := send, balance1 := balance1, balance2 := balance2 }
        _ (signedTransaction_undefined lb k sig hs)]
      rfl
    | none =>
      rw [handle2_txCount_error lb k
        { txCount := .error message, send := send, balance1 := balance1, balance2 := balance2 }
        _ (signedTransaction_refused lb k _ [] Tx_new_undefined hs)]
      rfl
  refine ⟨hrun K lib key, ?_, ?_⟩
  · rw [hrun K lib key]
    cases lib.sign (unsignedDigest lib (scriptRaw [])) key <;> rfl
  · have hsome : ((ethLib (fun _ _ => 77)).sign
        (unsignedDigest (ethLib (fun _ _ => 77)) (scriptRaw [])) privateKey1).isSome = true := by
      decide!
    obtain ⟨sig, hsig⟩ := Option.isSome_iff_exists.mp hsome
    refine ⟨rawOf (rlpEncode (signedRaw sig [])), ?_⟩
    rw [hrun Bytes (ethLib (fun _ _ => 77)) privateKey1]
    simp only [hsig]
    rfl

/-- C9 as stated fails: two runs that differ only in the private key, with the same
answers of the node and the same schedule, do not write the same lines when the signer
refuses one of the keys (here the 32 zero bytes, which are not a scalar between 1 and
the group order): signing throws and the run ends before the line of the broadcast. -/
theorem C9_counterexample :
    linesOf (run2 (ethLib (fun _ _ => 77)) privateKey1
        (sampleNode (.ok 5) (.ok "0xabc")) [.txCount, .send]).trace
      ≠ linesOf (run2 (ethLib (fun _ _ => 77)) (List.replicate 32 0)
        (sampleNode (.ok 5) (.ok "0xabc")) [.txCount, .send]).trace := by
  decide!

/-- C9 (amended): the private key reaches nothing but the signer.  In every run every
network call is the nonce query or a balance query with a fixed address, or the
broadcast of the serialization of the fields built from the reply to the nonce query
with the signature stored in them; every console line is a fixed label followed by an
answer of the node; two keys for which the signer returns the same results give
identical runs, so the key enters a run only through the signer; for two keys that the
signer both accepts or both refuses, under the same answers of the node and the same
schedule, the console lines are identical; and when the signer refuses the key the
exception ends the run once the nonce query has completed, with no line written and no
further call issued. -/
theorem C9_key_reaches_only_the_signer {K : Type} (lib : Lib K) (k1 k2 : K) (node : Node2)
    (schedule : List Tag2) :
    (∀ c ∈ callsOf (run2 lib k1 node schedule).trace,
        c = .getTransactionCount account1 ∨ c = .getBalance account1
          ∨ c = .getBalance account2
          ∨ ∃ sig, lib.sign (unsignedDigest lib (scriptRaw (nonceOf node.txCount))) k1 = some sig
              ∧ c = .sendSignedTransaction
                  (rawOf (rlpEncode (signedRaw sig (nonceOf node.txCount)))))
    ∧ (∀ l ∈ linesOf (run2 lib k1 node schedule).trace,
        (∃ err, node.send = .error err ∧ l = [.str "err:", .error err])
        ∨ (∃ txHash, node.send = .ok txHash ∧ l = [.str "txHash:", .str txHash])
        ∨ (∃ text, lib.fromWei (resultOf node.balance1) = some text
            ∧ l = [.str "Account 1:", text])
        ∨ (∃ text, lib.fromWei (resultOf node.balance2) = some text
            ∧ l = [.str "Account 2:", text]))
    ∧ ((∀ digest, lib.sign digest k1 = lib.sign digest k2) →
        run2 lib k1 node schedule = run2 lib k2 node schedule)
    ∧ ((lib.sign (unsignedDigest lib (scriptRaw (nonceOf node.txCount))) k1).isSome
          = (lib.sign (unsignedDigest lib (scriptRaw (nonceOf node.txCount))) k2).isSome →
        linesOf (run2 lib k1 node schedule).trace = linesOf (run2 lib k2 node schedule).trace)
    ∧ (lib.sign (unsignedDigest lib (scriptRaw (nonceOf node.txCount))) k1 = none →
        Tag2.txCount ∈ schedule →
        (run2 lib k1 node schedule).trace =
          [.issue .txCount (.getTransactionCount account1), .done .txCount, .crash]) := by
  refine ⟨?_, ?_, ?_, ?_, ?_⟩
  · exact fun c hc => run2_calls lib k1 node schedule c hc
  · exact fun l hl => run2_lines lib k1 node schedule l hl
  · intro h
    unfold run2
    rw [handle2_key_irrelevant lib k1 k2 node h]
  · intro h
    exact (exec_sim (handle2 lib k1 node) (handle2 lib k2 node) lineOf
      (fun t => (handle2_keys lib k1 k2 node h t).1)
      (fun t => (handle2_keys lib k1 k2 node h t).2.1)
      (fun t => (handle2_keys lib k1 k2 node h t).2.2) (fun _ => rfl)
      schedule (start main2) (start main2) rfl rfl rfl).2
  · exact fun hs hmem => run2_refused lib k1 node schedule hs hmem

theorem C9_key_reaches_only_the_signer_witness :
    linesOf (run2 (ethLib (fun _ _ => 77)) privateKey1 (sampleNode (.ok 5) (.ok "0xabc"))
        [.txCount, .send, .balance1, .balance2]).trace
      = linesOf (run2 (ethLib (fun _ _ => 77)) (List.replicate 31 0 ++ [1])
        (sampleNode (.ok 5) (.ok "0xabc")) [.txCount, .send, .balance1, .balance2]).trace :=
  (C9_key_reaches_only_the_signer (ethLib (fun _ _ => 77)) privateKey1
    (List.replicate 31 0 ++ [1]) (sampleNode (.ok 5) (.ok "0xabc"))
    [.txCount, .send, .balance1, .balance2]).2.2.2.1 (by decide!)


/-! ## Outstanding calls -/

theorem outstandingAfter_append {τ : Type} (a b : List (Event τ)) :
    ∀ c : Nat, outstandingAfter c (a ++ b) = outstandingAfter (outstandingAfter c a) b := by
  induction a with
  | nil => intro c; rfl
  | cons e a ih =>
    intro c
    cases e <;> exact ih _

theorem peakFrom_append {τ : Type} (a b : List (Event τ)) :
    ∀ c : Nat, peakFrom c (a ++ b) = max (peakFrom c a) (peakFrom (outstandingAfter c a) b) := by
  induction a with
  | nil =>
    intro c
    have hle : ∀ (l : List (Event τ)) (c : Nat), c ≤ peakFrom c l := by
      intro l c
      cases l with
      | nil => exact le_refl _
      | cons e l => cases e <;> exact le_max_left _ _
    simp only [List.nil_append, peakFrom, outstandingAfter]
    exact (max_eq_right (hle b c)).symm
  | cons e a ih =>
    intro c
    cases e with
    | issue t call =>
      show max c (peakFrom (c + 1) (a ++ b)) = _
      rw [ih]
      exact (max_assoc _ _ _).symm
    | done t =>
      show max c (peakFrom (c - 1) (a ++ b)) = _
      rw [ih]
      exact (max_assoc _ _ _).symm
    | log args =>
      show max c (peakFrom c (a ++ b)) = _
      rw [ih]
      exact (max_assoc _ _ _).symm
    | crash =>
      show max c (peakFrom c (a ++ b)) = _
      rw [ih]
      exact (max_assoc _ _ _).symm

theorem no_done_counts {τ : Type} (evs : List (Event τ)) (h : ∀ t, Event.done t ∉ evs) :
    ∀ c : Nat, outstandingAfter c evs = c + (issued evs).length
      ∧ peakFrom c evs = c + (issued evs).length := by
  induction evs with
  | nil => intro c; exact ⟨rfl, rfl⟩
  | cons e evs ih =>
    have h' : ∀ t, Event.done t ∉ evs := fun t ht => h t (List.mem_cons_of_mem _ ht)
    intro c
    cases e with
    | issue t call =>
      obtain ⟨i1, i2⟩ := ih h' (c + 1)
      have hi : issued (Event.issue t call :: evs) = t :: issued evs := rfl
      refine ⟨?_, ?_⟩
      · show outstandingAfter (c + 1) evs = _
        rw [hi, i1, List.length_cons]; omega
      · show max c (peakFrom (c + 1) evs) = _
        rw [hi, i2, List.length_cons, max_eq_right (by omega)]; omega
    | done t => exact absurd (List.mem_cons_self _ _) (h t)
    | log args =>
      obtain ⟨i1, i2⟩ := ih h' c
      have hi : issued (Event.log args :: evs) = issued evs := rfl
      refine ⟨?_, ?_⟩
      · rw [hi]; exact i1
      · show max c (peakFrom c evs) = _
        rw [hi, i2]
        exact max_eq_right (by omega)
    | crash =>
      obtain ⟨i1, i2⟩ := ih h' c
      have hi : issued (Event.crash :: evs) = issued evs := rfl
      refine ⟨?_, ?_⟩
      · rw [hi]; exact i1
      · show max c (peakFrom c evs) = _
        rw [hi, i2]
        exact max_eq_right (by omega)

/-- Completing an outstanding call of a running process when the numbers of the trace agree with the
outstanding calls: the numbers of the new trace. -/
theorem complete_counts {τ : Type} [DecidableEq τ] (h : τ → List (Event τ)) (s : State τ)
    (t : τ) (he : s.ended = false) (ht : t ∈ s.pending) (hno : ∀ u, Event.done u ∉ h t)
    (hout : outstandingAfter 0 s.trace = s.pending.length) :
    outstandingAfter 0 (complete h s t).trace = (complete h s t).pending.length
    ∧ (complete h s t).pending.length = s.pending.length - 1 + (issued (h t)).length
    ∧ peak (complete h s t).trace
        = max (peak s.trace) (max s.pending.length (s.pending.length - 1 + (issued (h t)).length)) := by
  rw [complete_of_mem h s t he ht]
  have hlen : (s.pending.erase t).length = s.pending.length - 1 := List.length_erase_of_mem ht
  obtain ⟨c1, c2⟩ := no_done_counts (h t) hno (s.pending.length - 1)
  refine ⟨?_, ?_, ?_⟩
  · simp only [outstandingAfter_append, hout, outstandingAfter, c1, List.length_append, hlen]
  · simp only [List.length_append, hlen]
  · simp only [peak, peakFrom_append, hout, peakFrom, c2]


/-! ## Runs of the contract reader -/

theorem logs_only {τ : Type} (evs : List (Event τ))
    (h : ∀ e ∈ evs, (∃ a, e = Event.log a) ∨ e = Event.crash) :
    issued evs = [] ∧ ∀ u, Event.done u ∉ evs := by
  induction evs with
  | nil => exact ⟨rfl, fun _ => List.not_mem_nil _⟩
  | cons e evs ih =>
    obtain ⟨i1, i2⟩ := ih (fun e he => h e (List.mem_cons_of_mem _ he))
    rcases h e (List.mem_cons_self _ _) with ⟨a, ha⟩ | ha
    · subst ha
      refine ⟨i1, ?_⟩
      intro u hu
      rcases List.mem_cons.mp hu with h1 | h1
      · exact Event.noConfusion h1
      · exact i2 u h1
    · subst ha
      refine ⟨i1, ?_⟩
      intro u hu
      rcases List.mem_cons.mp hu with h1 | h1
      · exact Event.noConfusion h1
      · exact i2 u h1

theorem callback1_logs {K : Type} (lib : Lib K) (cfg : Config)
    (node : Nat → Except String JSVal) (k : Nat) :
    ∀ e ∈ callback1 lib cfg node k, (∃ a, e = Event.log a) ∨ e = Event.crash := by
  intro e he
  unfold callback1 at he
  simp only at he
  split at he <;> first
    | exact Or.inl ⟨_, List.mem_singleton.mp he⟩
    | exact absurd he (List.not_mem_nil _)
    | (split at he
       · exact Or.inl ⟨_, List.mem_singleton.mp he⟩
       · exact Or.inr (List.mem_singleton.mp he))

theorem between1_logs (k : Nat) :
    ∀ e ∈ between1 k, (∃ a, e = Event.log (τ := Nat) a) ∨ e = Event.crash := by
  intro e he
  unfold between1 at he
  split at he
  · rcases List.mem_cons.mp he with h | h
    · exact Or.inl ⟨_, h⟩
    · exact Or.inl ⟨_, List.mem_singleton.mp h⟩
  · exact absurd he (List.not_mem_nil _)

theorem handle1_shape {K : Type} (lib : Lib K) (cfg : Config)
    (node : Nat → Except String JSVal) (k : Nat) :
    (∀ u, Event.done u ∉ handle1 lib cfg node k)
    ∧ (issued (handle1 lib cfg node k)).length ≤ 1 := by
  obtain ⟨c1, c2⟩ := logs_only _ (callback1_logs lib cfg node k)
  obtain ⟨b1, b2⟩ := logs_only _ (between1_logs k)
  unfold handle1
  split
  · exact ⟨c2, by rw [c1]; exact Nat.zero_le _⟩
  · cases node k with
    | error e =>
      refine ⟨?_, ?_⟩
      · intro u hu
        rcases List.mem_append.mp hu with h | h
        · exact c2 u h
        · exact absurd h (List.not_mem_nil _)
      · rw [issued_append, c1]
        exact Nat.zero_le _
    | ok v =>
      cases call1 cfg node (k + 1) with
      | none =>
        refine ⟨?_, ?_⟩
        · intro u hu
          rcases List.mem_append.mp hu with h | h
          · exact c2 u h
          · rcases List.mem_append.mp h with h | h
            · exact b2 u h
            · exact absurd h (List.not_mem_nil _)
        · rw [issued_append, issued_append, c1, b1]
          exact Nat.zero_le _
      | some c =>
        refine ⟨?_, ?_⟩
        · intro u hu
          rcases List.mem_append.mp hu with h | h
          · exact c2 u h
          · rcases List.mem_append.mp h with h | h
            · exact b2 u h
            · exact Event.noConfusion (List.mem_singleton.mp h)
        · rw [issued_append, issued_append, c1, b1]
          exact le_refl _

theorem start_main1 (cfg : Config) (node : Nat → Except String JSVal) :
    (start (main1 cfg node)).pending = [0]
    ∧ outstandingAfter 0 (start (main1 cfg node)).trace = 1
    ∧ peak (start (main1 cfg node)).trace = 1 :=
  ⟨rfl, rfl, rfl⟩

/-- In every run of the contract reader at most one call is outstanding at any
point. -/
theorem run1_sequential {K : Type} (lib : Lib K) (cfg : Config)
    (node : Nat → Except String JSVal) (schedule : List Nat) :
    peak (run1 lib cfg node schedule).trace ≤ 1 := by
  have inv := exec_invariant (handle1 lib cfg node)
    (fun s => outstandingAfter 0 s.trace = s.pending.length ∧ s.pending.length ≤ 1
      ∧ peak s.trace ≤ 1)
    (by
      intro s t ⟨h1, h2, h3⟩ he ht
      obtain ⟨n1, n2⟩ := handle1_shape lib cfg node t
      obtain ⟨c1, c2, c3⟩ := complete_counts (handle1 lib cfg node) s t he ht n1 h1
      have hpos : 0 < s.pending.length := List.length_pos_of_mem ht
      refine ⟨c1, by omega, ?_⟩
      rw [c3]
      exact max_le h3 (max_le h2 (by omega)))
    schedule (start (main1 cfg node))
    (by
      obtain ⟨p1, p2, p3⟩ := start_main1 cfg node
      exact ⟨by rw [p2, p1]; rfl, by rw [p1]; exact le_refl _, by rw [p3]⟩)
  exact inv.2.2


theorem no_done_handle2_all {K : Type} (lib : Lib K) (key : K) (node : Node2) (t : Tag2) :
    ∀ u, Event.done u ∉ handle2 lib key node t :=
  fun u => no_done_handle2 lib key node u t

/-- In every run of the transaction script the nonce query is issued first and
completes before anything else happens, and at most three calls are outstanding. -/
theorem run2_outstanding {K : Type} (lib : Lib K) (key : K) (node : Node2)
    (schedule : List Tag2) :
    peak (run2 lib key node schedule).trace ≤ 3
    ∧ ((run2 lib key node schedule).trace = main2
      ∨ ∃ rest, (run2 lib key node schedule).trace = main2 ++ Event.done Tag2.txCount :: rest) := by
  have inv := exec_invariant (handle2 lib key node)
    (fun s => outstandingAfter 0 s.trace = s.pending.length ∧ s.pending.length ≤ 3
      ∧ peak s.trace ≤ 3
      ∧ ((s.pending = [Tag2.txCount] ∧ s.trace = main2)
        ∨ (Tag2.txCount ∉ s.pending
          ∧ ∃ rest, s.trace = main2 ++ Event.done Tag2.txCount :: rest)))
    (by
      intro s t ⟨h1, h2, h3, h4⟩ he ht
      obtain ⟨c1, c2, c3⟩ := complete_counts (handle2 lib key node) s t he ht
        (no_done_handle2_all lib key node t) h1
      rcases h4 with ⟨hp, htr⟩ | ⟨hp, rest, htr⟩
      · have htt : t = Tag2.txCount := by
          rw [hp] at ht
          exact List.mem_singleton.mp ht
        subst htt
        have hlen : (issued (handle2 lib key node Tag2.txCount)).length ≤ 3 := by
          rcases issued_handle2_txCount lib key node with h | h <;> rw [h] <;> decide
        have hpl : s.pending.length = 1 := by rw [hp]; rfl
        refine ⟨c1, by omega, ?_, Or.inr ⟨?_, ?_⟩⟩
        · rw [c3]
          exact max_le h3 (max_le h2 (by omega))
        · rw [complete_of_mem _ _ _ he ht, hp]
          intro hm
          rcases List.mem_append.mp hm with h | h
          · exact absurd h (by decide)
          · exact txCount_not_issued lib key node _ h
        · rw [complete_of_mem _ _ _ he ht, htr]
          exact ⟨_, rfl⟩
      · have hne : t ≠ Tag2.txCount := fun e => hp (e ▸ ht)
        have hiss := issued_handle2_leaf lib key node t hne
        rw [hiss] at c2 c3
        simp only [List.length_nil, Nat.add_zero] at c2 c3
        refine ⟨c1, by omega, ?_, Or.inr ⟨?_, ?_⟩⟩
        · rw [c3]
          exact max_le h3 (max_le h2 (by omega))
        · rw [complete_of_mem _ _ _ he ht, hiss, List.append_nil]
          exact fun hm => hp (List.mem_of_mem_erase hm)
        · rw [complete_of_mem _ _ _ he ht, htr]
          exact ⟨rest ++ Event.done t :: handle2 lib key node t, by simp⟩)
    schedule (start main2)
    (by
      rw [start_main2]
      exact ⟨rfl, by decide, by decide, Or.inl ⟨rfl, rfl⟩⟩)
  obtain ⟨_, _, i3, i4⟩ := inv
  refine ⟨i3, ?_⟩
  rcases i4 with ⟨_, h⟩ | ⟨_, h⟩
  · exact Or.inl h
  · exact Or.inr h

/-- C8 as stated fails: in the transaction script, once the nonce query has completed,
three calls are outstanding at once. -/
theorem C8_counterexample :
    ¬ peak (run2 sampleLib privateKey1 (sampleNode (.ok 5) (.ok "0xabc")) [.txCount]).trace ≤ 1 := by
  decide

/-- C8 (amended): in every run of the contract reader at most one network call is
outstanding at any point; in every run of the transaction script the nonce query is
the first event and it completes before any other call is issued, and at most three
calls (the broadcast and the two balance queries) are outstanding together. -/
theorem C8_sequencing_of_calls {K : Type} (lib : Lib K) (key : K) (cfg : Config)
    (node1 : Nat → Except String JSVal) (schedule1 : List Nat)
    (node2 : Node2) (schedule2 : List Tag2) :
    peak (run1 lib cfg node1 schedule1).trace ≤ 1
    ∧ peak (run2 lib key node2 schedule2).trace ≤ 3
    ∧ ((run2 lib key node2 schedule2).trace = [.issue .txCount (.getTransactionCount account1)]
      ∨ ∃ rest, (run2 lib key node2 schedule2).trace
          = .issue .txCount (.getTransactionCount account1) :: .done .txCount :: rest) := by
  obtain ⟨h1, h2⟩ := run2_outstanding lib key node2 schedule2
  exact ⟨run1_sequential lib cfg node1 schedule1, h1, h2⟩


/-! ## Lengths in the canonical encoding -/

theorem digitsBE_head (base : Nat) (hb : 2 ≤ base) (fuel : Nat) :
    ∀ n : Nat, n ≤ fuel → n ≠ 0 →
      ∃ d ds, digitsBE base fuel n = d :: ds ∧ d ≠ 0 := by
  induction fuel with
  | zero => intro n hf h0; omega
  | succ fuel ih =>
    intro n hf h0
    unfold digitsBE
    rw [if_neg h0]
    by_cases hq : n / base = 0
    · have hlt : n < base := by
        exact (Nat.div_eq_zero_iff (by omega)).mp hq
      have hd : digitsBE base fuel (n / base) = [] := by
        rw [hq]
        cases fuel <;> simp [digitsBE]
      rw [hd, Nat.mod_eq_of_lt hlt]
      exact ⟨n, [], rfl, h0⟩
    · have hlt : n / base < n := Nat.div_lt_self (by omega) (by omega)
      obtain ⟨d, ds, hds, hd0⟩ := ih (n / base) (by omega) hq
      rw [hds]
      exact ⟨d, ds ++ [n % base], rfl, hd0⟩

theorem head_intToBuffer (n : Nat) (h0 : n ≠ 0) : (intToBuffer n).head? ≠ some 0 := by
  obtain ⟨d, ds, hds, hd0⟩ := digitsBE_head 16 (by decide) n n (le_refl _) h0
  have hlt := digitsBE_lt 16 n n (by decide)
  rw [hds] at hlt
  have hd : d < 16 := hlt d (List.mem_cons_self _ _)
  unfold intToBuffer bnToString
  rw [if_neg h0, hds]
  unfold padToEven
  have h00 : hexVal '0' = some 0 := by decide
  by_cases hpar : (List.map hexDigit (d :: ds)).length % 2 = 1
  · -- a zero digit is put in front
    rw [if_pos hpar]
    simp only [List.map_cons, fromHex, h00, hexVal_hexDigit d hd, List.head?_cons]
    intro h
    have h2 := congrArg Fin.val (Option.some.inj h)
    simp only [Fin.ofNat, Fin.val_mk, Fin.val_zero] at h2
    omega
  · rw [if_neg hpar]
    match ds, hlt, hpar with
    | [], _, hpar => exact absurd rfl hpar
    | d2 :: rest, hlt, _ =>
      have hd2 : d2 < 16 := hlt d2 (by simp)
      simp only [List.map_cons, fromHex, hexVal_hexDigit d hd, hexVal_hexDigit d2 hd2,
        List.head?_cons]
      intro h
      have h2 := congrArg Fin.val (Option.some.inj h)
      simp only [Fin.ofNat, Fin.val_mk, Fin.val_zero] at h2
      omega

theorem length_intToBuffer_le (n k : Nat) (h0 : n ≠ 0) (hn : n < 256 ^ k) :
    (intToBuffer n).length ≤ k := by
  rw [length_le_iff_lt _ (head_intToBuffer n h0), bytesToNat_intToBuffer]
  exact hn

theorem intToBuffer_ne_nil (n : Nat) (h0 : n ≠ 0) : intToBuffer n ≠ [] := by
  intro h
  have := bytesToNat_intToBuffer n
  rw [h] at this
  exact h0 this.symm

theorem intToBuffer_byte (n : Nat) (h0 : n ≠ 0) (hn : n < 256) :
    intToBuffer n = [Fin.ofNat n] := by
  have hlen := length_intToBuffer_le n 1 h0 (by simpa using hn)
  have hval := bytesToNat_intToBuffer n
  match hb : intToBuffer n with
  | [] => exact absurd hb (intToBuffer_ne_nil n h0)
  | [b] =>
    rw [hb, bytesToNat_cons] at hval
    simp only [List.length_nil, pow_zero, mul_one, bytesToNat_nil, add_zero] at hval
    congr 1
    apply Fin.ext
    simp only [Fin.ofNat, Fin.val_mk]
    omega
  | _ :: _ :: _ =>
    rw [hb] at hlen
    simp at hlen

theorem safeParseInt_intToBuffer (n : Nat) (h0 : n ≠ 0) :
    safeParseInt (intToBuffer n) = some n := by
  have hh := head_intToBuffer n h0
  have hv := bytesToNat_intToBuffer n
  match hb : intToBuffer n with
  | [] => exact absurd hb (intToBuffer_ne_nil n h0)
  | b :: bs =>
    rw [hb] at hh hv
    unfold safeParseInt
    have hb0 : b.val ≠ 0 := by
      intro h
      apply hh
      simp only [List.head?_cons]
      congr 1
      exact Fin.ext h
    simp only [hb0, if_false, hv]


/-! ## One item of the canonical encoding -/

theorem slice_mid (p d rest : Bytes) :
    slice (p ++ (d ++ rest)) p.length (d.length + p.length) = d := by
  unfold slice
  rw [← List.append_assoc, List.take_append_eq_append_take]
  have h1 : (p ++ d).length = d.length + p.length := by
    rw [List.length_append]; omega
  rw [List.take_of_length_le (by omega), h1, Nat.sub_self, List.take_zero, List.append_nil,
    List.drop_append_eq_append_drop, List.drop_of_length_le (le_refl _), Nat.sub_self,
    List.drop_zero, List.nil_append]

theorem drop_mid (p d rest : Bytes) :
    (p ++ (d ++ rest)).drop (d.length + p.length) = rest := by
  rw [← List.append_assoc, List.drop_append_eq_append_drop]
  have h1 : (p ++ d).length = d.length + p.length := by
    rw [List.length_append]; omega
  rw [List.drop_of_length_le (by omega), h1, Nat.sub_self, List.drop_zero, List.nil_append]

theorem encodeItem_of_length_ne_one (d : Bytes) (h : d.length ≠ 1) :
    encodeItem d = encodeLength d.length 128 ++ d := by
  match d, h with
  | [], _ => rfl
  | [_], h => exact absurd rfl h
  | _ :: _ :: _, _ => rfl

theorem encodeLength_short (len offset : Nat) (h : len < 56) :
    encodeLength len offset = [Fin.ofNat (len + offset)] := by
  unfold encodeLength
  rw [if_pos h]

theorem encodeLength_long (len offset : Nat) (h56 : 56 ≤ len) (h64 : len < 2 ^ 64)
    (hoff : offset ≤ 192) :
    1 ≤ (intToBuffer len).length ∧ (intToBuffer len).length ≤ 8
    ∧ encodeLength len offset
        = Fin.ofNat (offset + 55 + (intToBuffer len).length) :: intToBuffer len
    ∧ safeParseInt (intToBuffer len) = some len := by
  have h0 : len ≠ 0 := by omega
  have hle : (intToBuffer len).length ≤ 8 :=
    length_intToBuffer_le len 8 h0 (by norm_num at h64 ⊢; exact h64)
  have hge : 1 ≤ (intToBuffer len).length :=
    List.length_pos.mpr (intToBuffer_ne_nil len h0)
  refine ⟨hge, hle, ?_, safeParseInt_intToBuffer len h0⟩
  unfold encodeLength
  rw [if_neg (by omega)]
  simp only
  rw [intToBuffer_byte _ (by omega) (by omega)]
  rfl

theorem val_ofNat_byte (n : Nat) (h : n < 256) : (Fin.ofNat n : Byte).val = n := by
  simp only [Fin.ofNat, Fin.val_mk]
  omega

set_option maxRecDepth 4000 in
theorem decodeItem_cons (first : Byte) (tail : Bytes) :
    decodeItem (first :: tail) =
      if first.val ≤ 0x7f then some (slice (first :: tail) 0 1, (first :: tail).drop 1)
      else if first.val ≤ 0xb7 then
        if first.val - 0x7f = 2 ∧
            ((if first.val = 0x80 then ([] : Bytes)
              else slice (first :: tail) 1 (first.val - 0x7f)).head?.map
                fun d => decide (d.val < 0x80)) = some true then none
        else some (if first.val = 0x80 then [] else slice (first :: tail) 1 (first.val - 0x7f),
          (first :: tail).drop (first.val - 0x7f))
      else if first.val ≤ 0xbf then
        match safeParseInt (slice (first :: tail) 1 (first.val - 0xb6)) with
        | none => none
        | some length =>
          if (slice (first :: tail) (first.val - 0xb6) (length + (first.val - 0xb6))).length
              < length then none
          else some (slice (first :: tail) (first.val - 0xb6) (length + (first.val - 0xb6)),
            (first :: tail).drop (length + (first.val - 0xb6)))
      else none := rfl

theorem decodeItem_encodeItem (d rest : Bytes) (h64 : d.length < 2 ^ 64) :
    decodeItem (encodeItem d ++ rest) = some (d, rest) := by
  by_cases h1 : d.length = 1
  · -- a single byte
    match d, h1 with
    | [b], _ =>
      by_cases hb : b.val < 128
      · have he : encodeItem [b] = [b] := by simp [encodeItem, hb]
        rw [he]
        show decodeItem (b :: rest) = _
        rw [decodeItem_cons, if_pos (by omega)]
        rfl
      · have he : encodeItem [b] = [Fin.ofNat 129, b] := by
          simp only [encodeItem, hb, if_false, encodeLength_short 1 128 (by decide)]
          rfl
        rw [he]
        show decodeItem (Fin.ofNat 129 :: b :: rest) = _
        rw [decodeItem_cons]
        have hv : (Fin.ofNat 129 : Byte).val = 129 := rfl
        rw [hv]
        have hs : slice (Fin.ofNat 129 :: b :: rest) 1 (129 - 0x7f) = [b] := rfl
        rw [hs, if_neg (by decide), if_pos (by decide)]
        simp only [show ¬ ((129 : Nat) = 0x80) by decide, if_false]
        rw [if_neg]
        · rfl
        · intro hc
          have := hc.2
          simp only [List.head?_cons, Option.map_some', Option.some.injEq,
            decide_eq_true_eq] at this
          exact hb this
  · rw [encodeItem_of_length_ne_one d h1]
    by_cases h56 : d.length < 56
    · rw [encodeLength_short _ _ h56]
      show decodeItem (Fin.ofNat (d.length + 128) :: (d ++ rest)) = _
      have hv : (Fin.ofNat (d.length + 128) : Byte).val = d.length + 128 :=
        val_ofNat_byte _ (by omega)
      rw [decodeItem_cons, hv, if_neg (by omega), if_pos (by omega)]
      have hl : d.length + 128 - 0x7f = d.length + 1 := by omega
      rw [hl]
      have hdata : (if d.length + 128 = 0x80 then ([] : Bytes)
          else slice (Fin.ofNat (d.length + 128) :: (d ++ rest)) 1 (d.length + 1)) = d := by
        by_cases hz : d.length = 0
        · rw [if_pos (by omega)]
          exact (List.length_eq_zero.mp hz).symm
        · rw [if_neg (by omega)]
          exact slice_mid [Fin.ofNat (d.length + 128)] d rest
      rw [hdata, if_neg (by omega)]
      have hdrop := drop_mid [Fin.ofNat (d.length + 128)] d rest
      simp only [List.singleton_append, List.length_singleton] at hdrop
      rw [hdrop]
    · obtain ⟨hge, hle, henc, hparse⟩ := encodeLength_long d.length 128 (by omega) h64 (by decide)
      rw [henc]
      show decodeItem (Fin.ofNat (128 + 55 + (intToBuffer d.length).length)
        :: (intToBuffer d.length ++ d ++ rest)) = _
      have hv : (Fin.ofNat (128 + 55 + (intToBuffer d.length).length) : Byte).val
          = 183 + (intToBuffer d.length).length := by
        rw [val_ofNat_byte _ (by omega)]
      rw [decodeItem_cons, hv, if_neg (by omega), if_neg (by omega), if_pos (by omega)]
      have hl : 183 + (intToBuffer d.length).length - 0xb6 = (intToBuffer d.length).length + 1 := by
        omega
      rw [hl]
      have hs1 : slice (Fin.ofNat (128 + 55 + (intToBuffer d.length).length)
          :: (intToBuffer d.length ++ d ++ rest)) 1 ((intToBuffer d.length).length + 1)
          = intToBuffer d.length := by
        have := slice_mid [Fin.ofNat (128 + 55 + (intToBuffer d.length).length)]
          (intToBuffer d.length) (d ++ rest)
        simpa using this
      rw [hs1, hparse]
      simp only
      have hs2 : slice (Fin.ofNat (128 + 55 + (intToBuffer d.length).length)
          :: (intToBuffer d.length ++ d ++ rest)) ((intToBuffer d.length).length + 1)
            (d.length + ((intToBuffer d.length).length + 1)) = d := by
        have := slice_mid (Fin.ofNat (128 + 55 + (intToBuffer d.length).length)
          :: intToBuffer d.length) d rest
        simpa using this
      rw [hs2, if_neg (by omega)]
      have hd2 := drop_mid (Fin.ofNat (128 + 55 + (intToBuffer d.length).length)
          :: intToBuffer d.length) d rest
      simp only [List.cons_append, List.length_cons] at hd2
      simp only [List.append_assoc]
      rw [hd2]


/-! ## Lists of items -/

theorem encodeLength_ne_nil (len offset : Nat) : encodeLength len offset ≠ [] := by
  unfold encodeLength
  split
  · exact List.cons_ne_nil _ _
  · intro h
    have := congrArg List.length h
    simp only [List.length_append, List.length_nil] at this
    have h0 : 55 ≤ offset + 55 + (intToBuffer len).length := by omega
    have := intToBuffer_ne_nil (offset + 55 + (intToBuffer len).length) (by omega)
    have h1 : (intToBuffer (offset + 55 + (intToBuffer len).length)).length = 0 := by omega
    exact this (List.length_eq_zero.mp h1)

theorem encodeItem_ne_nil (d : Bytes) : encodeItem d ≠ [] := by
  by_cases h1 : d.length = 1
  · match d, h1 with
    | [b], _ =>
      unfold encodeItem
      simp only
      split
      · exact List.cons_ne_nil _ _
      · intro h
        have := congrArg List.length h
        simp at this
  · rw [encodeItem_of_length_ne_one d h1]
    intro h
    exact encodeLength_ne_nil _ _ (List.append_eq_nil.mp h).1

theorem decodeItems_nil (fuel : Nat) : decodeItems fuel [] = some [] := by
  cases fuel <;> rfl

theorem decodeItems_succ (fuel : Nat) (b : Byte) (bs : Bytes) :
    decodeItems (fuel + 1) (b :: bs) =
      match decodeItem (b :: bs) with
      | none => none
      | some (d, rest) =>
        match decodeItems fuel rest with
        | none => none
        | some ds => some (d :: ds) := rfl

theorem decodeItems_encode (items : List Bytes) :
    (∀ d ∈ items, d.length < 2 ^ 64) → ∀ fuel : Nat,
      ((items.map encodeItem).flatten).length ≤ fuel →
      decodeItems fuel (items.map encodeItem).flatten = some items := by
  induction items with
  | nil => intro _ fuel _; exact decodeItems_nil fuel
  | cons d ds ih =>
    intro hlen fuel hfuel
    have hd : d.length < 2 ^ 64 := hlen d (List.mem_cons_self _ _)
    have hds : ∀ x ∈ ds, x.length < 2 ^ 64 := fun x hx => hlen x (List.mem_cons_of_mem _ hx)
    simp only [List.map_cons, List.flatten_cons, List.length_append] at hfuel ⊢
    have hdec := decodeItem_encodeItem d (ds.map encodeItem).flatten hd
    match he : encodeItem d, hfuel, hdec with
    | [], _, _ => exact absurd he (encodeItem_ne_nil d)
    | b :: bs, hfuel, hdec =>
      match fuel, hfuel with
      | 0, hfuel => simp at hfuel
      | fuel + 1, hfuel =>
        rw [List.cons_append, decodeItems_succ]
        rw [List.cons_append] at hdec
        rw [hdec]
        simp only
        rw [ih hds fuel (by simp only [List.length_cons] at hfuel; omega)]

theorem length_encodeItem_le (d : Bytes) (h64 : d.length < 2 ^ 64) :
    (encodeItem d).length ≤ d.length + 9 := by
  by_cases h1 : d.length = 1
  · match d, h1 with
    | [b], _ =>
      unfold encodeItem
      simp only
      split
      · simp
      · rw [encodeLength_short 1 128 (by decide)]; simp
  · rw [encodeItem_of_length_ne_one d h1, List.length_append]
    by_cases h56 : d.length < 56
    · rw [encodeLength_short _ _ h56]; simp; omega
    · obtain ⟨_, hle, henc, _⟩ := encodeLength_long d.length 128 (by omega) h64 (by decide)
      rw [henc, List.length_cons]
      omega

set_option maxRecDepth 4000 in
theorem rlpDecode_cons (first : Byte) (tail : Bytes) :
    rlpDecode (first :: tail) =
      if first.val ≤ 0xbf then none
      else if first.val ≤ 0xf7 then
        if first.val - 0xbf < (first :: tail).length then none
        else decodeItems (first :: tail).length (slice (first :: tail) 1 (first.val - 0xbf))
      else
        match safeParseInt (slice (first :: tail) 1 (first.val - 0xf6)) with
        | none => none
        | some length =>
          if (first :: tail).length < first.val - 0xf6 + length then none
          else if (slice (first :: tail) (first.val - 0xf6) (first.val - 0xf6 + length)).length = 0
            then none
          else if first.val - 0xf6 + length < (first :: tail).length then none
          else decodeItems (first :: tail).length
            (slice (first :: tail) (first.val - 0xf6) (first.val - 0xf6 + length)) := rfl

/-- Decoding an encoded list of byte strings gives the list back. -/
theorem rlpDecode_rlpEncode (items : List Bytes) (hlen : ∀ d ∈ items, d.length < 2 ^ 64)
    (htotal : ((items.map encodeItem).flatten).length < 2 ^ 64) :
    rlpDecode (rlpEncode items) = some items := by
  unfold rlpEncode
  simp only
  generalize hP : (items.map encodeItem).flatten = P at htotal
  have hdec : ∀ fuel, P.length ≤ fuel → decodeItems fuel P = some items := by
    intro fuel hf
    rw [← hP]
    exact decodeItems_encode items hlen fuel (by rw [hP]; exact hf)
  by_cases h56 : P.length < 56
  · rw [encodeLength_short _ _ h56]
    show rlpDecode (Fin.ofNat (P.length + 192) :: P) = _
    have hv : (Fin.ofNat (P.length + 192) : Byte).val = P.length + 192 :=
      val_ofNat_byte _ (by omega)
    rw [rlpDecode_cons, hv, if_neg (by omega), if_pos (by omega)]
    have hl : P.length + 192 - 0xbf = P.length + 1 := by omega
    rw [hl, if_neg (by simp)]
    have hs := slice_mid [Fin.ofNat (P.length + 192)] P []
    simp only [List.append_nil, List.singleton_append, List.length_singleton] at hs
    rw [hs]
    exact hdec _ (by simp)
  · obtain ⟨hge, hle, henc, hparse⟩ := encodeLength_long P.length 192 (by omega) htotal (by decide)
    rw [henc]
    show rlpDecode (Fin.ofNat (192 + 55 + (intToBuffer P.length).length)
      :: (intToBuffer P.length ++ P)) = _
    have hv : (Fin.ofNat (192 + 55 + (intToBuffer P.length).length) : Byte).val
        = 247 + (intToBuffer P.length).length := by
      rw [val_ofNat_byte _ (by omega)]
    rw [rlpDecode_cons, hv, if_neg (by omega), if_neg (by omega)]
    have hl : 247 + (intToBuffer P.length).length - 0xf6 = (intToBuffer P.length).length + 1 := by
      omega
    rw [hl]
    have hs1 : slice (Fin.ofNat (192 + 55 + (intToBuffer P.length).length)
        :: (intToBuffer P.length ++ P)) 1 ((intToBuffer P.length).length + 1)
        = intToBuffer P.length := by
      have := slice_mid [Fin.ofNat (192 + 55 + (intToBuffer P.length).length)]
        (intToBuffer P.length) P
      simpa using this
    rw [hs1, hparse]
    simp only
    have hs2 : slice (Fin.ofNat (192 + 55 + (intToBuffer P.length).length)
        :: (intToBuffer P.length ++ P)) ((intToBuffer P.length).length + 1)
          ((intToBuffer P.length).length + 1 + P.length) = P := by
      have := slice_mid (Fin.ofNat (192 + 55 + (intToBuffer P.length).length)
        :: intToBuffer P.length) P []
      simp only [List.append_nil, List.length_cons, List.cons_append] at this
      rw [Nat.add_comm ((intToBuffer P.length).length + 1) P.length]
      exact this
    rw [hs2]
    have hlen2 : (Fin.ofNat (192 + 55 + (intToBuffer P.length).length)
        :: (intToBuffer P.length ++ P)).length = (intToBuffer P.length).length + 1 + P.length := by
      simp only [List.length_cons, List.length_append]; omega
    rw [hlen2, if_neg (by omega), if_neg (by omega), if_neg (by omega)]
    exact hdec _ (by omega)


/-! ## The round trip of a signed transaction -/

theorem stripZeros_of_head (b : Bytes) (h : b.head? ≠ some 0) : stripZeros b = b := by
  unfold stripZeros
  cases b with
  | nil => rfl
  | cons x xs =>
    have hx : x ≠ 0 := by
      intro h0; subst h0; exact h rfl
    simp [List.dropWhile_cons, hx]

theorem setBytes_minimal (f : Field) (h1 : f.allowLess = true) (h2 : f.length = 32) (b : Bytes)
    (hb : minimalInt b) : setBytes f b = .ok b := by
  rw [setBytes_allowLess f h1 (by omega), stripZeros_of_head b hb.1, h2, if_pos hb.2]

theorem setBytes_to (b : Bytes) (hb : b.length = 20) :
    setBytes { name := "to", aliasName := none, length := 20, allowLess := false,
               allowZero := true, default := [] } b = .ok b := by
  unfold setBytes
  simp [hb]

theorem setBytes_free (name : String) (aliasName : Option String) (dflt b : Bytes) :
    setBytes { name := name, aliasName := aliasName, length := 0, allowLess := false,
               allowZero := true, default := dflt } b = .ok b := by
  unfold setBytes
  simp

/-- C6: for every well-formed signed transaction (the numbers nonce, gasPrice,
gasLimit, value, v, r, s stored without a leading zero byte in at most 32 bytes, a
20-byte recipient, data shorter than 2^32 bytes) decoding the bytes that `serialize`
produced gives a transaction with exactly the same nine fields. -/
theorem C6_deserialize_serialize (nonce gasPrice gasLimit recipient value data v r s : Bytes)
    (hnonce : minimalInt nonce) (hgasPrice : minimalInt gasPrice)
    (hgasLimit : minimalInt gasLimit) (hto : recipient.length = 20) (hvalue : minimalInt value)
    (hdata : data.length < 2 ^ 32) (hv : minimalInt v) (hr : minimalInt r)
    (hs : minimalInt s) :
    Tx.deserialize (Tx.serialize { raw := [nonce, gasPrice, gasLimit, recipient, value, data, v, r, s] })
      = .ok { raw := [nonce, gasPrice, gasLimit, recipient, value, data, v, r, s] } := by
  have h64 : (2 : Nat) ^ 64 = 18446744073709551616 := by norm_num
  have h32 : (2 : Nat) ^ 32 = 4294967296 := by norm_num
  rw [h32] at hdata
  have hlen : ∀ d ∈ [nonce, gasPrice, gasLimit, recipient, value, data, v, r, s],
      d.length < 2 ^ 64 := by
    intro d hd
    rw [h64]
    simp only [List.mem_cons, List.mem_singleton, List.not_mem_nil, or_false] at hd
    have := hnonce.2; have := hgasPrice.2; have := hgasLimit.2; have := hvalue.2
    have := hv.2; have := hr.2; have := hs.2
    rcases hd with h | h | h | h | h | h | h | h | h <;> subst h <;> omega
  have e1 := length_encodeItem_le nonce (hlen _ (by simp))
  have e2 := length_encodeItem_le gasPrice (hlen _ (by simp))
  have e3 := length_encodeItem_le gasLimit (hlen _ (by simp))
  have e4 := length_encodeItem_le recipient (hlen _ (by simp))
  have e5 := length_encodeItem_le value (hlen _ (by simp))
  have e6 := length_encodeItem_le data (hlen _ (by simp))
  have e7 := length_encodeItem_le v (hlen _ (by simp))
  have e8 := length_encodeItem_le r (hlen _ (by simp))
  have e9 := length_encodeItem_le s (hlen _ (by simp))
  have htotal : (([nonce, gasPrice, gasLimit, recipient, value, data, v, r, s].map
      encodeItem).flatten).length < 2 ^ 64 := by
    rw [h64]
    simp only [List.map_cons, List.map_nil, List.flatten_cons, List.flatten_nil,
      List.length_append, List.length_nil]
    have := hnonce.2; have := hgasPrice.2; have := hgasLimit.2; have := hvalue.2
    have := hv.2; have := hr.2; have := hs.2
    omega
  unfold Tx.deserialize Tx.serialize
  rw [rlpDecode_rlpEncode _ hlen htotal]
  simp only
  rw [if_neg (by simp [txFields])]
  have f1 := setBytes_minimal
    { name := "nonce", aliasName := none, length := 32,
      allowLess := true, allowZero := false, default := [] } rfl rfl nonce hnonce
  have f2 := setBytes_minimal
    { name := "gasPrice", aliasName := none, length := 32,
      allowLess := true, allowZero := false, default := [] } rfl rfl gasPrice hgasPrice
  have f3 := setBytes_minimal
    { name := "gasLimit", aliasName := some "gas", length := 32,
      allowLess := true, allowZero := false, default := [] } rfl rfl gasLimit hgasLimit
  have f4 := setBytes_to recipient hto
  have f5 := setBytes_minimal
    { name := "value", aliasName := none, length := 32,
      allowLess := true, allowZero := false, default := [] } rfl rfl value hvalue
  have f6 := setBytes_free "data" (some "input") [] data
  have f7 := setBytes_free "v" none [0x1c] v
  have f8 := setBytes_minimal
    { name := "r", aliasName := none, length := 32,
      allowLess := true, allowZero := true, default := [] } rfl rfl r hr
  have f9 := setBytes_minimal
    { name := "s", aliasName := none, length := 32,
      allowLess := true, allowZero := true, default := [] } rfl rfl s hs
  simp only [txFields, fieldsFromItems, f1, f2, f3, f4, f5, f6, f7, f8, f9]

theorem C6_deserialize_serialize_witness :
    Tx.deserialize (Tx.serialize { raw := [[5], [2, 84, 11, 228, 0], [82, 8],
        [60, 237, 84, 48, 156, 6, 224, 131, 6, 7, 248, 86, 91, 86, 196, 67, 112, 131, 99, 216],
        [35, 134, 242, 111, 193, 0, 0], [], [28], [1, 2, 3], [4, 5, 6]] })
      = .ok { raw := [[5], [2, 84, 11, 228, 0], [82, 8],
        [60, 237, 84, 48, 156, 6, 224, 131, 6, 7, 248, 86, 91, 86, 196, 67, 112, 131, 99, 216],
        [35, 134, 242, 111, 193, 0, 0], [], [28], [1, 2, 3], [4, 5, 6]] } :=
  C6_deserialize_serialize _ _ _ _ _ _ _ _ _ (by decide) (by decide) (by decide) (by decide)
    (by decide) (by decide) (by decide) (by decide) (by decide)


/-! ## Primality of the two moduli -/

theorem powMod_eq (m : Nat) (fuel : Nat) : ∀ (a k : Nat), k < 2 ^ fuel →
    powMod m fuel a k = a ^ k % m := by
  induction fuel with
  | zero =>
    intro a k hk
    have : k = 0 := by simpa using hk
    subst this
    simp [powMod]
  | succ fuel ih =>
    intro a k hk
    unfold powMod
    by_cases h0 : k = 0
    · subst h0; simp
    · rw [if_neg h0]
      have hlt : k / 2 < 2 ^ fuel := by
        rw [pow_succ] at hk
        omega
      simp only [ih a (k / 2) hlt]
      have hk2 : k = k / 2 + k / 2 + k % 2 := by omega
      have hsq : (a ^ (k / 2) % m * (a ^ (k / 2) % m)) % m = (a ^ (k / 2) * a ^ (k / 2)) % m :=
        (Nat.mul_mod _ _ _).symm
      by_cases h1 : k % 2 = 1
      · rw [if_pos h1, hsq]
        conv_rhs => rw [hk2, h1, pow_add, pow_add, pow_one]
        exact (Nat.mod_modEq _ _).mul_right a
      · rw [if_neg h1, hsq]
        have h2 : k % 2 = 0 := by omega
        conv_rhs => rw [hk2, h2, add_zero, pow_add]

/-- Lucas' test with an explicit factorisation of `p - 1`. -/
theorem lucas_cert (p a : Nat) (fs : List Nat) (hp : 1 < p)
    (hfs : ∀ q ∈ fs, q.Prime) (hprod : fs.prod = p - 1)
    (hsize : p < 2 ^ 300)
    (h1 : powMod p 300 a (p - 1) = 1)
    (h2 : ∀ q ∈ fs, powMod p 300 a ((p - 1) / q) ≠ 1) : p.Prime := by
  have hcast : ∀ k : Nat, k < 2 ^ 300 → ((a : ZMod p) ^ k = 1 ↔ powMod p 300 a k = 1) := by
    intro k hk
    rw [powMod_eq p 300 a k hk]
    rw [← Nat.cast_pow, ← Nat.cast_one (R := ZMod p), ZMod.natCast_eq_natCast_iff',
      Nat.mod_eq_of_lt hp]
  apply lucas_primality p (a : ZMod p)
  · exact (hcast _ (by omega)).mpr h1
  · intro q hq hdvd
    have hmem : q ∈ fs := by
      apply mem_list_primes_of_dvd_prod hq.prime (fun r hr => (hfs r hr).prime)
      rw [hprod]; exact hdvd
    intro h
    have hle : (p - 1) / q ≤ p - 1 := Nat.div_le_self _ _
    exact h2 q hmem ((hcast _ (by omega)).mp h)

theorem prime_1373 : Nat.Prime 1373 :=
  lucas_cert 1373 2 [2, 2, 7, 7, 7] (by norm_num)
    (by
      intro q hq
      simp only [List.mem_cons, List.mem_singleton, List.not_mem_nil, or_false] at hq
      rcases hq with h | h | h | h | h
      · subst h; exact (by norm_num)
      · subst h; exact (by norm_num)
      · subst h; exact (by norm_num)
      · subst h; exact (by norm_num)
      · subst h; exact (by norm_num))
    (by decide!) (by norm_num) (by decide!) (by decide!)

theorem prime_1409 : Nat.Prime 1409 :=
  lucas_cert 1409 3 [2, 2, 2, 2, 2, 2, 2, 11] (by norm_num)
    (by
      intro q hq
      simp only [List.mem_cons, List.mem_singleton, List.not_mem_nil, or_false] at hq
      rcases hq with h | h | h | h | h | h | h | h
      · subst h; exact (by norm_num)
      · subst h; exact (by norm_num)
      · subst h; exact (by norm_num)
      · subst h; exact (by norm_num)
      · subst h; exact (by norm_num)
      · subst h; exact (by norm_num)
      · subst h; exact (by norm_num)
      · subst h; exact (by norm_num))
    (by decide!) (by norm_num) (by decide!) (by decide!)

theorem prime_1627 : Nat.Prime 1627 :=
  lucas_cert 1627 3 [2, 3, 271] (by norm_num)
    (by
      intro q hq
      simp only [List.mem_cons, List.mem_singleton, List.not_mem_nil, or_false] at hq
      rcases hq with h | h | h
      · subst h; exact (by norm_num)
      · subst h; exact (by norm_num)
      · subst h; exact (by norm_num))
    (by decide!) (by norm_num) (by decide!) (by decide!)

theorem prime_1871 : Nat.Prime 1871 :=
  lucas_cert 1871 14 [2, 5, 11, 17] (by norm_num)
    (by
      intro q hq
      simp only [List.mem_cons, List.mem_singleton, List.not_mem_nil, or_false] at hq
      rcases hq with h | h | h | h
      · subst h; exact (by norm_num)
      · subst h; exact (by norm_num)
      · subst h; exact (by norm_num)
      · subst h; exact (by norm_num))
    (by decide!) (by norm_num) (by decide!) (by decide!)

theorem prime_2011 : Nat.Prime 2011 :=
  lucas_cert 2011 3 [2, 3, 5, 67] (by norm_num)
    (by
      intro q hq
      simp only [List.mem_cons, List.mem_singleton, List.not_mem_nil, or_false] at hq
      rcases hq with h | h | h | h
      · subst h; exact (by norm_num)
      · subst h; exact (by norm_num)
      · subst h; exact (by norm_num)
      · subst h; exact (by norm_num))
    (by decide!) (by norm_num) (by decide!) (by decide!)

theorem prime_2621 : Nat.Prime 2621 :=
  lucas_cert 2621 2 [2, 2, 5, 131] (by norm_num)
    (by
      intro q hq
      simp only [List.mem_cons, List.mem_singleton, List.not_mem_nil, or_false] at hq
      rcases hq with h | h | h | h
      · subst h; exact (by norm_num)
      · subst h; exact (by norm_num)
      · subst h; exact (by norm_num)
      · subst h; exact (by norm_num))
    (by decide!) (by norm_num) (by decide!) (by decide!)

theorem prime_2657 : Nat.Prime 2657 :=
  lucas_cert 2657 3 [2, 2, 2, 2, 2, 83] (by norm_num)
    (by
      intro q hq
      simp only [List.mem_cons, List.mem_singleton, List.not_mem_nil, or_false] at hq
      rcases hq with h | h | h | h | h | h
      · subst h; exact (by norm_num)
      · subst h; exact (by norm_num)
      · subst h; exact (by norm_num)
      · subst h; exact (by norm_num)
      · subst h; exact (by norm_num)
      · subst h; exact (by norm_num))
    (by decide!) (by norm_num) (by decide!) (by decide!)

theorem prime_2731 : Nat.Prime 2731 :=
  lucas_cert 2731 3 [2, 3, 5, 7, 13] (by norm_num)
    (by
      intro q hq
      simp only [List.mem_cons, List.mem_singleton, List.not_mem_nil, or_false] at hq
      rcases hq with h | h | h | h | h
      · subst h; exact (by norm_num)
      · subst h; exact (by norm_num)
      · subst h; exact (by norm_num)
      · subst h; exact (by norm_num)
      · subst h; exact (by norm_num))
    (by decide!) (by norm_num) (by decide!) (by decide!)

theorem prime_2861 : Nat.Prime 2861 :=
  lucas_cert 2861 2 [2, 2, 5, 11, 13] (by norm_num)
    (by
      intro q hq
      simp only [List.mem_cons, List.mem_singleton, List.not_mem_nil, or_false] at hq
      rcases hq with h | h | h | h | h
      · subst h; exact (by norm_num)
      · subst h; exact (by norm_num)
      · subst h; exact (by norm_num)
      · subst h; exact (by norm_num)
      · subst h; exact (by norm_num))
    (by decide!) (by norm_num) (by decide!) (by decide!)

theorem prime_4051 : Nat.Prime 4051 :=
  lucas_cert 4051 10 [2, 3, 3, 3, 3, 5, 5] (by norm_num)
    (by
      intro q hq
      simp only [List.mem_cons, List.mem_singleton, List.not_mem_nil, or_false] at hq
      rcases hq with h | h | h | h | h | h | h
      · subst h; exact (by norm_num)
      · subst h; exact (by norm_num)
      · subst h; exact (by norm_num)
      · subst h; exact (by norm_num)
      · subst h; exact (by norm_num)
      · subst h; exact (by norm_num)
      · subst h; exact (by norm_num))
    (by decide!) (by norm_num) (by decide!) (by decide!)

theorem prime_4423 : Nat.Prime 4423 :=
  lucas_cert 4423 3 [2, 3, 11, 67] (by norm_num)
    (by
      intro q hq
      simp only [List.mem_cons, List.mem_singleton, List.not_mem_nil, or_false] at hq
      rcases hq with h | h | h | h
      · subst h; exact (by norm_num)
      · subst h; exact (by norm_num)
      · subst h; exact (by norm_num)
      · subst h; exact (by norm_num))
    (by decide!) (by norm_num) (by decide!) (by decide!)

theorem prime_5323 : Nat.Prime 5323 :=
  lucas_cert 5323 5 [2, 3, 887] (by norm_num)
    (by
      intro q hq
      simp only [List.mem_cons, List.mem_singleton, List.not_mem_nil, or_false] at hq
      rcases hq with h | h | h
      · subst h; exact (by norm_num)
      · subst h; exact (by norm_num)
      · subst h; exact (by norm_num))
    (by decide!) (by norm_num) (by decide!) (by decide!)

theorem prime_7723 : Nat.Prime 7723 :=
  lucas_cert 7723 3 [2, 3, 3, 3, 11, 13] (by norm_num)
    (by
      intro q hq
      simp only [List.mem_cons, List.mem_singleton, List.not_mem_nil, or_false] at hq
      rcases hq with h | h | h | h | h | h
      · subst h; exact (by norm_num)
      · subst h; exact (by norm_num)
      · subst h; exact (by norm_num)
      · subst h; exact (by norm_num)
      · subst h; exact (by norm_num)
      · subst h; exact (by norm_num))
    (by decide!) (by norm_num) (by decide!) (by decide!)

theorem prime_9349 : Nat.Prime 9349 :=
  lucas_cert 9349 2 [2, 2, 3, 19, 41] (by norm_num)
    (by
      intro q hq
      simp only [List.mem_cons, List.mem_singleton, List.not_mem_nil, or_false] at hq
      rcases hq with h | h | h | h | h
      · subst h; exact (by norm_num)
      · subst h; exact (by norm_num)
      · subst h; exact (by norm_num)
      · subst h; exact (by norm_num)
      · subst h; exact (by norm_num))
    (by decide!) (by norm_num) (by decide!) (by decide!)

theorem prime_13441 : Nat.Prime 13441 :=
  lucas_cert 13441 11 [2, 2, 2, 2, 2, 2, 2, 3, 5, 7] (by norm_num)
    (by
      intro q hq
      simp only [List.mem_cons, List.mem_singleton, List.not_mem_nil, or_false] at hq
      rcases hq with h | h | h | h | h | h | h | h | h | h
      · subst h; exact (by norm_num)
      · subst h; exact (by norm_num)
      · subst h; exact (by norm_num)
      · subst h; exact (by norm_num)
      · subst h; exact (by norm_num)
      · subst h; exact (by norm_num)
      · subst h; exact (by norm_num)
      · subst h; exact (by norm_num)
      · subst h; exact (by norm_num)
      · subst h; exact (by norm_num))
    (by decide!) (by norm_num) (by decide!) (by decide!)

theorem prime_16699 : Nat.Prime 16699 :=
  lucas_cert 16699 3 [2, 3, 11, 11, 23] (by norm_num)
    (by
      intro q hq
      simp only [List.mem_cons, List.mem_singleton, List.not_mem_nil, or_false] at hq
      rcases hq with h | h | h | h | h
      · subst h; exact (by norm_num)
      · subst h; exact (by norm_num)
      · subst h; exact (by norm_num)
      · subst h; exact (by norm_num)
      · subst h; exact (by norm_num))
    (by decide!) (by norm_num) (by decide!) (by decide!)

theorem prime_20113 : Nat.Prime 20113 :=
  lucas_cert 20113 10 [2, 2, 2, 2, 3, 419] (by norm_num)
    (by
      intro q hq
      simp only [List.mem_cons, List.mem_singleton, List.not_mem_nil, or_false] at hq
      rcases hq with h | h | h | h | h | h
      · subst h; exact (by norm_num)
      · subst h; exact (by norm_num)
      · subst h; exact (by norm_num)
      · subst h; exact (by norm_num)
      · subst h; exact (by norm_num)
      · subst h; exact (by norm_num))
    (by decide!) (by norm_num) (by decide!) (by decide!)

theorem prime_24809 : Nat.Prime 24809 :=
  lucas_cert 24809 6 [2, 2, 2, 7, 443] (by norm_num)
    (by
      intro q hq
      simp only [List.mem_cons, List.mem_singleton, List.not_mem_nil, or_false] at hq
      rcases hq with h | h | h | h | h
      · subst h; exact (by norm_num)
      · subst h; exact (by norm_num)
      · subst h; exact (by norm_num)
      · subst h; exact (by norm_num)
      · subst h; exact (by norm_num))
    (by decide!) (by norm_num) (by decide!) (by decide!)

theorem prime_28181 : Nat.Prime 28181 :=
  lucas_cert 28181 2 [2, 2, 5, 1409] (by norm_num)
    (by
      intro q hq
      simp only [List.mem_cons, List.mem_singleton, List.not_mem_nil, or_false] at hq
      rcases hq with h | h | h | h
      · subst h; exact (by norm_num)
      · subst h; exact (by norm_num)
      · subst h; exact (by norm_num)
      · subst h; exact prime_1409)
    (by decide!) (by norm_num) (by decide!) (by decide!)

theorem prime_41201 : Nat.Prime 41201 :=
  lucas_cert 41201 3 [2, 2, 2, 2, 5, 5, 103] (by norm_num)
    (by
      intro q hq
      simp only [List.mem_cons, List.mem_singleton, List.not_mem_nil, or_false] at hq
      rcases hq with h | h | h | h | h | h | h
      · subst h; exact (by norm_num)
      · subst h; exact (by norm_num)
      · subst h; exact (by norm_num)
      · subst h; exact (by norm_num)
      · subst h; exact (by norm_num)
      · subst h; exact (by norm_num)
      · subst h; exact (by norm_num))
    (by decide!) (by norm_num) (by decide!) (by decide!)

theorem prime_85831 : Nat.Prime 85831 :=
  lucas_cert 85831 3 [2, 3, 5, 2861] (by norm_num)
    (by
      intro q hq
      simp only [List.mem_cons, List.mem_singleton, List.not_mem_nil, or_false] at hq
      rcases hq with h | h | h | h
      · subst h; exact (by norm_num)
      · subst h; exact (by norm_num)
      · subst h; exact (by norm_num)
      · subst h; exact prime_2861)
    (by decide!) (by norm_num) (by decide!) (by decide!)

theorem prime_96557 : Nat.Prime 96557 :=
  lucas_cert 96557 2 [2, 2, 101, 239] (by norm_num)
    (by
      intro q hq
      simp only [List.mem_cons, List.mem_singleton, List.not_mem_nil, or_false] at hq
      rcases hq with h | h | h | h
      · subst h; exact (by norm_num)
      · subst h; exact (by norm_num)
      · subst h; exact (by norm_num)
      · subst h; exact (by norm_num))
    (by decide!) (by norm_num) (by decide!) (by decide!)

theorem prime_120233 : Nat.Prime 120233 :=
  lucas_cert 120233 3 [2, 2, 2, 7, 19, 113] (by norm_num)
    (by
      intro q hq
      simp only [List.mem_cons, List.mem_singleton, List.not_mem_nil, or_false] at hq
      rcases hq with h | h | h | h | h | h
      · subst h; exact (by norm_num)
      · subst h; exact (by norm_num)
      · subst h; exact (by norm_num)
      · subst h; exact (by norm_num)
      · subst h; exact (by norm_num)
      · subst h; exact (by norm_num))
    (by decide!) (by norm_num) (by decide!) (by decide!)

theorem prime_305873 : Nat.Prime 305873 :=
  lucas_cert 305873 3 [2, 2, 2, 2, 7, 2731] (by norm_num)
    (by
      intro q hq
      simp only [List.mem_cons, List.mem_singleton, List.not_mem_nil, or_false] at hq
      rcases hq with h | h | h | h | h | h
      · subst h; exact (by norm_num)
      · subst h; exact (by norm_num)
      · subst h; exact (by norm_num)
      · subst h; exact (by norm_num)
      · subst h; exact (by norm_num)
      · subst h; exact prime_2731)
    (by decide!) (by norm_num) (by decide!) (by decide!)

theorem prime_1206781 : Nat.Prime 1206781 :=
  lucas_cert 1206781 10 [2, 2, 3, 5, 20113] (by norm_num)
    (by
      intro q hq
      simp only [List.mem_cons, List.mem_singleton, List.not_mem_nil, or_false] at hq
      rcases hq with h | h | h | h | h
      · subst h; exact (by norm_num)
      · subst h; exact (by norm_num)
      · subst h; exact (by norm_num)
      · subst h; exact (by norm_num)
      · subst h; exact prime_20113)
    (by decide!) (by norm_num) (by decide!) (by decide!)

theorem prime_1627771 : Nat.Prime 1627771 :=
  lucas_cert 1627771 3 [2, 3, 5, 29, 1871] (by norm_num)
    (by
      intro q hq
      simp only [List.mem_cons, List.mem_singleton, List.not_mem_nil, or_false] at hq
      rcases hq with h | h | h | h | h
      · subst h; exact (by norm_num)
      · subst h; exact (by norm_num)
      · subst h; exact (by norm_num)
      · subst h; exact (by norm_num)
      · subst h; exact prime_1871)
    (by decide!) (by norm_num) (by decide!) (by decide!)

theorem prime_4681609 : Nat.Prime 4681609 :=
  lucas_cert 4681609 23 [2, 2, 2, 3, 97, 2011] (by norm_num)
    (by
      intro q hq
      simp only [List.mem_cons, List.mem_singleton, List.not_mem_nil, or_false] at hq
      rcases hq with h | h | h | h | h | h
      · subst h; exact (by norm_num)
      · subst h; exact (by norm_num)
      · subst h; exact (by norm_num)
      · subst h; exact (by norm_num)
      · subst h; exact (by norm_num)
      · subst h; exact prime_2011)
    (by decide!) (by norm_num) (by decide!) (by decide!)

theorem prime_7240687 : Nat.Prime 7240687 :=
  lucas_cert 7240687 3 [2, 3, 1206781] (by norm_num)
    (by
      intro q hq
      simp only [List.mem_cons, List.mem_singleton, List.not_mem_nil, or_false] at hq
      rcases hq with h | h | h
      · subst h; exact (by norm_num)
      · subst h; exact (by norm_num)
      · subst h; exact prime_1206781)
    (by decide!) (by norm_num) (by decide!) (by decide!)

theorem prime_13331831 : Nat.Prime 13331831 :=
  lucas_cert 13331831 13 [2, 5, 971, 1373] (by norm_num)
    (by
      intro q hq
      simp only [List.mem_cons, List.mem_singleton, List.not_mem_nil, or_false] at hq
      rcases hq with h | h | h | h
      · subst h; exact (by norm_num)
      · subst h; exact (by norm_num)
      · subst h; exact (by norm_num)
      · subst h; exact prime_1373)
    (by decide!) (by norm_num) (by decide!) (by decide!)

theorem prime_44706919 : Nat.Prime 44706919 :=
  lucas_cert 44706919 6 [2, 3, 797, 9349] (by norm_num)
    (by
      intro q hq
      simp only [List.mem_cons, List.mem_singleton, List.not_mem_nil, or_false] at hq
      rcases hq with h | h | h | h
      · subst h; exact (by norm_num)
      · subst h; exact (by norm_num)
      · subst h; exact (by norm_num)
      · subst h; exact prime_9349)
    (by decide!) (by norm_num) (by decide!) (by decide!)

theorem prime_107590001 : Nat.Prime 107590001 :=
  lucas_cert 107590001 3 [2, 2, 2, 2, 5, 5, 5, 5, 7, 29, 53] (by norm_num)
    (by
      intro q hq
      simp only [List.mem_cons, List.mem_singleton, List.not_mem_nil, or_false] at hq
      rcases hq with h | h | h | h | h | h | h | h | h | h | h
      · subst h; exact (by norm_num)
      · subst h; exact (by norm_num)
      · subst h; exact (by norm_num)
      · subst h; exact (by norm_num)
      · subst h; exact (by norm_num)
      · subst h; exact (by norm_num)
      · subst h; exact (by norm_num)
      · subst h; exact (by norm_num)
      · subst h; exact (by norm_num)
      · subst h; exact (by norm_num)
      · subst h; exact (by norm_num))
    (by decide!) (by norm_num) (by decide!) (by decide!)

theorem prime_545358713 : Nat.Prime 545358713 :=
  lucas_cert 545358713 5 [2, 2, 2, 41, 59, 28181] (by norm_num)
    (by
      intro q hq
      simp only [List.mem_cons, List.mem_singleton, List.not_mem_nil, or_false] at hq
      rcases hq with h | h | h | h | h | h
      · subst h; exact (by norm_num)
      · subst h; exact (by norm_num)
      · subst h; exact (by norm_num)
      · subst h; exact (by norm_num)
      · subst h; exact (by norm_num)
      · subst h; exact prime_28181)
    (by decide!) (by norm_num) (by decide!) (by decide!)

theorem prime_297159362677 : Nat.Prime 297159362677 :=
  lucas_cert 297159362677 2 [2, 2, 3, 3, 11, 461, 1627771] (by norm_num)
    (by
      intro q hq
      simp only [List.mem_cons, List.mem_singleton, List.not_mem_nil, or_false] at hq
      rcases hq with h | h | h | h | h | h | h
      · subst h; exact (by norm_num)
      · subst h; exact (by norm_num)
      · subst h; exact (by norm_num)
      · subst h; exact (by norm_num)
      · subst h; exact (by norm_num)
      · subst h; exact (by norm_num)
      · subst h; exact prime_1627771)
    (by decide!) (by norm_num) (by decide!) (by decide!)

theorem prime_107361793816595537 : Nat.Prime 107361793816595537 :=
  lucas_cert 107361793816595537 3 [2, 2, 2, 2, 16699, 85831, 4681609] (by norm_num)
    (by
      intro q hq
      simp only [List.mem_cons, List.mem_singleton, List.not_mem_nil, or_false] at hq
      rcases hq with h | h | h | h | h | h | h
      · subst h; exact (by norm_num)
      · subst h; exact (by norm_num)
      · subst h; exact (by norm_num)
      · subst h; exact (by norm_num)
      · subst h; exact prime_16699
      · subst h; exact prime_85831
      · subst h; exact prime_4681609)
    (by decide!) (by norm_num) (by decide!) (by decide!)

theorem prime_173378833005251801 : Nat.Prime 173378833005251801 :=
  lucas_cert 173378833005251801 6 [2, 2, 2, 5, 5, 2621, 24809, 13331831] (by norm_num)
    (by
      intro q hq
      simp only [List.mem_cons, List.mem_singleton, List.not_mem_nil, or_false] at hq
      rcases hq with h | h | h | h | h | h | h | h
      · subst h; exact (by norm_num)
      · subst h; exact (by norm_num)
      · subst h; exact (by norm_num)
      · subst h; exact (by norm_num)
      · subst h; exact (by norm_num)
      · subst h; exact prime_2621
      · subst h; exact prime_24809
      · subst h; exact prime_13331831)
    (by decide!) (by norm_num) (by decide!) (by decide!)

theorem prime_174723607534414371449 : Nat.Prime 174723607534414371449 :=
  lucas_cert 174723607534414371449 3 [2, 2, 2, 17, 59, 4051, 120233, 44706919] (by norm_num)
    (by
      intro q hq
      simp only [List.mem_cons, List.mem_singleton, List.not_mem_nil, or_false] at hq
      rcases hq with h | h | h | h | h | h | h | h
      · subst h; exact (by norm_num)
      · subst h; exact (by norm_num)
      · subst h; exact (by norm_num)
      · subst h; exact (by norm_num)
      · subst h; exact (by norm_num)
      · subst h; exact prime_4051
      · subst h; exact prime_120233
      · subst h; exact prime_44706919)
    (by decide!) (by norm_num) (by decide!) (by decide!)

theorem prime_22149492674086928081353 : Nat.Prime 22149492674086928081353 :=
  lucas_cert 22149492674086928081353 5 [2, 2, 2, 3, 5323, 173378833005251801] (by norm_num)
    (by
      intro q hq
      simp only [List.mem_cons, List.mem_singleton, List.not_mem_nil, or_false] at hq
      rcases hq with h | h | h | h | h | h
      · subst h; exact (by norm_num)
      · subst h; exact (by norm_num)
      · subst h; exact (by norm_num)
      · subst h; exact (by norm_num)
      · subst h; exact prime_5323
      · subst h; exact prime_173378833005251801)
    (by decide!) (by norm_num) (by decide!) (by decide!)

theorem prime_132896956044521568488119 : Nat.Prime 132896956044521568488119 :=
  lucas_cert 132896956044521568488119 6 [2, 3, 22149492674086928081353] (by norm_num)
    (by
      intro q hq
      simp only [List.mem_cons, List.mem_singleton, List.not_mem_nil, or_false] at hq
      rcases hq with h | h | h
      · subst h; exact (by norm_num)
      · subst h; exact (by norm_num)
      · subst h; exact prime_22149492674086928081353)
    (by decide!) (by norm_num) (by decide!) (by decide!)

theorem prime_29047611873442575647497758179 : Nat.Prime 29047611873442575647497758179 :=
  lucas_cert 29047611873442575647497758179 2 [2, 293, 305873, 545358713, 297159362677] (by norm_num)
    (by
      intro q hq
      simp only [List.mem_cons, List.mem_singleton, List.not_mem_nil, or_false] at hq
      rcases hq with h | h | h | h | h
      · subst h; exact (by norm_num)
      · subst h; exact (by norm_num)
      · subst h; exact prime_305873
      · subst h; exact prime_545358713
      · subst h; exact prime_297159362677)
    (by decide!) (by norm_num) (by decide!) (by decide!)

theorem prime_341948486974166000522343609283189 : Nat.Prime 341948486974166000522343609283189 :=
  lucas_cert 341948486974166000522343609283189 2 [2, 2, 3, 3, 3, 109, 29047611873442575647497758179] (by norm_num)
    (by
      intro q hq
      simp only [List.mem_cons, List.mem_singleton, List.not_mem_nil, or_false] at hq
      rcases hq with h | h | h | h | h | h | h
      · subst h; exact (by norm_num)
      · subst h; exact (by norm_num)
      · subst h; exact (by norm_num)
      · subst h; exact (by norm_num)
      · subst h; exact (by norm_num)
      · subst h; exact (by norm_num)
      · subst h; exact prime_29047611873442575647497758179)
    (by decide!) (by norm_num) (by decide!) (by decide!)

theorem prime_255515944373312847190720520512484175977 : Nat.Prime 255515944373312847190720520512484175977 :=
  lucas_cert 255515944373312847190720520512484175977 3 [2, 2, 2, 7, 7, 11, 1627, 2657, 4423, 41201, 96557, 7240687, 107590001] (by norm_num)
    (by
      intro q hq
      simp only [List.mem_cons, List.mem_singleton, List.not_mem_nil, or_false] at hq
      rcases hq with h | h | h | h | h | h | h | h | h | h | h | h | h
      · subst h; exact (by norm_num)
      · subst h; exact (by norm_num)
      · subst h; exact (by norm_num)
      · subst h; exact (by norm_num)
      · subst h; exact (by norm_num)
      · subst h; exact (by norm_num)
      · subst h; exact prime_1627
      · subst h; exact prime_2657
      · subst h; exact prime_4423
      · subst h; exact prime_41201
      · subst h; exact prime_96557
      · subst h; exact prime_7240687
      · subst h; exact prime_107590001)
    (by decide!) (by norm_num) (by decide!) (by decide!)

theorem prime_205115282021455665897114700593932402728804164701536103180137503955397371 : Nat.Prime 205115282021455665897114700593932402728804164701536103180137503955397371 :=
  lucas_cert 205115282021455665897114700593932402728804164701536103180137503955397371 10 [2, 3, 5, 29, 29, 31, 7723, 132896956044521568488119, 255515944373312847190720520512484175977] (by norm_num)
    (by
      intro q hq
      simp only [List.mem_cons, List.mem_singleton, List.not_mem_nil, or_false] at hq
      rcases hq with h | h | h | h | h | h | h | h | h
      · subst h; exact (by norm_num)
      · subst h; exact (by norm_num)
      · subst h; exact (by norm_num)
      · subst h; exact (by norm_num)
      · subst h; exact (by norm_num)
      · subst h; exact (by norm_num)
      · subst h; exact prime_7723
      · subst h; exact prime_132896956044521568488119
      · subst h; exact prime_255515944373312847190720520512484175977)
    (by decide!) (by norm_num) (by decide!) (by decide!)

theorem prime_115792089237316195423570985008687907852837564279074904382605163141518161494337 : Nat.Prime 115792089237316195423570985008687907852837564279074904382605163141518161494337 :=
  lucas_cert 115792089237316195423570985008687907852837564279074904382605163141518161494337 7 [2, 2, 2, 2, 2, 2, 3, 149, 631, 107361793816595537, 174723607534414371449, 341948486974166000522343609283189] (by norm_num)
    (by
      intro q hq
      simp only [List.mem_cons, List.mem_singleton, List.not_mem_nil, or_false] at hq
      rcases hq with h | h | h | h | h | h | h | h | h | h | h | h
      · subst h; exact (by norm_num)
      · subst h; exact (by norm_num)
      · subst h; exact (by norm_num)
      · subst h; exact (by norm_num)
      · subst h; exact (by norm_num)
      · subst h; exact (by norm_num)
      · subst h; exact (by norm_num)
      · subst h; exact (by norm_num)
      · subst h; exact (by norm_num)
      · subst h; exact prime_107361793816595537
      · subst h; exact prime_174723607534414371449
      · subst h; exact prime_341948486974166000522343609283189)
    (by decide!) (by norm_num) (by decide!) (by decide!)

theorem prime_115792089237316195423570985008687907853269984665640564039457584007908834671663 : Nat.Prime 115792089237316195423570985008687907853269984665640564039457584007908834671663 :=
  lucas_cert 115792089237316195423570985008687907853269984665640564039457584007908834671663 3 [2, 3, 7, 13441, 205115282021455665897114700593932402728804164701536103180137503955397371] (by norm_num)
    (by
      intro q hq
      simp only [List.mem_cons, List.mem_singleton, List.not_mem_nil, or_false] at hq
      rcases hq with h | h | h | h | h
      · subst h; exact (by norm_num)
      · subst h; exact (by norm_num)
      · subst h; exact (by norm_num)
      · subst h; exact prime_13441
      · subst h; exact prime_205115282021455665897114700593932402728804164701536103180137503955397371)
    (by decide!) (by norm_num) (by decide!) (by decide!)


/-! ## The executable curve and the group law -/

theorem prime_secpP : Nat.Prime secpP := prime_115792089237316195423570985008687907853269984665640564039457584007908834671663

theorem prime_secpN : Nat.Prime secpN := prime_115792089237316195423570985008687907852837564279074904382605163141518161494337

instance factSecpP : Fact (Nat.Prime secpP) := ⟨prime_secpP⟩

instance factSecpN : Fact (Nat.Prime secpN) := ⟨prime_secpN⟩

theorem secpP_pos : 0 < secpP := prime_secpP.pos

theorem cast_secpP : ((secpP : Nat) : ZMod secpP) = 0 := ZMod.natCast_self secpP

theorem cast_sub_secpP (x : Nat) (hx : x ≤ secpP) : ((secpP - x : Nat) : ZMod secpP) = -(x : ZMod secpP) := by
  rw [Nat.cast_sub hx, cast_secpP, zero_sub]

theorem cast_inj_lt (a b : Nat) (ha : a < secpP) (hb : b < secpP) :
    (a : ZMod secpP) = (b : ZMod secpP) ↔ a = b := by
  rw [ZMod.natCast_eq_natCast_iff', Nat.mod_eq_of_lt ha, Nat.mod_eq_of_lt hb]

theorem cast_eq_zero_iff (a : Nat) : (a : ZMod secpP) = 0 ↔ a % secpP = 0 := by
  rw [ZMod.natCast_zmod_eq_zero_iff_dvd, Nat.dvd_iff_mod_eq_zero]

theorem cast_inv (a : Nat) : ((invP a : Nat) : ZMod secpP) = (a : ZMod secpP)⁻¹ := by
  unfold invP
  rw [powMod_eq secpP 256 a (secpP - 2) (by unfold secpP; norm_num), ZMod.natCast_mod, Nat.cast_pow]
  by_cases h0 : (a : ZMod secpP) = 0
  · rw [h0, inv_zero]
    exact zero_pow (by unfold secpP; norm_num)
  · have h1 : (a : ZMod secpP) ^ (secpP - 1) = 1 := ZMod.pow_card_sub_one_eq_one h0
    have h2 : (a : ZMod secpP) ^ (secpP - 2) * (a : ZMod secpP) = 1 := by
      rw [← pow_succ]
      have : secpP - 2 + 1 = secpP - 1 := by unfold secpP; norm_num
      rw [this, h1]
    exact eq_inv_of_mul_eq_one_left h2


open WeierstrassCurve.Affine in
theorem point_ext {X Y X' Y' : ZMod secpP} (h : secpCurve.Nonsingular X Y) (h' : secpCurve.Nonsingular X' Y')
    (hx : X = X') (hy : Y = Y') : Point.some h = Point.some h' := by
  subst hx; subst hy; rfl

theorem negY_eq (X Y : ZMod secpP) : secpCurve.negY X Y = -Y := by
  simp [WeierstrassCurve.Affine.negY, secpCurve]

theorem addX_eq (X1 X2 L : ZMod secpP) : secpCurve.addX X1 X2 L = L ^ 2 - X1 - X2 := by
  simp [WeierstrassCurve.Affine.addX, secpCurve]

theorem addY_eq (X1 X2 Y1 L : ZMod secpP) :
    secpCurve.addY X1 X2 Y1 L = L * (X1 - (L ^ 2 - X1 - X2)) - Y1 := by
  simp only [WeierstrassCurve.Affine.addY, WeierstrassCurve.Affine.negAddY, negY_eq, addX_eq]
  ring

theorem mod_lt_secpP (a : Nat) : a % secpP < secpP := Nat.mod_lt _ secpP_pos

theorem addPt_some (x1 y1 x2 y2 : Nat) :
    addPt (some (x1, y1)) (some (x2, y2)) =
      if x1 = x2 then
        if (y1 + y2) % secpP = 0 then none
        else
          some ((3 * x1 * x1 % secpP * invP (2 * y1 % secpP) % secpP * (3 * x1 * x1 % secpP * invP (2 * y1 % secpP) % secpP)
              + (secpP - x1) + (secpP - x2)) % secpP,
            (3 * x1 * x1 % secpP * invP (2 * y1 % secpP) % secpP
              * (x1 + (secpP - (3 * x1 * x1 % secpP * invP (2 * y1 % secpP) % secpP
                  * (3 * x1 * x1 % secpP * invP (2 * y1 % secpP) % secpP) + (secpP - x1) + (secpP - x2)) % secpP))
              + (secpP - y1)) % secpP)
      else
        some (((y2 + (secpP - y1)) % secpP * invP ((x2 + (secpP - x1)) % secpP) % secpP
              * ((y2 + (secpP - y1)) % secpP * invP ((x2 + (secpP - x1)) % secpP) % secpP) + (secpP - x1) + (secpP - x2)) % secpP,
          ((y2 + (secpP - y1)) % secpP * invP ((x2 + (secpP - x1)) % secpP) % secpP
            * (x1 + (secpP - ((y2 + (secpP - y1)) % secpP * invP ((x2 + (secpP - x1)) % secpP) % secpP
                * ((y2 + (secpP - y1)) % secpP * invP ((x2 + (secpP - x1)) % secpP) % secpP) + (secpP - x1) + (secpP - x2)) % secpP))
            + (secpP - y1)) % secpP) := rfl

theorem cast_sub_mod (a : Nat) : ((secpP - a % secpP : Nat) : ZMod secpP) = -((a : Nat) : ZMod secpP) := by
  rw [cast_sub_secpP _ (Nat.mod_lt _ secpP_pos).le, ZMod.natCast_mod]

open WeierstrassCurve.Affine in
theorem rep_add (a b : CurvePoint) (A B : secpCurve.Point) (ha : Represents a A) (hb : Represents b B) :
    Represents (addPt a b) (A + B) := by
  match a, b, ha, hb with
  | none, b, ha, hb =>
    have : A = 0 := ha
    subst this
    rw [zero_add]
    cases b <;> exact hb
  | some p, none, ha, hb =>
    have : B = 0 := hb
    subst this
    rw [add_zero]
    exact ha
  | some (x1, y1), some (x2, y2), ⟨hx1, hy1, X1, Y1, h1, hA, hX1, hY1⟩,
      ⟨hx2, hy2, X2, Y2, h2, hB, hX2, hY2⟩ =>
    subst hA; subst hB; subst hX1; subst hY1; subst hX2; subst hY2
    rw [addPt_some]
    by_cases hx : x1 = x2
    · have hX : (x1 : ZMod secpP) = (x2 : ZMod secpP) := by rw [hx]
      rw [if_pos hx]
      by_cases hy : (y1 + y2) % secpP = 0
      · rw [if_pos hy]
        have hY : (y1 : ZMod secpP) = secpCurve.negY (x2 : ZMod secpP) (y2 : ZMod secpP) := by
          rw [negY_eq, eq_neg_iff_add_eq_zero, ← Nat.cast_add, cast_eq_zero_iff]
          exact hy
        show Point.some h1 + Point.some h2 = 0
        exact Point.add_of_Y_eq hX hY
      · rw [if_neg hy]
        have hY : (y1 : ZMod secpP) ≠ secpCurve.negY (x2 : ZMod secpP) (y2 : ZMod secpP) := by
          rw [negY_eq, Ne, eq_neg_iff_add_eq_zero, ← Nat.cast_add, cast_eq_zero_iff]
          exact hy
        rw [Point.add_of_Y_ne hY]
        refine ⟨mod_lt_secpP _, mod_lt_secpP _, _, _, _, rfl, ?_, ?_⟩
        · rw [addX_eq, slope_of_Y_ne hX hY, negY_eq]
          simp only [secpCurve]
          push_cast [ZMod.natCast_mod, cast_sub_secpP x1 hx1.le, cast_sub_secpP x2 hx2.le, cast_inv]
          rw [hX]
          field_simp
          ring
        · rw [addY_eq, slope_of_Y_ne hX hY, negY_eq]
          simp only [secpCurve]
          push_cast [ZMod.natCast_mod, cast_sub_secpP x1 hx1.le, cast_sub_secpP x2 hx2.le,
            cast_sub_secpP y1 hy1.le, cast_inv, cast_sub_mod]
          rw [hX]
          field_simp
          ring
    · have hX : (x1 : ZMod secpP) ≠ (x2 : ZMod secpP) := by
        rw [Ne, cast_inj_lt x1 x2 hx1 hx2]
        exact hx
      have hne : (x1 : ZMod secpP) - x2 ≠ 0 := sub_ne_zero.mpr hX
      have hne2 : (x2 : ZMod secpP) + -(x1 : ZMod secpP) ≠ 0 := by
        intro h
        apply hne
        linear_combination -h
      rw [if_neg hx, Point.add_of_X_ne hX]
      refine ⟨mod_lt_secpP _, mod_lt_secpP _, _, _, _, rfl, ?_, ?_⟩
      · rw [addX_eq, slope_of_X_ne hX]
        push_cast [ZMod.natCast_mod, cast_sub_secpP x1 hx1.le, cast_sub_secpP x2 hx2.le,
          cast_sub_secpP y1 hy1.le, cast_inv]
        field_simp
        ring
      · rw [addY_eq, slope_of_X_ne hX]
        push_cast [ZMod.natCast_mod, cast_sub_secpP x1 hx1.le, cast_sub_secpP x2 hx2.le,
          cast_sub_secpP y1 hy1.le, cast_inv, cast_sub_mod]
        field_simp
        ring


theorem rep_mul (fuel : Nat) : ∀ (k : Nat) (a : CurvePoint) (A : secpCurve.Point), k < 2 ^ fuel → Represents a A →
    Represents (mulPt fuel k a) (k • A) := by
  induction fuel with
  | zero =>
    intro k a A hk _
    have : k = 0 := by simpa using hk
    subst this
    rw [zero_nsmul]
    rfl
  | succ fuel ih =>
    intro k a A hk ha
    unfold mulPt
    by_cases h0 : k = 0
    · subst h0
      rw [if_pos rfl, zero_nsmul]
      rfl
    · rw [if_neg h0]
      have hlt : k / 2 < 2 ^ fuel := by
        rw [pow_succ] at hk
        omega
      have hr := ih (k / 2) (addPt a a) (A + A) hlt (rep_add a a A A ha ha)
      have hk2 : k = 2 * (k / 2) + k % 2 := (Nat.div_add_mod k 2).symm
      have hdouble : (k / 2) • (A + A) = (2 * (k / 2)) • A := by
        rw [mul_nsmul, two_nsmul]
      simp only
      by_cases h1 : k % 2 = 1
      · rw [if_pos h1]
        have hsum : k • A = A + (k / 2) • (A + A) := by
          conv_lhs => rw [hk2, h1, add_nsmul, one_nsmul, ← hdouble, add_comm]
        rw [hsum]
        exact rep_add _ _ _ _ ha hr
      · rw [if_neg h1]
        have h2 : k % 2 = 0 := by omega
        have hsum : k • A = (k / 2) • (A + A) := by
          conv_lhs => rw [hk2, h2, add_zero, ← hdouble]
        rw [hsum]
        exact hr

theorem rep_unique (a b : CurvePoint) (A : secpCurve.Point) (ha : Represents a A) (hb : Represents b A) : a = b := by
  match a, b, ha, hb with
  | none, none, _, _ => rfl
  | none, some (x, y), ha, ⟨_, _, X, Y, h, hA, _, _⟩ =>
    have h0 : A = 0 := ha
    rw [h0] at hA
    exact absurd hA.symm (WeierstrassCurve.Affine.Point.some_ne_zero h)
  | some (x, y), none, ⟨_, _, X, Y, h, hA, _, _⟩, hb =>
    have h0 : A = 0 := hb
    rw [h0] at hA
    exact absurd hA.symm (WeierstrassCurve.Affine.Point.some_ne_zero h)
  | some (x1, y1), some (x2, y2), ⟨hx1, hy1, X1, Y1, h1, hA1, hX1, hY1⟩,
      ⟨hx2, hy2, X2, Y2, h2, hA2, hX2, hY2⟩ =>
    rw [hA1] at hA2
    have hxy := WeierstrassCurve.Affine.Point.some.inj hA2
    have e1 : (x1 : ZMod secpP) = (x2 : ZMod secpP) := by rw [← hX1, ← hX2]; exact hxy.1
    have e2 : (y1 : ZMod secpP) = (y2 : ZMod secpP) := by rw [← hY1, ← hY2]; exact hxy.2
    rw [(cast_inj_lt x1 x2 hx1 hx2).mp e1, (cast_inj_lt y1 y2 hy1 hy2).mp e2]

theorem secpG_equation : (secpGy * secpGy) % secpP = (secpGx * secpGx * secpGx + 7) % secpP := by decide!

theorem nonsingular_of_equation (x y : Nat)
    (h : (y * y) % secpP = (x * x * x + 7) % secpP) : secpCurve.Nonsingular (x : ZMod secpP) (y : ZMod secpP) := by
  have heq : (y : ZMod secpP) ^ 2 = (x : ZMod secpP) ^ 3 + 7 := by
    have := (ZMod.natCast_eq_natCast_iff' (y * y) (x * x * x + 7) secpP).mpr h
    push_cast at this
    linear_combination this
  rw [WeierstrassCurve.Affine.nonsingular_iff, WeierstrassCurve.Affine.equation_iff]
  simp only [secpCurve]
  refine ⟨by linear_combination heq, ?_⟩
  by_cases hy : (y : ZMod secpP) = 0
  · left
    have h2 : (x : ZMod secpP) ^ 3 = -7 := by
      rw [hy] at heq
      linear_combination -heq
    have hx : (x : ZMod secpP) ≠ 0 := by
      intro hx0
      rw [hx0] at h2
      have h7 : ((7 : Nat) : ZMod secpP) = 0 := by
        push_cast
        linear_combination h2
      rw [cast_eq_zero_iff] at h7
      revert h7
      decide!
    have h3 : ((3 : Nat) : ZMod secpP) ≠ 0 := by
      rw [Ne, cast_eq_zero_iff]
      decide!
    intro hc
    have : (3 : ZMod secpP) * (x : ZMod secpP) ^ 2 = 0 := by linear_combination -hc
    rcases mul_eq_zero.mp this with h | h
    · exact h3 (by push_cast; exact h)
    · exact hx (pow_eq_zero_iff (by norm_num) |>.mp h)
  · right
    intro hc
    have h2 : ((2 : Nat) : ZMod secpP) ≠ 0 := by
      rw [Ne, cast_eq_zero_iff]
      decide!
    have : (2 : ZMod secpP) * (y : ZMod secpP) = 0 := by linear_combination hc
    rcases mul_eq_zero.mp this with h | h
    · exact h2 (by push_cast; exact h)
    · exact hy h

theorem secpG_lt : secpGx < secpP ∧ secpGy < secpP := by decide!

theorem rep_of_equation (x y : Nat) (hx : x < secpP) (hy : y < secpP)
    (h : (y * y) % secpP = (x * x * x + 7) % secpP) :
    Represents (some (x, y)) (WeierstrassCurve.Affine.Point.some (nonsingular_of_equation x y h)) :=
  ⟨hx, hy, _, _, _, rfl, rfl, rfl⟩

theorem order_secpG : mulPt 256 secpN secpG = none := by decide!


/-! ## Scalars and points -/

theorem cast_invN (a : Nat) : ((invN a : Nat) : ZMod secpN) = (a : ZMod secpN)⁻¹ := by
  unfold invN
  rw [powMod_eq secpN 256 a (secpN - 2) (by unfold secpN; norm_num), ZMod.natCast_mod,
    Nat.cast_pow]
  by_cases h0 : (a : ZMod secpN) = 0
  · rw [h0, inv_zero]
    exact zero_pow (by unfold secpN; norm_num)
  · have h1 : (a : ZMod secpN) ^ (secpN - 1) = 1 := ZMod.pow_card_sub_one_eq_one h0
    have h2 : (a : ZMod secpN) ^ (secpN - 2) * (a : ZMod secpN) = 1 := by
      rw [← pow_succ]
      have : secpN - 2 + 1 = secpN - 1 := by unfold secpN; norm_num
      rw [this, h1]
    exact eq_inv_of_mul_eq_one_left h2

theorem secpN_pos : 0 < secpN := prime_secpN.pos

theorem castN_ne_zero (a : Nat) (h0 : a ≠ 0) (hlt : a < secpN) : (a : ZMod secpN) ≠ 0 := by
  rw [Ne, ZMod.natCast_zmod_eq_zero_iff_dvd]
  intro hd
  exact absurd (Nat.le_of_dvd (Nat.pos_of_ne_zero h0) hd) (by omega)

theorem rep_mul_eq (fuel k : Nat) (a : CurvePoint) (A : secpCurve.Point) (q : CurvePoint)
    (hk : k < 2 ^ fuel) (ha : Represents a A) (hq : mulPt fuel k a = q) :
    Represents q (k • A) := by
  subst hq
  exact rep_mul fuel k a A hk ha

theorem secpN_lt : secpN < 2 ^ 256 := by
  unfold secpN
  norm_num

/-- The base point as a point of the curve. -/
theorem exists_base :
    ∃ A : secpCurve.Point, Represents secpG A ∧ secpN • A = 0 := by
  have hG : Represents secpG
      (WeierstrassCurve.Affine.Point.some
        (nonsingular_of_equation secpGx secpGy secpG_equation)) :=
    ⟨secpG_lt.1, secpG_lt.2, _, _, _, rfl, rfl, rfl⟩
  exact ⟨_, hG, rep_mul_eq 256 secpN secpG _ none secpN_lt hG order_secpG⟩

theorem nsmul_mod (A : secpCurve.Point) (hA : secpN • A = 0) (a : Nat) :
    (a % secpN) • A = a • A := by
  conv_rhs => rw [← Nat.div_add_mod a secpN, add_nsmul, mul_nsmul, hA, nsmul_zero, zero_add]

theorem nsmul_congr (A : secpCurve.Point) (hA : secpN • A = 0) (a b : Nat)
    (h : (a : ZMod secpN) = (b : ZMod secpN)) : a • A = b • A := by
  rw [← nsmul_mod A hA a, ← nsmul_mod A hA b, (ZMod.natCast_eq_natCast_iff' a b secpN).mp h]

theorem equation_of_rep (x y : Nat) (A : secpCurve.Point) (h : Represents (some (x, y)) A) :
    (y * y) % secpP = (x * x * x + 7) % secpP := by
  obtain ⟨_, _, X, Y, hns, _, hX, hY⟩ := h
  have heq := (WeierstrassCurve.Affine.nonsingular_iff _ _ _).mp hns |>.1
  rw [WeierstrassCurve.Affine.equation_iff] at heq
  simp only [secpCurve] at heq
  rw [← ZMod.natCast_eq_natCast_iff']
  push_cast
  rw [← hX, ← hY]
  linear_combination heq

theorem rep_neg (x y : Nat) (A : secpCurve.Point) (h : Represents (some (x, y)) A) :
    Represents (some (x, (secpP - y) % secpP)) (-A) := by
  obtain ⟨hx, hy, X, Y, hns, hA, hX, hY⟩ := h
  subst hA
  refine ⟨hx, mod_lt_secpP _, X, secpCurve.negY X Y,
    WeierstrassCurve.Affine.nonsingular_neg hns, rfl, hX, ?_⟩
  rw [negY_eq, ZMod.natCast_mod, cast_sub_secpP y hy.le, hY]

theorem neg_nsmul_base (A : secpCurve.Point) (hA : secpN • A = 0) (k : Nat) (hk : k ≤ secpN) :
    -(k • A) = (secpN - k) • A := by
  have h : (secpN - k) • A + k • A = 0 := by
    rw [← add_nsmul, Nat.sub_add_cancel hk, hA]
  exact (eq_neg_of_add_eq_zero_left h).symm ▸ rfl


/-! ## Square roots modulo the field prime -/

theorem secpP_odd : secpP % 2 = 1 := by decide!

theorem sub_mod_self (y : Nat) (hy : y < secpP) : (secpP - (secpP - y) % secpP) % secpP = y := by
  by_cases h0 : y = 0
  · subst h0
    simp
  · have hpos := secpP_pos
    rw [Nat.mod_eq_of_lt (by omega : secpP - y < secpP)]
    rw [Nat.mod_eq_of_lt (by omega)]
    omega

theorem parity_neg (y : Nat) (hy : y < secpP) (h : ((secpP - y) % secpP) % 2 = y % 2) :
    (secpP - y) % secpP = y := by
  by_cases h0 : y = 0
  · subst h0
    simp
  · have hodd := secpP_odd
    rw [Nat.mod_eq_of_lt (by omega : secpP - y < secpP)] at h
    omega

theorem root_of_sq (w y : Nat) (hw : w < secpP) (hy : y < secpP)
    (h : (w : ZMod secpP) ^ 2 = (y : ZMod secpP) ^ 2) :
    w * w % secpP = y * y % secpP ∧ (w = y ∨ w = (secpP - y) % secpP) := by
  constructor
  · apply (ZMod.natCast_eq_natCast_iff' _ _ secpP).mp
    rw [Nat.cast_mul, Nat.cast_mul, ← pow_two, ← pow_two, h]
  · rcases sq_eq_sq_iff_eq_or_eq_neg.mp h with h1 | h1
    · left
      exact (cast_inj_lt _ _ hw hy).mp h1
    · right
      apply (cast_inj_lt _ _ hw (mod_lt_secpP _)).mp
      rw [h1, ZMod.natCast_mod, cast_sub_secpP y hy.le]

/-- The exponent `(p + 1) / 4` gives a square root of a square, up to sign. -/
theorem sqrt_secp (c y : Nat) (hy : y < secpP) (hc : y * y % secpP = c) :
    powMod secpP 256 c ((secpP + 1) / 4) * powMod secpP 256 c ((secpP + 1) / 4) % secpP = c ∧
      (powMod secpP 256 c ((secpP + 1) / 4) = y ∨
        powMod secpP 256 c ((secpP + 1) / 4) = (secpP - y) % secpP) := by
  have he : (secpP + 1) / 4 < 2 ^ 256 := by unfold secpP; norm_num
  have h4 : 2 * ((secpP + 1) / 4 * 2) = secpP + 1 := by unfold secpP; norm_num
  subst hc
  rw [powMod_eq secpP 256 _ _ he]
  apply root_of_sq _ y (mod_lt_secpP _) hy
  rw [ZMod.natCast_mod, Nat.cast_pow, ZMod.natCast_mod, Nat.cast_mul, ← pow_mul,
    ← pow_two, ← pow_mul, h4, pow_succ, ZMod.pow_card, pow_two]

/-- The ordinate chosen by the parity bit of the recovery id. -/
theorem recover_ordinate (c y recid : Nat) (hy : y < secpP) (hc : y * y % secpP = c) :
    (if powMod secpP 256 c ((secpP + 1) / 4) % 2 = recid % 2
      then powMod secpP 256 c ((secpP + 1) / 4)
      else (secpP - powMod secpP 256 c ((secpP + 1) / 4)) % secpP) =
    if y % 2 = recid % 2 then y else (secpP - y) % secpP := by
  rcases (sqrt_secp c y hy hc).2 with h | h
  · rw [h]
  · rw [h]
    by_cases h1 : ((secpP - y) % secpP) % 2 = recid % 2
    · rw [if_pos h1]
      by_cases h2 : y % 2 = recid % 2
      · rw [if_pos h2]
        exact parity_neg y hy (h1.trans h2.symm)
      · rw [if_neg h2]
    · rw [if_neg h1, sub_mod_self y hy]
      by_cases h2 : y % 2 = recid % 2
      · rw [if_pos h2]
      · rw [if_neg h2]
        have h3 : ((secpP - y) % secpP) % 2 = y % 2 := by
          have := Nat.mod_two_eq_zero_or_one ((secpP - y) % secpP)
          have := Nat.mod_two_eq_zero_or_one y
          have := Nat.mod_two_eq_zero_or_one recid
          omega
        exact (parity_neg y hy h3).symm


/-! ## The algebra of recovery -/

theorem castN_sub_mod (a : Nat) :
    (((secpN - a % secpN) % secpN : Nat) : ZMod secpN) = -(a : ZMod secpN) := by
  rw [ZMod.natCast_mod, Nat.cast_sub (Nat.mod_lt _ secpN_pos).le, ZMod.natCast_self,
    ZMod.natCast_mod, zero_sub]

theorem castN_sub (a : Nat) (h : a ≤ secpN) :
    ((secpN - a : Nat) : ZMod secpN) = -(a : ZMod secpN) := by
  rw [Nat.cast_sub h, ZMod.natCast_self, zero_sub]

/-- The multiples of the base point that recovery combines give back the public point:
with `R = k' * G` and `k' * s = z + r * d` modulo the order, `(-z / r) * G + (s / r) * R`
is `d * G`. -/
theorem recover_combination (A : secpCurve.Point) (hA : Represents secpG A)
    (hN : secpN • A = 0) (d z r s k1 : Nat) (pt : CurvePoint)
    (hr0 : r ≠ 0) (hr : r < secpN) (hd : d < secpN)
    (hpt : Represents pt (k1 • A))
    (hks : (k1 : ZMod secpN) * (s : ZMod secpN) = (z : ZMod secpN) + (r : ZMod secpN) * (d : ZMod secpN)) :
    addPt (mulPt 256 ((secpN - z * invN r % secpN) % secpN) secpG)
      (mulPt 256 (s * invN r % secpN) pt) = mulPt 256 d secpG := by
  have hlt : ∀ a : Nat, a % secpN < 2 ^ 256 := fun a =>
    lt_trans (Nat.mod_lt _ secpN_pos) secpN_lt
  have h1 := rep_mul 256 _ secpG A (hlt (secpN - z * invN r % secpN)) hA
  have h2 := rep_mul 256 _ pt (k1 • A) (hlt (s * invN r)) hpt
  have h3 := rep_add _ _ _ _ h1 h2
  have h4 := rep_mul 256 d secpG A (lt_trans hd secpN_lt) hA
  have hrz : (r : ZMod secpN) ≠ 0 := castN_ne_zero r hr0 hr
  have heq : ((secpN - z * invN r % secpN) % secpN) • A + (s * invN r % secpN) • k1 • A
      = d • A := by
    rw [← mul_nsmul, ← add_nsmul]
    apply nsmul_congr A hN
    rw [Nat.cast_add, castN_sub_mod, Nat.cast_mul, Nat.cast_mul, ZMod.natCast_mod,
      Nat.cast_mul, cast_invN]
    have hd2 : (d : ZMod secpN) = ((z : ZMod secpN) + r * d - z) * (r : ZMod secpN)⁻¹ := by
      field_simp
    rw [hd2, ← hks]
    ring
  rw [heq] at h3
  exact rep_unique _ _ _ h3 h4


/-! ## Fixed-width numbers -/

theorem length_toBytesBE (len n : Nat) : (toBytesBE len n).length = len := by
  induction len generalizing n with
  | zero => rfl
  | succ len ih => simp [toBytesBE, ih]

theorem bytesToNat_append (a b : Bytes) :
    bytesToNat (a ++ b) = bytesToNat a * 256 ^ b.length + bytesToNat b := by
  induction a with
  | nil => simp [bytesToNat_nil]
  | cons x a ih =>
    rw [List.cons_append, bytesToNat_cons, bytesToNat_cons, ih, List.length_append]
    ring

theorem bytesToNat_toBytesBE (len n : Nat) : bytesToNat (toBytesBE len n) = n % 256 ^ len := by
  induction len generalizing n with
  | zero => simp [toBytesBE, bytesToNat_nil, Nat.mod_one]
  | succ len ih =>
    have hv : (Fin.ofNat n : Byte).val = n % 256 := by
      simp [Fin.ofNat]
    rw [toBytesBE, bytesToNat_append, ih, bytesToNat_cons, bytesToNat_nil, hv]
    simp only [List.length_singleton, List.length_nil, pow_zero, pow_one, mul_one, add_zero]
    rw [pow_succ, Nat.mul_comm (256 ^ len) 256, Nat.mod_mul]
    ring

theorem slice_append_left (a b : Bytes) (n : Nat) (h : a.length = n) :
    slice (a ++ b) 0 n = a := by
  subst h
  simp [slice]

theorem slice_append_right (a b : Bytes) (n m : Nat) (ha : a.length = n)
    (hb : b.length + n = m) : slice (a ++ b) n m = b := by
  subst ha
  subst hb
  simp [slice, List.take_append_eq_append_take, List.take_of_length_le]

theorem stripZeros_pad (bs : Bytes) :
    List.replicate (bs.length - (stripZeros bs).length) 0 ++ stripZeros bs = bs := by
  induction bs with
  | nil => rfl
  | cons b bs ih =>
    by_cases hb : b = 0
    · subst hb
      have hs : stripZeros ((0 : Byte) :: bs) = stripZeros bs := by
        simp [stripZeros, List.dropWhile_cons]
      have hle := length_stripZeros_le bs
      rw [hs, List.length_cons, Nat.succ_sub hle, List.replicate_succ, List.cons_append, ih]
    · have hs : stripZeros (b :: bs) = b :: bs := by
        simp [stripZeros, List.dropWhile_cons, hb]
      rw [hs]
      simp

theorem setLength_stripZeros (bs : Bytes) (n : Nat) (h : bs.length = n) :
    setLength (stripZeros bs) n = bs := by
  subst h
  unfold setLength
  rw [if_pos (length_stripZeros_le bs), stripZeros_pad]


/-! ## Recovery undoes signing -/

/-- Recovery on a well-formed signature whose `r` is the abscissa of a point `(r, y)` of
the curve. -/
theorem secpRecover_eq (digest : Bytes) (r s recid y : Nat)
    (hr0 : r ≠ 0) (hr : r < secpN) (hs0 : s ≠ 0) (hs : s < secpN) (hrec : recid < 2)
    (hrP : r < secpP) (hy : y < secpP) (hcurve : y * y % secpP = (r * r * r + 7) % secpP) :
    secpRecover digest (toBytesBE 32 r ++ toBytesBE 32 s) recid =
      pointBytes (addPt
        (mulPt 256 ((secpN - bytesToNat digest % secpN * invN r % secpN) % secpN) secpG)
        (mulPt 256 (s * invN r % secpN)
          (some (r, if y % 2 = recid % 2 then y else (secpP - y) % secpP)))) := by
  have hN := secpN_lt
  have h256 : (256 : Nat) ^ 32 = 2 ^ 256 := by norm_num
  have hsq := sqrt_secp _ y hy hcurve
  have hord := recover_ordinate _ y recid hy hcurve
  unfold secpRecover
  rw [slice_append_left _ _ 32 (length_toBytesBE 32 r),
    slice_append_right _ _ 32 64 (length_toBytesBE 32 r) (by rw [length_toBytesBE]),
    bytesToNat_toBytesBE, bytesToNat_toBytesBE, h256,
    Nat.mod_eq_of_lt (lt_trans hr hN), Nat.mod_eq_of_lt (lt_trans hs hN)]
  dsimp only
  rw [if_neg (by omega), if_neg (by omega : ¬ recid / 2 % 2 = 1), if_neg (by omega),
    if_neg (not_not.mpr hsq.1), hord]

theorem xor_one_cases (a b : Nat) (ha : a = 0 ∨ a = 2) (hb : b < 2)
    (h : Nat.xor (a + b) 1 < 2) : a = 0 ∧ Nat.xor (a + b) 1 % 2 ≠ b % 2 := by
  rcases ha with rfl | rfl
  · interval_cases b <;> exact ⟨rfl, by decide⟩
  · interval_cases b <;> exact absurd h (by decide)

theorem privateToPublic_eq (key : Bytes) (hlen : key.length = 32) (h0 : bytesToNat key ≠ 0)
    (hlt : bytesToNat key < secpN) :
    privateToPublic key = pointBytes (mulPt 256 (bytesToNat key) secpG) := by
  unfold privateToPublic
  dsimp only
  rw [if_neg (by omega)]

/-- The signature that signing makes with a nonce, when its recovery id is 0 or 1, is two
32-byte numbers with `s` in the lower half, and recovery over the same digest gives the
public key of the signing key. -/
theorem recover_signed (k : Nat) (digest key sig : Bytes) (recid : Nat)
    (h : ecdsaSignWith k digest key = some (sig, recid)) (hrec : recid < 2) :
    secpRecover digest sig recid = privateToPublic key ∧
      ∃ r s, sig = toBytesBE 32 r ++ toBytesBE 32 s ∧ r < secpN ∧ s ≤ secpN / 2 := by
  obtain ⟨A, hA, hNA⟩ := exists_base
  have hNpos := secpN_pos
  unfold ecdsaSignWith at h
  dsimp only at h
  split at h
  · exact absurd h (by simp)
  · rename_i hvalid
    have hkey : key.length = 32 ∧ bytesToNat key ≠ 0 ∧ bytesToNat key < secpN ∧ k ≠ 0 ∧
        k < secpN := by omega
    obtain ⟨hlen, hd0, hd, hk0, hk⟩ := hkey
    rw [privateToPublic_eq key hlen hd0 hd]
    split at h
    · exact absurd h (by simp)
    · rename_i x y hm
      have hrep : Represents (some (x, y)) (k • A) :=
        rep_mul_eq 256 k secpG A _ (lt_trans hk secpN_lt) hA hm
      have hxP : x < secpP := hrep.1
      have hyP : y < secpP := hrep.2.1
      have hcurve := equation_of_rep x y _ hrep
      have hkz : (k : ZMod secpN) ≠ 0 := castN_ne_zero k hk0 hk
      have hy2 : y % 2 < 2 := Nat.mod_lt _ (by decide)
      have hs0cast : (k : ZMod secpN) *
          ((invN k * ((bytesToNat digest % secpN + x % secpN * bytesToNat key) % secpN) % secpN : Nat) :
            ZMod secpN) = ((bytesToNat digest % secpN : Nat) : ZMod secpN) +
              ((x % secpN : Nat) : ZMod secpN) * ((bytesToNat key : Nat) : ZMod secpN) := by
        rw [ZMod.natCast_mod (invN k * _), Nat.cast_mul, cast_invN, ZMod.natCast_mod (_ + _),
          Nat.cast_add, Nat.cast_mul, mul_inv_cancel_left₀ hkz]
      have tail : ∀ (s recid1 k1 : Nat), s ≠ 0 → s ≤ secpN / 2 → recid1 < 2 →
          Represents (some (x, if y % 2 = recid1 % 2 then y else (secpP - y) % secpP)) (k1 • A) →
          (k1 : ZMod secpN) * (s : ZMod secpN) = ((bytesToNat digest % secpN : Nat) : ZMod secpN) +
              ((x : Nat) : ZMod secpN) * ((bytesToNat key : Nat) : ZMod secpN) →
          x < secpN → x ≠ 0 →
          secpRecover digest (toBytesBE 32 x ++ toBytesBE 32 s) recid1 =
              pointBytes (mulPt 256 (bytesToNat key) secpG) ∧
            ∃ r s1, toBytesBE 32 x ++ toBytesBE 32 s = toBytesBE 32 r ++ toBytesBE 32 s1 ∧
              r < secpN ∧ s1 ≤ secpN / 2 := by
        intro s recid1 k1 hs0 hs hr1 hpt hks hxN hx0
        have hsN : s < secpN := by omega
        refine ⟨?_, x, s, rfl, hxN, hs⟩
        rw [secpRecover_eq digest x s recid1 y hx0 hxN hs0 hsN hr1 hxP hyP hcurve,
          recover_combination A hA hNA (bytesToNat key) (bytesToNat digest % secpN) x s k1 _
            hx0 hxN hd hpt hks]
      split at h
      · exact absurd h (by simp)
      · rename_i hrs
        have hr0 : x % secpN ≠ 0 := fun h0 => hrs (Or.inl h0)
        have hs0 : invN k * ((bytesToNat digest % secpN + x % secpN * bytesToNat key) % secpN)
            % secpN ≠ 0 := fun h0 => hrs (Or.inr h0)
        have hslt := Nat.mod_lt
          (invN k * ((bytesToNat digest % secpN + x % secpN * bytesToNat key) % secpN)) hNpos
        have hcases : (if secpN ≤ x then 2 else 0) = 0 ∨ (if secpN ≤ x then 2 else 0) = 2 := by
          by_cases hx : secpN ≤ x
          · right; rw [if_pos hx]
          · left; rw [if_neg hx]
        split at h
        · rename_i hhigh
          obtain ⟨hsig, hid⟩ := Prod.mk.inj (Option.some.inj h)
          subst hsig
          subst hid
          have hx := xor_one_cases _ (y % 2) hcases hy2 hrec
          have hxN : x < secpN := by
            by_contra hc
            rw [if_pos (not_lt.mp hc)] at hx
            exact absurd hx.1 (by decide)
          have hxm : x % secpN = x := Nat.mod_eq_of_lt hxN
          rw [hxm] at hr0 hs0 hslt hhigh hs0cast ⊢
          have hpar : ¬ (y % 2 = Nat.xor ((if secpN ≤ x then 2 else 0) + y % 2) 1 % 2) := by
            intro hp
            exact hx.2 (by rw [Nat.mod_mod]; exact hp.symm)
          refine tail _ _ (secpN - k) (by omega) (by omega) hrec ?_ ?_ hxN hr0
          · rw [if_neg hpar, ← neg_nsmul_base A hNA k hk.le]
            exact rep_neg x y _ hrep
          · rw [castN_sub k hk.le, castN_sub _ hslt.le, neg_mul_neg, hs0cast]
        · rename_i hlow
          obtain ⟨hsig, hid⟩ := Prod.mk.inj (Option.some.inj h)
          subst hsig
          subst hid
          have hxN : x < secpN := by
            by_contra hc
            rw [if_pos (not_lt.mp hc)] at hrec
            omega
          have hxm : x % secpN = x := Nat.mod_eq_of_lt hxN
          rw [hxm] at hr0 hs0 hslt hlow hs0cast ⊢
          have hpar : y % 2 = ((if secpN ≤ x then 2 else 0) + y % 2) % 2 := by
            rw [if_neg (not_le.mpr hxN), Nat.zero_add, Nat.mod_mod]
          refine tail _ _ k hs0 (not_lt.mp hlow) hrec ?_ hs0cast hxN hr0
          rw [if_pos hpar]
          exact hrep


/-! ## The sender of a signed transaction -/

theorem list_nine (l : List Bytes) (h : l.length = 9) :
    ∃ a0 a1 a2 a3 a4 a5 a6 a7 a8, l = [a0, a1, a2, a3, a4, a5, a6, a7, a8] := by
  match l, h with
  | [a0, a1, a2, a3, a4, a5, a6, a7, a8], _ => exact ⟨a0, a1, a2, a3, a4, a5, a6, a7, a8, rfl⟩

theorem signed_fields (raw : List Bytes) (h : raw.length = 9) (r s v : Bytes) :
    (((raw.set 7 r).set 8 s).set 6 v).getD 6 [] = v ∧
      (((raw.set 7 r).set 8 s).set 6 v).getD 7 [] = r ∧
      (((raw.set 7 r).set 8 s).set 6 v).getD 8 [] = s ∧
      (((raw.set 7 r).set 8 s).set 6 v).take 6 = raw.take 6 := by
  obtain ⟨a0, a1, a2, a3, a4, a5, a6, a7, a8, rfl⟩ := list_nine raw h
  exact ⟨rfl, rfl, rfl, rfl⟩

/-- The base point has order exactly `n`: a scalar between 0 and `n` does not send it to
the point at infinity. -/
theorem mulPt_base_ne_none (d : Nat) (h0 : d ≠ 0) (hd : d < secpN) :
    mulPt 256 d secpG ≠ none := by
  obtain ⟨A, hA, hNA⟩ := exists_base
  intro hnone
  have hz : d • A = 0 := rep_mul_eq 256 d secpG A none (lt_trans hd secpN_lt) hA hnone
  have hA0 : A ≠ 0 := by
    intro hA0
    subst hA0
    exact absurd (rep_unique _ _ _ hA (show Represents none 0 from rfl)) (by simp [secpG])
  have hdvd := addOrderOf_dvd_of_nsmul_eq_zero hNA
  rcases (Nat.dvd_prime prime_secpN).mp hdvd with h1 | hN
  · exact hA0 (AddMonoid.addOrderOf_eq_one_iff.mp h1)
  · have hdd := addOrderOf_dvd_of_nsmul_eq_zero hz
    rw [hN] at hdd
    exact absurd (Nat.le_of_dvd (Nat.pos_of_ne_zero h0) hdd) (by omega)

theorem privateToPublic_isSome (k : Nat) (digest key : Bytes) (out : Bytes × Nat)
    (h : ecdsaSignWith k digest key = some out) : (privateToPublic key).isSome = true := by
  unfold ecdsaSignWith at h
  dsimp only at h
  split at h
  · exact absurd h (by simp)
  · rename_i hvalid
    rw [privateToPublic_eq key (by omega) (by omega) (by omega)]
    have hne := mulPt_base_ne_none (bytesToNat key) (by omega) (by omega)
    match hm : mulPt 256 (bytesToNat key) secpG, hne with
    | some (x, y), _ => rfl

/-- Signing with a signature made of two 32-byte numbers, `s` in the lower half and a
recovery id of 0 or 1, gives a transaction whose sender is recovered from that
signature over the digest of the unsigned fields. -/
theorem senderAddress_signed (lib : Lib Bytes) (tx : Tx) (key : Bytes) (sig : Bytes × Nat)
    (r s : Nat) (hlen : tx.raw.length = 9)
    (hlib : lib.sign (tx.hash lib) key = some sig)
    (hsig : sig.1 = toBytesBE 32 r ++ toBytesBE 32 s)
    (hs : s ≤ secpN / 2) (hrec : sig.2 < 2) :
    ∃ signed, tx.sign lib key = .ok signed ∧
      signed.senderAddress lib =
        (secpRecover (tx.hash lib) sig.1 sig.2).map (publicToAddress lib.keccak256) := by
  refine ⟨_, Tx_sign_ok lib tx key sig hlib, ?_⟩
  obtain ⟨h6, h7, h8, ht⟩ := signed_fields tx.raw hlen
    (stripZeros (slice sig.1 0 32)) (stripZeros (slice sig.1 32 64)) (intToBuffer (sig.2 + 27))
  have hN := secpN_lt
  have h256 : (256 : Nat) ^ 32 = 2 ^ 256 := by norm_num
  have hsl : slice sig.1 0 32 = toBytesBE 32 r := by
    rw [hsig, slice_append_left _ _ 32 (length_toBytesBE 32 r)]
  have hsr : slice sig.1 32 64 = toBytesBE 32 s := by
    rw [hsig, slice_append_right _ _ 32 64 (length_toBytesBE 32 r) (by rw [length_toBytesBE])]
  have hhash : Tx.hash lib
      { raw := ((tx.raw.set 7 (stripZeros (slice sig.1 0 32))).set 8
          (stripZeros (slice sig.1 32 64))).set 6 (intToBuffer (sig.2 + 27)) } = tx.hash lib :=
    congrArg (fun l => lib.keccak256 (rlpEncode l)) ht
  unfold Tx.senderAddress
  dsimp only
  rw [hhash, h6, h7, h8, bytesToNat_stripZeros, bytesToNat_intToBuffer, hsl, hsr,
    bytesToNat_toBytesBE, h256, Nat.mod_eq_of_lt (by omega : s < 2 ^ 256),
    if_neg (by omega)]
  unfold ecrecover
  rw [if_pos (by omega), Nat.add_sub_cancel,
    setLength_stripZeros _ 32 (length_toBytesBE 32 r),
    setLength_stripZeros _ 32 (length_toBytesBE 32 s), ← hsig]


/-! ## The signer of the script -/

/-- The address of the key of the script is the sending account. -/
theorem address_of_privateKey1 :
    privateToAddress keccak256 privateKey1 = some (fromHex (account1.data.drop 2)) := by
  decide!

/-- C7: for every private key, every transaction (its nine field buffers) and every
nonce with which ECDSA over secp256k1 signs the digest of the serialized unsigned fields
(which requires a valid key: 32 bytes, a scalar between 0 and the group order), when
the recovery id of the signature is 0 or 1, signing succeeds, the address recovered
from the `v`, `r`, `s` that signing stored, over the digest of the unsigned fields, is
defined and is the address of the private key; and for Keccak-256 and the key of the
script that address is the sending account 0xEAd512784C92797Fdc037Ee8135FfFfD0f01C250. -/
theorem C7_recovered_signer (lib : Lib Bytes) (key : Bytes) (tx : Tx) (k : Nat)
    (sig : Bytes × Nat) (hlen : tx.raw.length = 9)
    (hlib : lib.sign (tx.hash lib) key = some sig)
    (hsign : ecdsaSignWith k (tx.hash lib) key = some sig)
    (hrec : sig.2 < 2) :
    ∃ signed addr, tx.sign lib key = .ok signed ∧
      signed.senderAddress lib = some addr ∧
      privateToAddress lib.keccak256 key = some addr ∧
      (lib.keccak256 = keccak256 → key = privateKey1 →
        addr = fromHex (account1.data.drop 2)) := by
  obtain ⟨hrecover, r, s, hsig, _, hs⟩ :=
    recover_signed k (tx.hash lib) key sig.1 sig.2 hsign hrec
  obtain ⟨signed, hsigned, hsender⟩ :=
    senderAddress_signed lib tx key sig r s hlen hlib hsig hs hrec
  have hsome := privateToPublic_isSome k (tx.hash lib) key _ hsign
  obtain ⟨pub, hpub⟩ := Option.isSome_iff_exists.mp hsome
  have haddr : privateToAddress lib.keccak256 key = some (publicToAddress lib.keccak256 pub) := by
    unfold privateToAddress
    rw [hpub]
    rfl
  refine ⟨signed, publicToAddress lib.keccak256 pub, hsigned, ?_, haddr, ?_⟩
  · rw [hsender, hrecover, hpub]
    rfl
  · intro hk hkey
    rw [hk, hkey, address_of_privateKey1] at haddr
    rw [hk]
    exact (Option.some.inj haddr).symm

theorem C7_recovered_signer_witness :
    ∃ signed addr,
      Tx.sign (ethLib (fun _ _ => 77)) { raw := scriptRaw [5] } privateKey1 = .ok signed ∧
      signed.senderAddress (ethLib (fun _ _ => 77)) = some addr ∧
      privateToAddress (ethLib (fun _ _ => 77)).keccak256 privateKey1 = some addr ∧
      ((ethLib (fun _ _ => 77)).keccak256 = keccak256 → privateKey1 = privateKey1 →
        addr = fromHex (account1.data.drop 2)) :=
  C7_recovered_signer (ethLib (fun _ _ => 77)) privateKey1 { raw := scriptRaw [5] } 77
    (fromHex ("59dbf46f8c94759ba21277c33784f41645f7b44f6c596a58ce92e666191abe3e" ++
      "43914bf729d2aef070e796aa4efa9763c1502439f89c0b2aee1cbb296246a69a").data, 1)
    (by decide) (by decide!) (by decide!) (by decide)

end Swisc
